import Mathlib

/-!
# cping: probe engine, ring buffer and packet codec

A shallow embedding of the engine part of `src/cping.c` (ring buffer, outcome
encoder, statistics, checksum, header parsing, one sender tick, one receiver
step), of the line trimming of its configuration reader and of the scroll and
select functions of its display, followed by theorems about them.

Conventions of the embedding.

* C `int` values are `Int`; the counters and indices of the engine stay far
  inside the 32-bit range, so no wrap-around is modelled for them.  Conversions
  that do change a value are explicit: `toU8` (int to `uint8_t`), `toSizeT`
  (int to `size_t` in a comparison against `sizeof`), `toInt` (double to int).
* A C `double` holds a rational number (infinities and NaN are left out).
  The sum `dt+0.5` of `ByteTime`, whose rounding decides the byte, is rounded
  to the nearest double (`roundDouble`); the statistics accumulate in exact
  arithmetic.  `sqrt` (libm) is a parameter.
* Memory addressed through a pointer is a function from index to byte.
  A ring buffer `uint8_t buf[nsec]` is `Int → Nat`, indexed by the C `int`
  the code computes; only indices `0 .. nsec-1` belong to the array.
* 16-bit fields that the code reads or writes through `unsigned short*` or a
  struct member are in host byte order; the host is little-endian.
* One call of `Receive` is one pass through the body of its loop (one
  datagram); one call of `SendPing` is one pass through the body of its loop.
-/

namespace Cping

/-! ## Constants -/

/-- Ping TTL (`#define pTTL 64`). -/
def pTTL : Int := 64

/-- Trace TTL (`#define tTTL 24`). -/
def tTTL : Int := 24

/-- Max length of ping trace in seconds (`#define nsec 3600`). -/
def nsec : Int := 3600

/-- Special ping value: slot never written. -/
def NoPing : Nat := 0xFF

/-- Special ping value: no reply. -/
def LostPing : Nat := 0xFE

/-- Special ping value: reply after the slot was marked lost. -/
def LatePing : Nat := 0xFD

/-- ICMP type Echo Reply. -/
def ICMP_ECHOREPLY : Int := 0

/-- ICMP type Destination Unreachable. -/
def ICMP_UNREACH : Int := 3

/-- ICMP type Echo Request. -/
def ICMP_ECHO : Nat := 8

/-- ICMP type Time Exceeded. -/
def ICMP_TIME_EXCEEDED : Int := 11

/-- The value of `sizeof(struct ip)`: an IPv4 header without options. -/
def sizeofIp : Nat := 20

/-- The value of `sizeof(struct icmphdr)`: type, code, checksum, id, sequence. -/
def sizeofIcmphdr : Nat := 8

/-- The value of `sizeof(double)`. -/
def sizeofDouble : Nat := 8

/-! ## Conversions -/

/-- Rounding of a rational number to the nearest integer, a tie going to the
even one. -/
def roundEven (y : ℚ) : Int :=
  let f := ⌊y⌋
  if y - f < 1 / 2 then f
  else if 1 / 2 < y - f then f + 1
  else if f % 2 = 0 then f else f + 1

/-- The IEEE-754 binary64 number nearest to `x`, a tie going to the even
significand: 53 significant bits, the unit in the last place not below
`2^-1074`.  This is the result a `double` operation delivers for the exact
result `x` (of magnitude below `2^1024`). -/
def roundDouble (x : ℚ) : ℚ :=
  if x = 0 then 0
  else
    let e := Int.log 2 |x|
    let q := max (e - 52) (-1074)
    (roundEven (x / 2 ^ q) : ℚ) * 2 ^ q

/-- Conversion of a `double` to `int`: the fractional part is discarded
(truncation toward zero).  When the truncated value does not fit an `int` the
C conversion is undefined; the value here is the one the x86-64 conversion
instruction delivers, `INT_MIN`. -/
def toInt (x : ℚ) : Int :=
  let t : Int := if 0 ≤ x then ⌊x⌋ else ⌈x⌉
  if -2 ^ 31 ≤ t ∧ t < 2 ^ 31 then t else -2 ^ 31

/-- Conversion of an `int` to `uint8_t`: reduction modulo 256. -/
def toU8 (i : Int) : Nat := (i % 256).toNat

/-- Conversion of an `int` to `size_t`, which the usual arithmetic conversions
apply to an `int` compared with a `sizeof` value: reduction modulo 2^64, so a
negative `int` becomes a very large unsigned number. -/
def toSizeT (i : Int) : Nat := (i % 2 ^ 64).toNat

/-! ## Data model -/

/-- Statistics record (`Stat`). -/
structure Stat where
  n : Int
  S : ℚ
  S2 : ℚ
  min : ℚ
  max : ℚ
  avg : ℚ
  std : ℚ
  lost : Int
  late : Int

/-- Ring buffer (`Ping`): current index and buffer of replies. -/
structure Ping where
  cur : Int
  buf : Int → Nat

/-- Traceroute hop (`Trace`); the display strings are left out. -/
structure Trace where
  ip : Nat
  dt : ℚ
  ping : Ping
  stat : Stat

/-- Ping target (`Target`); the display strings and socket address are left out. -/
structure Target where
  silent : Int
  dt : ℚ
  ping : Ping
  stat : Stat
  ttl : Int
  ip : Nat

/-- The global variables the engine reads or writes. -/
structure Engine where
  delt : Int
  ntar : Int
  sel : Int
  pt : Int → Target
  pingid : Int
  seq : Int
  tt : Int → Trace
  tseq : Int
  nhop : Int
  traceid : Int
  num : Int
  total : Int
  run : Int

/-- The output parameters of `UnpackHeader`. -/
structure Hdr where
  ttl : Int
  rtp : Int
  rcd : Int
  rid : Int
  rsq : Int

/-! ## Ring buffer and statistics -/

/-- Initialize statistics (`InitStat`). -/
def InitStat : Stat :=
  { n := 0, S := 0, S2 := 0, min := -1, max := -1, avg := -1, std := -1,
    lost := -1, late := 0 }

/-- Initialize ping buffer (`InitPing`). -/
def InitPing (ping : Ping) : Ping :=
  { cur := nsec - 1
    buf := fun i => if 0 ≤ i ∧ i < nsec then NoPing else ping.buf i }

/-- Set pings (`SetPing`): write `val` at `(cur+off) % nsec`. -/
def SetPing (ping : Ping) (off : Int) (val : Nat) : Ping :=
  let k := (ping.cur + off).tmod nsec
  { ping with buf := fun i => if i = k then val else ping.buf i }

/-- Get pings (`GetPing`): read at `(cur+off+delt) % nsec`. -/
def GetPing (delt : Int) (ping : Ping) (off : Int) : Nat :=
  let k := (ping.cur + off + delt).tmod nsec
  ping.buf k

/-- Shift ping buffer (`PingShift`). -/
def PingShift (delt : Int) (ping : Ping) (stat : Stat) : Ping × Stat :=
  let stat1 : Stat :=
    if stat.lost < 0 then { stat with lost := 0 }
    else if GetPing delt ping 0 = LostPing ∧ stat.lost < 99999 then
      { stat with lost := stat.lost + 1 }
    else stat
  let cur1 := ping.cur - 1
  let cur2 := if cur1 < 0 then cur1 + nsec else cur1
  (SetPing { ping with cur := cur2 } 0 LostPing, stat1)

/-- A run of `PingShift` calls on one ring and its statistics, one call per
element of `ds`, which gives the value `delt` had at each call. -/
def PingShifts (ds : List Int) (ps : Ping × Stat) : Ping × Stat :=
  ds.foldl (fun acc d => PingShift d acc.1 acc.2) ps

/-- Update ping stats (`Stats`). -/
def Stats (sqrt : ℚ → ℚ) (dt : ℚ) (stat : Stat) : Stat :=
  let n := stat.n + 1
  let S := stat.S + dt
  let S2 := stat.S2 + dt * dt
  let mn := if stat.min < 0 ∨ dt < stat.min then dt else stat.min
  let mx := if stat.max < 0 ∨ dt > stat.max then dt else stat.max
  { stat with
    n := n, S := S, S2 := S2, min := mn, max := mx
    avg := S / n
    std := if n > 1 then sqrt ((S2 - S * S / n) / (n - 1)) else 0 }

/-! ## Outcome encoder -/

/-- Encode time as byte (`ByteTime`): upper nibble exponent base 10, lower
nibble mantissa 0-9.  The sum `dt+0.5` is a `double` sum. -/
def ByteTime (dt : ℚ) : Nat :=
  let idt : Int := toInt (roundDouble (dt + 1 / 2))
  if idt < 10 then toU8 idt
  else if idt < 100 then toU8 (idt.tdiv 10 + 0x10)
  else if idt < 1000 then toU8 (idt.tdiv 100 + 0x20)
  else if idt < 10000 then toU8 (idt.tdiv 1000 + 0x30)
  else LostPing

/-- The exponent of an outcome byte as `DrawPing` reads it: `ch>>4`. -/
def expo (ch : Nat) : Nat := ch >>> 4

/-- The mantissa of an outcome byte as `DrawPing` reads it: `ch&0xF`. -/
def mant (ch : Nat) : Nat := ch &&& 0xF

/-! ## Packet codec -/

/-- The `while (len>1)` loop of `checksum` and the odd trailing byte: `i` is
the index of the next 16-bit word, `len` the bytes left, `sum` the
accumulator. -/
def sumLoop (data : Nat → Nat) : Nat → Nat → Nat → Nat
  | _, 0, sum => sum
  | i, 1, sum => sum + data (2 * i)
  | i, len + 2, sum => sumLoop data (i + 1) len (sum + (data (2 * i) + 256 * data (2 * i + 1)))

/-- The two folding steps of `checksum`: add hi 16 to low 16, then add carry. -/
def fold16 (sum : Nat) : Nat :=
  let s1 := (sum >>> 16) + (sum &&& 0xffff)
  s1 + (s1 >>> 16)

/-- Calculate checksum (`checksum`).  The accumulator is a C `int`; for
`len ≤ 8192` it stays below `2^29`, so it is a natural number here.  The last
step `csum = ~sum` keeps the low 16 bits of the complement. -/
def checksum (data : Nat → Nat) (len : Int) : Nat :=
  let sum := fold16 (sumLoop data 0 len.toNat 0)
  0xFFFF - sum % 0x10000

/-- Store of a 16-bit value into the `checksum` member of the ICMP header
(bytes 2 and 3). -/
def setChecksum (data : Nat → Nat) (c : Nat) : Nat → Nat :=
  fun i => if i = 2 then c % 256 else if i = 3 then c / 256 % 256 else data i

/-- The packet `ICMP` hands to `sendto`, before the checksum is filled in:
header with type, code, zero checksum, id and sequence, then the eight bytes
`time` of the send timestamp. Bytes beyond the 16 set here are whatever
`rest` holds. -/
def ICMPbuf (id seq : Int) (time : Nat → Nat) (rest : Nat → Nat) : Nat → Nat :=
  fun i =>
    if i = 0 then ICMP_ECHO
    else if i = 1 then 0
    else if i = 2 then 0
    else if i = 3 then 0
    else if i = 4 then (id % 65536).toNat % 256
    else if i = 5 then (id % 65536).toNat / 256
    else if i = 6 then (seq % 65536).toNat % 256
    else if i = 7 then (seq % 65536).toNat / 256
    else if i < 16 then time (i - 8) % 256
    else rest i

/-- The packet `ICMP` sends (`ICMP`): `ICMPbuf` with its checksum stored. -/
def ICMP (id seq : Int) (time : Nat → Nat) (rest : Nat → Nat) : Nat → Nat :=
  let buf := ICMPbuf id seq time rest
  let len : Int := sizeofIcmphdr + sizeofDouble
  setChecksum buf (checksum buf len)

/-- Unpack IP/ICMP header (`UnpackHeader`).  Returns the offset `len` (0 for
ignore) and the output parameters, which keep the values of `h` where the
function returns before writing them. -/
def UnpackHeader (data : Nat → Nat) (l : Int) (h : Hdr) : Int × Hdr :=
  if toSizeT l < sizeofIp then (0, h)
  else
    let h1 : Hdr := { h with ttl := data 8 }
    let hlen : Nat := (data 0 % 16) <<< 2
    let l1 : Int := l - hlen
    if toSizeT l1 < sizeofIcmphdr then (0, h1)
    else
      let h2 : Hdr :=
        { h1 with
          rtp := data hlen
          rcd := data (hlen + 1)
          rid := data (hlen + 4) + 256 * data (hlen + 5)
          rsq := data (hlen + 6) + 256 * data (hlen + 7) }
      ((hlen : Int) + sizeofIcmphdr, h2)

/-- Pointer advance `data += off`. -/
def advance (data : Nat → Nat) (off : Int) : Nat → Nat :=
  fun i => data (i + off.toNat)

/-! ## Sender -/

/-- The sequence counter update of `SendPing`: `seq++; if (seq>65535) seq=nsec;`. -/
def nextSeq (seq : Int) : Int :=
  let s := seq + 1
  if s > 65535 then nsec else s

/-- One pass through the loop body of `SendPing` (one tick); sending and
sleeping have no effect on the engine state. -/
def SendPing (E : Engine) : Engine :=
  let tseq := nextSeq E.tseq
  let tt : Int → Trace := fun k =>
    if 0 ≤ k ∧ k < tTTL then
      let r := PingShift E.delt (E.tt k).ping (E.tt k).stat
      { E.tt k with dt := 0, ip := 0, ping := r.1, stat := r.2 }
    else E.tt k
  let seq := nextSeq E.seq
  let pt : Int → Target := fun k =>
    if 0 ≤ k ∧ k < E.ntar then
      let r := PingShift E.delt (E.pt k).ping (E.pt k).stat
      { E.pt k with ping := r.1, stat := r.2 }
    else E.pt k
  { E with
    total := E.total + 1, tseq := tseq, nhop := tTTL, tt := tt, seq := seq, pt := pt
    run := if E.num > 0 ∧ seq ≥ E.num then 0 else E.run }

/-! ## Receiver -/

/-- The host lookup loop of `Receive`:
`for (i=0;i<ntar && host<0;i++) if (addr==pt[i].ip) host = i;`
with `m` iterations left from index `i`; `-1` when no target has the address. -/
def findHost (pt : Int → Target) (addr : Nat) : Nat → Int → Int
  | 0, _ => -1
  | m + 1, i => if addr = (pt i).ip then i else findHost pt addr m (i + 1)

/-- The offset into the ping array of a late reply, as `Receive` computes it:
`k = seq-rsq; if (k<0) k += 65536-nsec;`. -/
def lateOffset (seq rsq : Int) : Int :=
  let k := seq - rsq
  if k < 0 then k + (65536 - nsec) else k

/-- The hop update `Receive` makes for a traceroute reply in row `rsq-1`. -/
def hopUpdate (sqrt : ℚ → ℚ) (tt : Int → Trace) (rsq : Int) (dt : ℚ) (src : Nat) :
    Int → Trace :=
  let t := tt (rsq - 1)
  let t1 : Trace :=
    { t with dt := dt, ip := src, ping := SetPing t.ping 0 (ByteTime dt),
             stat := Stats sqrt dt t.stat }
  fun i => if i = rsq - 1 then t1 else tt i

/-- One pass through the loop body of `Receive`: the datagram in `buf`, of
length `l` as `recvfrom` returned it, from address `src`.  `elapsed data` is
the value of `1000*(now()-t0)` with `t0` the double at `data`; `h0` holds the
indeterminate initial values of the locals `ttl,rtp,rcd,rid,rsq`. -/
def Receive (sqrt : ℚ → ℚ) (elapsed : (Nat → Nat) → ℚ) (E : Engine)
    (buf : Nat → Nat) (l : Int) (src : Nat) (h0 : Hdr) : Engine :=
  if l < 0 then E
  else
    let host := findHost E.pt src E.ntar.toNat 0
    let r := UnpackHeader buf l h0
    let off := r.1
    let h := r.2
    if off = 0 then E
    else
      let data := advance buf off
      let l1 := l - off
      if h.rtp = ICMP_ECHOREPLY ∧ toSizeT l1 ≥ sizeofDouble then
        let dt := elapsed data
        if h.rid = E.pingid ∧ host ≥ 0 then
          let t := E.pt host
          if h.rsq = E.seq then
            let t1 : Target :=
              { t with ttl := h.ttl, dt := dt, ping := SetPing t.ping 0 (ByteTime dt),
                       stat := Stats sqrt dt t.stat }
            { E with pt := fun i => if i = host then t1 else E.pt i }
          else
            let st : Stat := { t.stat with late := t.stat.late + 1 }
            let k := lateOffset E.seq h.rsq
            let pg : Ping :=
              if 0 < k ∧ k < nsec ∧ GetPing E.delt t.ping k = LostPing then
                SetPing t.ping k LatePing
              else t.ping
            let t1 : Target := { t with stat := st, ping := pg }
            { E with pt := fun i => if i = host then t1 else E.pt i }
        else if h.rid = E.traceid ∧ h.rsq > 0 ∧ h.rsq ≤ E.nhop then
          let nhop := if h.rsq < E.nhop then h.rsq else E.nhop
          { E with nhop := nhop, tt := hopUpdate sqrt E.tt h.rsq dt src }
        else E
      else if h.rtp = ICMP_TIME_EXCEEDED then
        let r2 := UnpackHeader data l1 h
        let off2 := r2.1
        let hh := r2.2
        if off2 = 0 then E
        else
          let data2 := advance data off2
          let l2 := l1 - off2
          if toSizeT l2 < sizeofDouble then E
          else
            let dt := elapsed data2
            if hh.rid = E.traceid ∧ hh.rsq > 0 ∧ hh.rsq ≤ E.nhop then
              { E with tt := hopUpdate sqrt E.tt hh.rsq dt src }
            else E
      else if h.rtp = ICMP_UNREACH then
        let r2 := UnpackHeader data l1 h
        let off2 := r2.1
        let hh := r2.2
        if off2 = 0 then E
        else if hh.rid = E.traceid ∧ hh.rsq > 0 ∧ hh.rsq < E.nhop then
          let t := E.tt (hh.rsq - 1)
          let t1 : Trace := { t with dt := -1, ip := src }
          { E with nhop := hh.rsq, tt := fun i => if i = hh.rsq - 1 then t1 else E.tt i }
        else E
      else E

/-! ## Initialisation, identifiers, runs -/

/-- Initialize traceroute (`InitTrace`). -/
def InitTrace (E : Engine) : Engine :=
  { E with
    tseq := 0
    tt := fun k =>
      if 0 ≤ k ∧ k < tTTL then { E.tt k with stat := InitStat, ping := InitPing (E.tt k).ping }
      else E.tt k }

/-- The identifiers `InitSock` derives from the process id `pid` (the value of
`getpid()`, a positive number): `pingid` and `traceid`. -/
def InitSock (pid : Nat) : Nat × Nat :=
  let pingid := (pid &&& 0x7FFF) <<< 1
  let traceid := pingid ||| 0x01
  (pingid, traceid)

/-- One step of the engine: a pass of the sender loop, or a pass of the
receiver loop on one datagram (with the clock reading `elapsed` of that
moment). -/
inductive Event where
  | tick : Event
  | recv (elapsed : (Nat → Nat) → ℚ) (buf : Nat → Nat) (l : Int) (src : Nat) (h0 : Hdr) : Event

/-- The effect of one event on the engine state. -/
def step (sqrt : ℚ → ℚ) (E : Engine) : Event → Engine
  | Event.tick => SendPing E
  | Event.recv elapsed buf l src h0 => Receive sqrt elapsed E buf l src h0

/-- The engine state after a sequence of events, in any interleaving. -/
def runEvents (sqrt : ℚ → ℚ) (E : Engine) (evs : List Event) : Engine :=
  evs.foldl (step sqrt) E

/-- The number of sender ticks among the events. -/
def ticks : List Event → Nat
  | [] => 0
  | Event.tick :: evs => ticks evs + 1
  | Event.recv _ _ _ _ _ :: evs => ticks evs

/-- The number of datagrams the receiver processed among the events. -/
def recvs : List Event → Nat
  | [] => 0
  | Event.tick :: evs => recvs evs
  | Event.recv _ _ _ _ _ :: evs => recvs evs + 1

/-- The state `ReadConfig` leaves: `seq = 0`, every target with a fresh ring
and fresh statistics. -/
def Fresh (E : Engine) : Prop :=
  E.seq = 0 ∧ ∀ k : Int, (E.pt k).stat = InitStat ∧ (E.pt k).ping = InitPing (E.pt k).ping

/-- The statistics after `InitStat` followed by `Stats` on each time of `ds`
in turn. -/
def StatsRun (sqrt : ℚ → ℚ) (ds : List ℚ) : Stat :=
  ds.foldl (fun st d => Stats sqrt d st) InitStat

/-! ## Configuration lines -/

/-- The C function `isspace` in the C locale: space, and tab to carriage return. -/
def isspace (c : Nat) : Bool := c = 32 || (9 ≤ c && c ≤ 13)

/-- The loop `while (l>0 && isspace((int)line[l-1])) l--;` of `ReadConfig`,
from the value `l`; a read beyond the text finds the terminating 0. -/
def trimLoop (line : List Nat) : Nat → Nat
  | 0 => 0
  | l + 1 => if isspace (line.getD l 0) then trimLoop line l else l + 1

/-- The text `ReadConfig` goes on to parse for a non-empty line as `fgets`
returned it: `l = strlen(line)-1`, the trim loop, `line[l] = 0`. -/
def trimLine (line : List Nat) : List Nat :=
  let l := line.length - 1
  line.take (trimLoop line l)

/-- The line with its terminator (a final newline, code 10, if there is one)
and all trailing white space removed, as the description of the
configuration file has it. -/
def canonicalTrim (line : List Nat) : List Nat :=
  let body := if line.getLast? = some 10 then line.dropLast else line
  (body.reverse.dropWhile isspace).reverse

/-! ## Display: scrolling and selection -/

/-- The globals of the display that scrolling reads or writes, next to `ntar`
and `sel` of the engine: `mode` (1 traceroute, 0 ping, -1 help), `nhdr`, the
window height `hgt`, the top entry `top`, and for each target whether it has a
header line (`pt[k].hdr` not null). -/
structure Screen where
  mode : Int
  nhdr : Int
  hgt : Int
  top : Int
  hdr : Int → Bool

/-- The loop of `Bottom`: `m` iterations left, at target `k`, with row
counter `i`. -/
def BottomLoop (ntar hgt : Int) (hdr : Int → Bool) : Nat → Int → Int → Int
  | 0, _, _ => ntar - 1
  | m + 1, k, i =>
    let i1 := i + (if hdr k then 2 else 1)
    if i1 = hgt then k
    else if i1 > hgt then k - 1
    else BottomLoop ntar hgt hdr m (k + 1) i1

/-- Figure out the bottom row (`Bottom`). -/
def Bottom (E : Engine) (s : Screen) (top : Int) : Int :=
  let i : Int := if E.ntar + s.nhdr + 1 < s.hgt ∨ s.hgt > 20 then 2 else 1
  BottomLoop E.ntar s.hgt s.hdr (E.ntar - top).toNat top i

/-- The loop `for (i=0;i<dir && Bottom(top)<ntar-1;i++) bot = Bottom(++top);`
of `Scroll`, with `m` iterations left, on the pair `(top, bot)`. -/
def scrollDown (E : Engine) (s : Screen) : Nat → Int × Int → Int × Int
  | 0, tb => tb
  | m + 1, tb =>
    if Bottom E s tb.1 < E.ntar - 1 then scrollDown E s m (tb.1 + 1, Bottom E s (tb.1 + 1))
    else tb

/-- Check that selected item is in range (`Scroll`). -/
def Scroll (dir : Int) (st : Engine × Screen) : Engine × Screen :=
  let E := st.1
  let s := st.2
  if E.ntar + s.nhdr + 1 < s.hgt then (E, { s with top := 0 })
  else if s.mode = 0 then
    let bot0 := Bottom E s s.top
    let tb : Int × Int :=
      if dir > 0 then scrollDown E s dir.toNat (s.top, bot0)
      else if dir < 0 then
        let top1 := if s.top + dir > 0 then s.top + dir else 0
        (top1, Bottom E s top1)
      else (s.top, bot0)
    let sel1 := if E.sel < tb.1 then tb.1 else E.sel
    let sel2 := if sel1 > tb.2 then tb.2 else sel1
    ({ E with sel := sel2 }, { s with top := tb.1 })
  else if dir = 0 then
    let bot := Bottom E s s.top
    let top1 := if E.sel < s.top then E.sel else s.top
    let top2 := if E.sel > bot then top1 - (E.sel - bot) else top1
    let top3 := if top2 < 0 then 0 else top2
    (E, { s with top := top3 })
  else (E, s)

/-- The loop `while (new<top) Scroll(-1);` of `newsel`, run for at most
`fuel` iterations: `none` when the loop is still running after them. -/
def scrollUpWhile (new : Int) : Nat → Engine × Screen → Option (Engine × Screen)
  | 0, st => if new < st.2.top then none else some st
  | fuel + 1, st =>
    if new < st.2.top then scrollUpWhile new fuel (Scroll (-1) st) else some st

/-- The loop `while (new>Bottom(top)) Scroll(+1);` of `newsel`, run for at
most `fuel` iterations: `none` when the loop is still running after them. -/
def scrollDownWhile (new : Int) : Nat → Engine × Screen → Option (Engine × Screen)
  | 0, st => if new > Bottom st.1 st.2 st.2.top then none else some st
  | fuel + 1, st =>
    if new > Bottom st.1 st.2 st.2.top then scrollDownWhile new fuel (Scroll 1 st)
    else some st

/-- The value `new` that `newsel` computes from `sel` and `dir`. -/
def newTarget (E : Engine) (dir : Int) : Int :=
  let new := E.sel + dir
  if new < 0 then 0 else if new ≥ E.ntar then E.ntar - 1 else new

/-- Select new target (`newsel`), with at most `fuel` iterations of its
scroll loop: `none` when the loop is still running after them. -/
def newsel (fuel : Nat) (dir : Int) (st : Engine × Screen) : Option (Engine × Screen) :=
  let new := newTarget st.1 dir
  let r := if dir < 0 then scrollUpWhile new fuel st else scrollDownWhile new fuel st
  match r with
  | none => none
  | some st1 => some (InitTrace { st1.1 with sel := new, nhop := 0 }, st1.2)

/-- The rows that `m` targets from target `k` on take on the screen: one per
target and one more for each header line. -/
def rowsFrom (hdr : Int → Bool) : Nat → Int → Int
  | 0, _ => 0
  | m + 1, k => (if hdr k then 2 else 1) + rowsFrom hdr m (k + 1)

/-! ## Classification of datagrams and sample data -/

/-- The datagram is one `Receive` handles as a late ping reply: it parses, is
an Echo Reply with room for the timestamp, carries `pingid`, comes from a
known target, and its sequence differs from the current `seq`. -/
def LatePingReply (E : Engine) (buf : Nat → Nat) (l : Int) (src : Nat) (h0 : Hdr) : Prop :=
  0 ≤ l ∧ (UnpackHeader buf l h0).1 ≠ 0 ∧
  (UnpackHeader buf l h0).2.rtp = ICMP_ECHOREPLY ∧
  toSizeT (l - (UnpackHeader buf l h0).1) ≥ sizeofDouble ∧
  (UnpackHeader buf l h0).2.rid = E.pingid ∧
  findHost E.pt src E.ntar.toNat 0 ≥ 0 ∧
  (UnpackHeader buf l h0).2.rsq ≠ E.seq

/-- A 36-byte Echo Reply datagram: 20-byte IP header (`0x45`, TTL 64), ICMP
type 0, id `0x0246`, sequence `rsq`, then eight payload bytes. -/
def sampleReply (rsq : Nat) : Nat → Nat :=
  fun i =>
    if i = 0 then 0x45
    else if i = 8 then 64
    else if i = 24 then 0x46
    else if i = 25 then 0x02
    else if i = 26 then rsq % 256
    else if i = 27 then rsq / 256
    else 0

/-- A ring with `cur = 100` whose slots hold the reply byte `0x05`, except
slot 102, which holds `LostPing`. -/
def sampleRing : Ping :=
  { cur := 100, buf := fun i => if i = 102 then LostPing else 0x05 }

/-- A target at address 1 with `sampleRing` and statistics after a first tick. -/
def sampleTarget : Target :=
  { silent := 0, dt := 0, ping := sampleRing, stat := { InitStat with lost := 0 },
    ttl := 64, ip := 1 }

/-- An untouched hop row. -/
def sampleTrace : Trace :=
  { ip := 0, dt := 0, ping := InitPing ⟨0, fun _ => 0⟩, stat := InitStat }

/-- An engine with one target, `seq = 7`, `pingid = 0x0246` and the given
scroll offset `delt`. -/
def sampleEngine (delt : Int) : Engine :=
  { delt := delt, ntar := 1, sel := 0, pt := fun _ => sampleTarget, pingid := 0x0246,
    seq := 7, tt := fun _ => sampleTrace, tseq := 7, nhop := 24, traceid := 0x0247,
    num := 0, total := 7, run := 1 }

/-- Indeterminate initial values of the header locals, here zero. -/
def sampleHdr : Hdr := { ttl := 0, rtp := 0, rcd := 0, rid := 0, rsq := 0 }

/-- A 20-byte datagram whose first byte `0x4F` announces a 60-byte IP header
(`ihl = 15`); all other bytes of the receive buffer are zero. -/
def shortDatagram : Nat → Nat :=
  fun i => if i = 0 then 0x4F else 0

/-- A receive buffer holding a 48-byte Time Exceeded datagram: outer IP header
(`0x45`, TTL 64), ICMP type 11, then 20 quoted bytes that start with `0x4F`.
Beyond the 48 received bytes the buffer still holds bytes of an earlier
datagram: at 92..95 the id `0x0247` and the sequence 3. -/
def quotedShort : Nat → Nat :=
  fun i =>
    if i = 0 then 0x45
    else if i = 8 then 64
    else if i = 20 then 11
    else if i = 28 then 0x4F
    else if i = 92 then 0x47
    else if i = 93 then 0x02
    else if i = 94 then 3
    else 0

/-- The datagram parses (outer header) and is not dropped at the start of
`Receive`. -/
def Parsed (buf : Nat → Nat) (l : Int) (h0 : Hdr) : Prop :=
  0 ≤ l ∧ (UnpackHeader buf l h0).1 ≠ 0

/-- The ICMP type of the datagram. -/
def outerType (buf : Nat → Nat) (l : Int) (h0 : Hdr) : Int :=
  (UnpackHeader buf l h0).2.rtp

/-- The id and sequence in the outer ICMP header. -/
def outerHdr (buf : Nat → Nat) (l : Int) (h0 : Hdr) : Hdr :=
  (UnpackHeader buf l h0).2

/-- The result of the second `UnpackHeader` call, on the quoted original
packet of a Time Exceeded or Destination Unreachable message. -/
def innerUnpack (buf : Nat → Nat) (l : Int) (h0 : Hdr) : Int × Hdr :=
  UnpackHeader (advance buf (UnpackHeader buf l h0).1) (l - (UnpackHeader buf l h0).1)
    (UnpackHeader buf l h0).2

/-- A well-formed Echo Reply: parses, type 0, at least eight bytes of payload. -/
def EchoReply (buf : Nat → Nat) (l : Int) (h0 : Hdr) : Prop :=
  Parsed buf l h0 ∧ outerType buf l h0 = ICMP_ECHOREPLY ∧
  toSizeT (l - (UnpackHeader buf l h0).1) ≥ sizeofDouble

/-- A well-formed Time Exceeded: parses, type 11, the quoted packet parses and
at least eight bytes follow its header. -/
def TimeExceeded (buf : Nat → Nat) (l : Int) (h0 : Hdr) : Prop :=
  Parsed buf l h0 ∧ outerType buf l h0 = ICMP_TIME_EXCEEDED ∧
  (innerUnpack buf l h0).1 ≠ 0 ∧
  ¬ toSizeT (l - (UnpackHeader buf l h0).1 - (innerUnpack buf l h0).1) < sizeofDouble

/-- A well-formed Destination Unreachable: parses, type 3, the quoted packet
parses. -/
def Unreachable (buf : Nat → Nat) (l : Int) (h0 : Hdr) : Prop :=
  Parsed buf l h0 ∧ outerType buf l h0 = ICMP_UNREACH ∧ (innerUnpack buf l h0).1 ≠ 0

/-- The payload pointer on which `Receive` computes the delay of a Time
Exceeded message. -/
def innerData (buf : Nat → Nat) (l : Int) (h0 : Hdr) : Nat → Nat :=
  advance (advance buf (UnpackHeader buf l h0).1) (innerUnpack buf l h0).1

/-- A 36-byte Echo Reply datagram like `sampleReply`, with the id `0x0247`. -/
def sampleTraceReply (rsq : Nat) : Nat → Nat :=
  fun i =>
    if i = 0 then 0x45
    else if i = 8 then 64
    else if i = 24 then 0x47
    else if i = 25 then 0x02
    else if i = 26 then rsq % 256
    else if i = 27 then rsq / 256
    else 0

/-- A target at address 1 as `ReadConfig` leaves it. -/
def freshTarget : Target :=
  { silent := 0, dt := -1, ping := InitPing ⟨0, fun _ => 0⟩, stat := InitStat, ttl := 0, ip := 1 }

/-- An engine right after start-up: one fresh target, `seq = 0`. -/
def freshEngine : Engine :=
  { delt := 0, ntar := 1, sel := 0, pt := fun _ => freshTarget, pingid := 0x0246,
    seq := 0, tt := fun _ => sampleTrace, tseq := 0, nhop := 0, traceid := 0x0247,
    num := 0, total := 0, run := 1 }

/-- One tick, then the reply to it delivered twice. -/
def duplicateRun : List Event :=
  [Event.tick,
   Event.recv (fun _ => 5) (sampleReply 1) 36 1 sampleHdr,
   Event.recv (fun _ => 5) (sampleReply 1) 36 1 sampleHdr]

/-- Two ticks, then the reply to the first (late) and the reply to the second
(on time), each delivered once. -/
def lateRun : List Event :=
  [Event.tick, Event.tick,
   Event.recv (fun _ => 1200) (sampleReply 1) 36 1 sampleHdr,
   Event.recv (fun _ => 5) (sampleReply 2) 36 1 sampleHdr]

/-- An engine with 30 targets at distinct addresses, selection `sel`. -/
def wideEngine (sel : Int) : Engine :=
  { freshEngine with
    ntar := 30, sel := sel, nhop := 24
    pt := fun k => { freshTarget with ip := k.toNat + 1 } }

/-- A 10-row window in the given mode with top entry `top`, no header lines. -/
def smallScreen (mode top : Int) : Screen :=
  { mode := mode, nhdr := 0, hgt := 10, top := top, hdr := fun _ => false }

/-- The largest `double` below one half, `0.49999999999999994`:
`(2^53 - 1) / 2^54`. -/
def halfPred : ℚ := 9007199254740991 / 18014398509481984

/-! ## The Internet checksum as the description has it -/

/-- One's-complement addition of two 16-bit numbers: the carry out of bit 15
is added back in (end-around carry). -/
def specOcAdd (a b : Nat) : Nat :=
  let s := a + b
  if s > 0xFFFF then s - 0xFFFF else s

/-- The 16-bit one's-complement sum of a list of 16-bit words. -/
def specOcSum (ws : List Nat) : Nat := ws.foldl specOcAdd 0

/-- The 16-bit words of `len` bytes from word index `i` on, the first byte of
a pair being the low byte; an odd trailing byte is the low byte of a final
word. -/
def specWords (data : Nat → Nat) : Nat → Nat → List Nat
  | _, 0 => []
  | i, 1 => [data (2 * i)]
  | i, len + 2 => (data (2 * i) + 256 * data (2 * i + 1)) :: specWords data (i + 1) len

/-! ## Outcome encoder: theorems -/

theorem roundEven_intCast (n : Int) : roundEven (n : ℚ) = n := by
  simp [roundEven]

theorem floor_le_roundEven (y : ℚ) : ⌊y⌋ ≤ roundEven y := by
  simp only [roundEven]
  split_ifs <;> omega

theorem roundEven_le_ceil (y : ℚ) : roundEven y ≤ ⌈y⌉ := by
  have hfc := Int.floor_le_ceil y
  simp only [roundEven]
  split_ifs with h1 h2 h3
  · exact hfc
  · have : (⌊y⌋ : ℚ) < y := by linarith
    have := Int.lt_ceil.mpr this
    omega
  · exact hfc
  · have hy : (⌊y⌋ : ℚ) < y := by
      have : (1 : ℚ) / 2 ≤ y - ⌊y⌋ := not_lt.mp h1
      linarith
    have := Int.lt_ceil.mpr hy
    omega

theorem le_roundEven {n : Int} {y : ℚ} (h : (n : ℚ) ≤ y) : n ≤ roundEven y :=
  le_trans (Int.le_floor.mpr h) (floor_le_roundEven y)

theorem roundEven_le {n : Int} {y : ℚ} (h : y ≤ (n : ℚ)) : roundEven y ≤ n :=
  le_trans (roundEven_le_ceil y) (Int.ceil_le.mpr h)

theorem roundDouble_nonneg {x : ℚ} (h : 0 ≤ x) : 0 ≤ roundDouble x := by
  unfold roundDouble
  split_ifs with hx
  · exact le_rfl
  · simp only []
    have hp : (0 : ℚ) < 2 ^ max (Int.log 2 |x| - 52) (-1074) := by positivity
    have : (0 : ℚ) ≤ x / 2 ^ max (Int.log 2 |x| - 52) (-1074) := by positivity
    have h0 : (0 : Int) ≤ roundEven (x / 2 ^ max (Int.log 2 |x| - 52) (-1074)) :=
      le_roundEven (by exact_mod_cast this)
    have : (0 : ℚ) ≤ (roundEven (x / 2 ^ max (Int.log 2 |x| - 52) (-1074)) : ℚ) := by
      exact_mod_cast h0
    positivity

/-- The form of `roundDouble` when the unit in the last place is `2^-k`. -/
theorem roundDouble_of_ulp {x : ℚ} (hx : x ≠ 0) (k : Nat)
    (hq : max (Int.log 2 |x| - 52) (-1074) = -(k : Int)) :
    roundDouble x = (roundEven (x * 2 ^ k) : ℚ) / 2 ^ k := by
  unfold roundDouble
  rw [if_neg hx]
  simp only [hq, zpow_neg, zpow_natCast]
  rw [div_inv_eq_mul, div_eq_mul_inv]

/-- Below `2^53` the unit in the last place is at most 1. -/
theorem ulp_of_lt {x : ℚ} (hx : x ≠ 0) (h : |x| < 2 ^ 53) :
    ∃ k : Nat, max (Int.log 2 |x| - 52) (-1074) = -(k : Int) := by
  have hpos : 0 < |x| := abs_pos.mpr hx
  have hl : Int.log 2 |x| < 53 := by
    apply (Int.lt_zpow_iff_log_lt (by norm_num) hpos).mp
    norm_num
    exact_mod_cast h
  refine ⟨(-(max (Int.log 2 |x| - 52) (-1074))).toNat, ?_⟩
  have : max (Int.log 2 |x| - 52) (-1074) ≤ 0 := by
    rw [max_le_iff]; constructor <;> omega
  omega

/-- Below `2^53` rounding to double does not pass an integer: an integer
below `x` stays below, an integer above stays above. -/
theorem roundDouble_int_bounds {x : ℚ} (h : |x| < 2 ^ 53) (n : Int) :
    ((n : ℚ) ≤ x → (n : ℚ) ≤ roundDouble x) ∧ (x ≤ (n : ℚ) → roundDouble x ≤ (n : ℚ)) := by
  by_cases hx : x = 0
  · subst hx; simp [roundDouble]
  · obtain ⟨k, hk⟩ := ulp_of_lt hx h
    rw [roundDouble_of_ulp hx k hk]
    have hp : (0 : ℚ) < 2 ^ k := by positivity
    constructor
    · intro hn
      have h1 : ((n * 2 ^ k : Int) : ℚ) ≤ x * 2 ^ k := by
        push_cast; exact mul_le_mul_of_nonneg_right hn hp.le
      have h2 : ((n * 2 ^ k : Int) : ℚ) ≤ (roundEven (x * 2 ^ k) : ℚ) := by
        exact_mod_cast le_roundEven h1
      rw [le_div_iff₀ hp]
      push_cast at h2; exact h2
    · intro hn
      have h1 : x * 2 ^ k ≤ ((n * 2 ^ k : Int) : ℚ) := by
        push_cast; exact mul_le_mul_of_nonneg_right hn hp.le
      have h2 : (roundEven (x * 2 ^ k) : ℚ) ≤ ((n * 2 ^ k : Int) : ℚ) := by
        exact_mod_cast roundEven_le h1
      rw [div_le_iff₀ hp]
      push_cast at h2; exact h2

/-- From `2^53` on the rounded value is at least `2^53`. -/
theorem roundDouble_large {x : ℚ} (h : 2 ^ 53 ≤ x) : 2 ^ 53 ≤ roundDouble x := by
  have hpos : (0 : ℚ) < x := lt_of_lt_of_le (by positivity) h
  have hx : x ≠ 0 := ne_of_gt hpos
  have habs : |x| = x := abs_of_pos hpos
  have hl : (53 : Int) ≤ Int.log 2 |x| := by
    apply (Int.zpow_le_iff_le_log (by norm_num) (abs_pos.mpr hx)).mp
    rw [habs]; norm_num; exact_mod_cast h
  have hle : ((2 : ℕ) : ℚ) ^ Int.log 2 |x| ≤ |x| :=
    Int.zpow_log_le_self (by norm_num) (abs_pos.mpr hx)
  rw [habs] at hle hl
  have hq : max (Int.log 2 x - 52) (-1074) = Int.log 2 x - 52 := max_eq_left (by omega)
  unfold roundDouble
  rw [if_neg hx, habs]
  simp only [hq]
  generalize Int.log 2 x = e at *
  have hp : (0 : ℚ) < 2 ^ (e - 52) := by positivity
  have h2 : (2 : ℚ) ^ e = 2 ^ (52 : Int) * 2 ^ (e - 52) := by
    rw [← zpow_add₀ (by norm_num)]; congr 1; omega
  have hy : (((2 : Int) ^ 52 : Int) : ℚ) ≤ x / 2 ^ (e - 52) := by
    rw [le_div_iff₀ hp]
    push_cast
    have h52 : (4503599627370496 : ℚ) = 2 ^ (52 : Int) := by norm_num
    rw [h52, ← h2]
    exact_mod_cast hle
  have hr : (((2 : Int) ^ 52 : Int) : ℚ) ≤ (roundEven (x / 2 ^ (e - 52)) : ℚ) := by
    exact_mod_cast le_roundEven hy
  have h53 : (2 : ℚ) ^ (53 : ℕ) ≤ 2 ^ e := by
    have : (2 : ℚ) ^ (53 : ℕ) = 2 ^ (53 : Int) := by norm_cast
    rw [this]
    exact zpow_le_zpow_right₀ (by norm_num) hl
  calc (2 : ℚ) ^ 53 ≤ 2 ^ e := h53
    _ = 2 ^ (52 : Int) * 2 ^ (e - 52) := h2
    _ ≤ (roundEven (x / 2 ^ (e - 52)) : ℚ) * 2 ^ (e - 52) := by
        apply mul_le_mul_of_nonneg_right _ hp.le
        have : (2 : ℚ) ^ (52 : Int) = (((2 : Int) ^ 52 : Int) : ℚ) := by norm_cast
        rw [this]; exact hr

/-- Rounding a non-negative sum whose rounded floor is small moves the floor
by at most one, upwards. -/
theorem floor_roundDouble {x : ℚ} (h0 : 0 ≤ x) (h1 : ⌊roundDouble x⌋ < 10000) :
    ⌊x⌋ ≤ ⌊roundDouble x⌋ ∧ ⌊roundDouble x⌋ ≤ ⌊x⌋ + 1 := by
  have hlt : |x| < 2 ^ 53 := by
    rw [abs_of_nonneg h0]
    by_contra hge
    have := roundDouble_large (not_lt.mp hge)
    have h2 : (10000 : ℚ) ≤ roundDouble x := le_trans (by norm_num) this
    have : (10000 : Int) ≤ ⌊roundDouble x⌋ := Int.le_floor.mpr (by exact_mod_cast h2)
    omega
  constructor
  · apply Int.le_floor.mpr
    exact (roundDouble_int_bounds hlt ⌊x⌋).1 (Int.floor_le x)
  · have hc := (roundDouble_int_bounds hlt ⌈x⌉).2 (Int.le_ceil x)
    have h3 : ⌊roundDouble x⌋ ≤ ⌈x⌉ := by
      have : ((⌊roundDouble x⌋ : Int) : ℚ) ≤ ((⌈x⌉ : Int) : ℚ) :=
        le_trans (Int.floor_le _) hc
      exact_mod_cast this
    have := Int.ceil_le_floor_add_one x
    omega

/-- A number `n / 2^k` with `|n| < 2^53` and `k ≤ 1074` is a double: rounding
leaves it as it is. -/
theorem roundDouble_dyadic (n : Int) (k : Nat) (hn : |n| < 2 ^ 53) (hk : k ≤ 1074) :
    roundDouble ((n : ℚ) / 2 ^ k) = (n : ℚ) / 2 ^ k := by
  by_cases hz : n = 0
  · subst hz; simp [roundDouble]
  · have hp : (0 : ℚ) < 2 ^ k := by positivity
    have hx : (n : ℚ) / 2 ^ k ≠ 0 := by
      apply div_ne_zero _ (ne_of_gt hp)
      exact_mod_cast hz
    have habs : |(n : ℚ) / 2 ^ k| = (|n| : ℚ) / 2 ^ k := by
      rw [abs_div, abs_of_pos hp]
    have hnq : ((|n| : Int) : ℚ) < 2 ^ 53 := by exact_mod_cast hn
    have hlt : |(n : ℚ) / 2 ^ k| < 2 ^ ((53 : Int) - k) := by
      rw [habs, div_lt_iff₀ hp, zpow_sub₀ (by norm_num), zpow_natCast,
        div_mul_cancel₀ _ (ne_of_gt hp)]
      push_cast at hnq
      exact_mod_cast hnq
    have hl : Int.log 2 |(n : ℚ) / 2 ^ k| < 53 - k := by
      apply (Int.lt_zpow_iff_log_lt (by norm_num) (abs_pos.mpr hx)).mp
      exact_mod_cast hlt
    have hq : max (Int.log 2 |(n : ℚ) / 2 ^ k| - 52) (-1074) ≤ -(k : Int) := by
      rw [max_le_iff]; constructor <;> omega
    obtain ⟨j, hj⟩ : ∃ j : Nat, max (Int.log 2 |(n : ℚ) / 2 ^ k| - 52) (-1074)
        = -((k + j : Nat) : Int) :=
      ⟨(-(max (Int.log 2 |(n : ℚ) / 2 ^ k| - 52) (-1074)) - k).toNat, by push_cast; omega⟩
    rw [roundDouble_of_ulp hx (k + j) hj]
    have e : (n : ℚ) / 2 ^ k * 2 ^ (k + j) = ((n * 2 ^ j : Int) : ℚ) := by
      push_cast
      rw [pow_add]
      field_simp
      ring
    rw [e, roundEven_intCast]
    push_cast
    rw [pow_add]
    field_simp
    ring

/-- The double sum `0.49999999999999994 + 0.5` is 1. -/
theorem roundDouble_halfPred : roundDouble (halfPred + 1 / 2) = 1 := by
  have hv : halfPred + 1 / 2 = 18014398509481983 / 18014398509481984 := by
    unfold halfPred; norm_num
  have hx : (18014398509481983 / 18014398509481984 : ℚ) ≠ 0 := by norm_num
  have habs : |(18014398509481983 / 18014398509481984 : ℚ)|
      = 18014398509481983 / 18014398509481984 := abs_of_pos (by norm_num)
  have hlog : Int.log 2 |(18014398509481983 / 18014398509481984 : ℚ)| = -1 := by
    rw [habs]
    apply le_antisymm
    · have : Int.log 2 (18014398509481983 / 18014398509481984 : ℚ) < 0 := by
        apply (Int.lt_zpow_iff_log_lt (by norm_num) (by norm_num)).mp
        norm_num
      omega
    · apply (Int.zpow_le_iff_le_log (by norm_num) (by norm_num)).mp
      norm_num
  have hq : max (Int.log 2 |(18014398509481983 / 18014398509481984 : ℚ)| - 52) (-1074)
      = -((53 : Nat) : Int) := by
    rw [hlog]; decide
  rw [hv, roundDouble_of_ulp hx 53 hq]
  have hy : (18014398509481983 / 18014398509481984 : ℚ) * 2 ^ 53 = 18014398509481983 / 2 := by
    norm_num
  have hf : ⌊(18014398509481983 / 2 : ℚ)⌋ = 9007199254740991 := by
    rw [Int.floor_eq_iff]; norm_num
  have hr : roundEven (18014398509481983 / 2 : ℚ) = 9007199254740992 := by
    simp only [roundEven, hf]
    norm_num
  rw [hy, hr]
  norm_num

/-- The number `0.49999999999999994` is a double. -/
theorem roundDouble_halfPred_self : roundDouble halfPred = halfPred := by
  have h := roundDouble_dyadic 9007199254740991 54 (by norm_num) (by norm_num)
  have e : ((9007199254740991 : Int) : ℚ) / 2 ^ 54 = halfPred := by
    unfold halfPred; norm_num
  rw [e] at h
  exact h

/-- A value that `roundEven` moves up to the integer `M` is at most one half
below `M`. -/
theorem roundEven_eq_above {y : ℚ} {M : Int} (h : roundEven y = M) (hy : y < M) :
    (M : ℚ) - 1 / 2 ≤ y := by
  have hf : (⌊y⌋ : ℚ) ≤ y := Int.floor_le y
  have hfl : ⌊y⌋ < M := Int.floor_lt.mpr hy
  simp only [roundEven] at h
  split_ifs at h with h1 h2 h3
  · omega
  · have : (M : ℚ) = ⌊y⌋ + 1 := by rw [← h]; push_cast; ring
    linarith
  · omega
  · have : (M : ℚ) = ⌊y⌋ + 1 := by rw [← h]; push_cast; ring
    linarith

/-- Normal form of the rounding of a number between 1/4 and 2^14: with `2^-k`
the unit in the last place, `x * 2^k` lies between `2^52` and `2^53`. -/
theorem roundDouble_normal {x : ℚ} (h0 : 1 / 4 ≤ x) (h1 : x < 2 ^ 14) :
    ∃ k : Nat, 39 ≤ k ∧ k ≤ 54 ∧ (2 : ℚ) ^ 52 ≤ x * 2 ^ k ∧ x * 2 ^ k < 2 ^ 53 ∧
      roundDouble x = (roundEven (x * 2 ^ k) : ℚ) / 2 ^ k := by
  have hpos : (0 : ℚ) < x := by linarith
  have hx : x ≠ 0 := ne_of_gt hpos
  have habs : |x| = x := abs_of_pos hpos
  have hl1 : (-2 : Int) ≤ Int.log 2 x := by
    apply (Int.zpow_le_iff_le_log (by norm_num) hpos).mp
    norm_num
    linarith
  have hl2 : Int.log 2 x < 14 := by
    apply (Int.lt_zpow_iff_log_lt (by norm_num) hpos).mp
    norm_num
    exact_mod_cast h1
  have hle : ((2 : ℕ) : ℚ) ^ Int.log 2 x ≤ x := Int.zpow_log_le_self (by norm_num) hpos
  have hlt : x < ((2 : ℕ) : ℚ) ^ (Int.log 2 x + 1) := Int.lt_zpow_succ_log_self (by norm_num) x
  obtain ⟨k, hk⟩ : ∃ k : Nat, Int.log 2 x = 52 - (k : Int) :=
    ⟨(52 - Int.log 2 x).toNat, by omega⟩
  have hq : max (Int.log 2 |x| - 52) (-1074) = -(k : Int) := by
    rw [habs, hk, max_eq_left (by omega)]; omega
  have hp : (0 : ℚ) < 2 ^ k := by positivity
  refine ⟨k, by omega, by omega, ?_, ?_, roundDouble_of_ulp hx k hq⟩
  · rw [hk, zpow_sub₀ (by norm_num), zpow_natCast] at hle
    have := (div_le_iff₀ hp).mp hle
    norm_num at this ⊢
    exact this
  · have e : Int.log 2 x + 1 = 53 - (k : Int) := by omega
    rw [e, zpow_sub₀ (by norm_num), zpow_natCast] at hlt
    have := (lt_div_iff₀ hp).mp hlt
    norm_num at this ⊢
    exact this
/-- For a double `dt ≥ 0` other than `0.49999999999999994` the double sum
`dt + 0.5` has the same integer part as the exact sum (below 10000). -/
theorem floor_roundDouble_add_half {dt : ℚ} (h0 : 0 ≤ dt) (hd : roundDouble dt = dt)
    (hne : dt ≠ halfPred) (h1 : ⌊dt + 1 / 2⌋ < 10000) :
    ⌊roundDouble (dt + 1 / 2)⌋ = ⌊dt + 1 / 2⌋ := by
  have hx0 : (1 : ℚ) / 2 ≤ dt + 1 / 2 := by linarith
  have hxlt : dt + 1 / 2 < 10000 := by
    have := Int.floor_lt.mp h1
    exact_mod_cast this
  have habs : |dt + 1 / 2| < 2 ^ 53 := by
    rw [abs_of_nonneg (by linarith)]
    exact lt_trans hxlt (by norm_num)
  have hfl : (⌊dt + 1 / 2⌋ : ℚ) ≤ dt + 1 / 2 := Int.floor_le _
  have hxN : dt + 1 / 2 < ((⌊dt + 1 / 2⌋ + 1 : Int) : ℚ) := by
    push_cast; exact Int.lt_floor_add_one _
  have hN1 : (1 : Int) ≤ ⌊dt + 1 / 2⌋ + 1 := by
    have : (0 : Int) ≤ ⌊dt + 1 / 2⌋ := Int.floor_nonneg.mpr (by linarith)
    omega
  have hlo := (roundDouble_int_bounds habs ⌊dt + 1 / 2⌋).1 hfl
  have hhi := (roundDouble_int_bounds habs (⌊dt + 1 / 2⌋ + 1)).2 hxN.le
  generalize hNdef : ⌊dt + 1 / 2⌋ + 1 = N at hxN hN1 hhi
  rw [Int.floor_eq_iff]
  refine ⟨hlo, ?_⟩
  have hNc : ((⌊dt + 1 / 2⌋ : Int) : ℚ) + 1 = (N : ℚ) := by rw [← hNdef]; push_cast; ring
  rw [hNc]
  by_contra hcon
  have hrN : roundDouble (dt + 1 / 2) = (N : ℚ) := le_antisymm hhi (not_lt.mp hcon)
  obtain ⟨k, hk1, hk2, ha1, ha2, hfx⟩ :=
    roundDouble_normal (by linarith : (1 : ℚ) / 4 ≤ dt + 1 / 2)
      (lt_trans hxlt (by norm_num))
  have hp : (0 : ℚ) < 2 ^ k := by positivity
  have hp1 : (1 : ℚ) ≤ 2 ^ k := one_le_pow₀ (by norm_num)
  have hp39 : (2 : ℚ) ^ 39 ≤ 2 ^ k := pow_le_pow_right₀ (by norm_num) hk1
  have hre : roundEven ((dt + 1 / 2) * 2 ^ k) = N * 2 ^ k := by
    rw [hfx, div_eq_iff (ne_of_gt hp)] at hrN
    exact_mod_cast hrN
  have hD : (N : ℚ) * 2 ^ k - 1 / 2 ≤ (dt + 1 / 2) * 2 ^ k := by
    have := roundEven_eq_above hre
      (by push_cast; exact mul_lt_mul_of_pos_right hxN hp)
    push_cast at this
    exact this
  have hNq : (1 : ℚ) ≤ N := by exact_mod_cast hN1
  have hdt4 : (1 : ℚ) / 4 ≤ dt := by
    have h2 : (2 : ℚ) ^ k ≤ (N : ℚ) * 2 ^ k := le_mul_of_one_le_left hp.le hNq
    have h3 : dt * 2 ^ k ≥ 2 ^ k / 2 - 1 / 2 := by linarith
    have h4 : (1 : ℚ) / 4 * 2 ^ k ≤ dt * 2 ^ k := by
      have : (2 : ℚ) ^ 39 = 549755813888 := by norm_num
      linarith
    exact le_of_mul_le_mul_right h4 hp
  obtain ⟨k', hk1', hk2', hc1, hc2, hfd⟩ :=
    roundDouble_normal hdt4 (by linarith : dt < 2 ^ 14)
  have hp' : (0 : ℚ) < 2 ^ k' := by positivity
  have hm : dt * 2 ^ k' = (roundEven (dt * 2 ^ k') : ℚ) := by
    rw [hd, eq_div_iff (ne_of_gt hp')] at hfd
    exact hfd
  rcases le_or_lt k' k with hkk | hkk
  · -- the sum is on the grid of the result: it is exact
    obtain ⟨i, rfl⟩ : ∃ i, k = k' + i := ⟨k - k', by omega⟩
    obtain ⟨k'', rfl⟩ : ∃ k'', k' = k'' + 1 := ⟨k' - 1, by omega⟩
    have e : (dt + 1 / 2) * 2 ^ (k'' + 1 + i)
        = ((roundEven (dt * 2 ^ (k'' + 1)) * 2 ^ i + 2 ^ (k'' + i) : Int) : ℚ) := by
      push_cast
      rw [← hm]
      ring
    rw [e, roundEven_intCast] at hre
    have e2 : ((N * 2 ^ (k'' + 1 + i) : Int) : ℚ) = (dt + 1 / 2) * 2 ^ (k'' + 1 + i) := by
      rw [e, hre]
    push_cast at e2
    have := mul_right_cancel₀ (ne_of_gt hp) e2
    linarith
  · by_cases h52 : k ≤ 52
    · obtain ⟨r, hr⟩ : ∃ r, 52 = r + k := ⟨52 - k, by omega⟩
      have e52 : (2 : ℚ) ^ 52 = 2 ^ r * 2 ^ k := by rw [← pow_add, ← hr]
      have hlt : (2 : ℚ) ^ r * 2 ^ k < N * 2 ^ k := by
        rw [← e52]
        exact lt_of_le_of_lt ha1 (mul_lt_mul_of_pos_right hxN hp)
      have hltq : (((2 : Int) ^ r : Int) : ℚ) < (N : ℚ) := by
        push_cast
        exact lt_of_mul_lt_mul_right hlt hp.le
      have hlti : (2 : Int) ^ r < N := by exact_mod_cast hltq
      have hleq : (((2 : Int) ^ r + 1 : Int) : ℚ) ≤ (N : ℚ) := by
        exact_mod_cast (by omega : (2 : Int) ^ r + 1 ≤ N)
      push_cast at hleq
      have hNp : (2 : ℚ) ^ 52 + 2 ^ k ≤ N * 2 ^ k := by
        rw [e52]
        have := mul_le_mul_of_nonneg_right hleq hp.le
        rw [add_mul, one_mul] at this
        exact this
      have hdk : (2 : ℚ) ^ 52 ≤ dt * 2 ^ k := by linarith
      obtain ⟨j, rfl⟩ : ∃ j, k' = k + (j + 1) := ⟨k' - k - 1, by omega⟩
      have hj : (1 : ℚ) ≤ 2 ^ j := one_le_pow₀ (by norm_num)
      have : (2 : ℚ) ^ 53 ≤ dt * 2 ^ (k + (j + 1)) := by
        have e : dt * 2 ^ (k + (j + 1)) = dt * 2 ^ k * 2 ^ j * 2 := by
          rw [pow_add, pow_succ]; ring
        rw [e]
        have : (2 : ℚ) ^ 52 ≤ dt * 2 ^ k * 2 ^ j := by
          calc (2 : ℚ) ^ 52 = 2 ^ 52 * 1 := by ring
            _ ≤ dt * 2 ^ k * 2 ^ j := mul_le_mul hdk hj (by norm_num) (by positivity)
        linarith
      linarith
    · have hk53 : k = 53 ∨ k = 54 := by omega
      rcases hk53 with rfl | rfl
      · have hk54 : k' = 54 := by omega
        subst hk54
        norm_num at hD hc2 hm
        have hmq : (9007199254740991 : ℚ) ≤ (roundEven (dt * 18014398509481984) : ℚ) := by
          rw [← hm]; linarith
        have hmq2 : (roundEven (dt * 18014398509481984) : ℚ) < 9007199254740992 := by
          rw [← hm]; linarith
        have hi1 : (9007199254740991 : Int) ≤ roundEven (dt * 18014398509481984) := by
          exact_mod_cast hmq
        have hi2 : roundEven (dt * 18014398509481984) < 9007199254740992 := by
          exact_mod_cast hmq2
        have hi : roundEven (dt * 18014398509481984) = 9007199254740991 := by omega
        rw [hi] at hm
        apply hne
        unfold halfPred
        push_cast at hm
        linarith
      · norm_num at ha2
        linarith

theorem toInt_of_range {x : ℚ} (h0 : 0 ≤ x) (h1 : ⌊x⌋ < 2 ^ 31) : toInt x = ⌊x⌋ := by
  have hf : 0 ≤ ⌊x⌋ := Int.floor_nonneg.mpr h0
  simp only [toInt, if_pos h0]
  rw [if_pos ⟨by omega, h1⟩]

theorem toU8_natCast {m : Nat} (h : m < 256) : toU8 (m : Int) = m := by
  unfold toU8; omega

theorem expo_eq (ch : Nat) : expo ch = ch / 16 := by
  unfold expo; rw [Nat.shiftRight_eq_div_pow]

theorem mant_eq (ch : Nat) : mant ch = ch % 16 := by
  unfold mant; exact Nat.and_pow_two_sub_one_eq_mod ch 4

/-- The byte `ByteTime` returns, as a function of the rounded time `idt`. -/
theorem ByteTime_of_idt (dt : ℚ) (i : Int) (h : toInt (roundDouble (dt + 1 / 2)) = i) :
    ByteTime dt =
      if i < 10 then toU8 i
      else if i < 100 then toU8 (i.tdiv 10 + 0x10)
      else if i < 1000 then toU8 (i.tdiv 100 + 0x20)
      else if i < 10000 then toU8 (i.tdiv 1000 + 0x30)
      else LostPing := by
  subst h; rfl

/-- The byte for a rounded time that is a natural number below 10000. -/
theorem ByteTime_of_nat (dt : ℚ) (n : Nat)
    (h : toInt (roundDouble (dt + 1 / 2)) = (n : Int)) (hn : n < 10000) :
    ByteTime dt =
      if n < 10 then n
      else if n < 100 then 0x10 + n / 10
      else if n < 1000 then 0x20 + n / 100
      else 0x30 + n / 1000 := by
  rw [ByteTime_of_idt dt n h]
  have e10 : (n : Int).tdiv 10 + 0x10 = ((0x10 + n / 10 : Nat) : Int) := by
    rw [Int.tdiv_eq_ediv (by omega) (by norm_num)]; omega
  have e100 : (n : Int).tdiv 100 + 0x20 = ((0x20 + n / 100 : Nat) : Int) := by
    rw [Int.tdiv_eq_ediv (by omega) (by norm_num)]; omega
  have e1000 : (n : Int).tdiv 1000 + 0x30 = ((0x30 + n / 1000 : Nat) : Int) := by
    rw [Int.tdiv_eq_ediv (by omega) (by norm_num)]; omega
  rw [e10, e100, e1000]
  by_cases h1 : n < 10
  · have : (n : Int) < 10 := by omega
    rw [if_pos this, if_pos h1]; exact toU8_natCast (by omega)
  · have c1 : ¬ (n : Int) < 10 := by omega
    rw [if_neg c1, if_neg h1]
    by_cases h2 : n < 100
    · have : (n : Int) < 100 := by omega
      rw [if_pos this, if_pos h2]; exact toU8_natCast (by omega)
    · have c2 : ¬ (n : Int) < 100 := by omega
      rw [if_neg c2, if_neg h2]
      by_cases h3 : n < 1000
      · have : (n : Int) < 1000 := by omega
        rw [if_pos this, if_pos h3]; exact toU8_natCast (by omega)
      · have c3 : ¬ (n : Int) < 1000 := by omega
        have c4 : (n : Int) < 10000 := by omega
        rw [if_neg c3, if_neg h3, if_pos c4]; exact toU8_natCast (by omega)

/-- The rounded time of a non-negative `dt` whose double sum `dt+0.5` is
below 10000 is the natural number `⌊roundDouble (dt + 1/2)⌋.toNat`. -/
theorem toInt_round_nat {dt : ℚ} (h0 : 0 ≤ dt) (h1 : ⌊roundDouble (dt + 1 / 2)⌋ < 10000) :
    toInt (roundDouble (dt + 1 / 2))
      = ((⌊roundDouble (dt + 1 / 2)⌋.toNat : Nat) : Int) := by
  have hp : (0 : ℚ) ≤ roundDouble (dt + 1 / 2) := roundDouble_nonneg (by linarith)
  rw [toInt_of_range hp (by omega), Int.toNat_of_nonneg (Int.floor_nonneg.mpr hp)]

/-- The double sum `dt + 0.5` is exact for `dt = n / 2^k` with
`2n + 2^k < 2^53`. -/
theorem roundDouble_add_half (n k : Nat) (hk : k ≤ 1073) (hn : 2 * n + 2 ^ k < 2 ^ 53) :
    roundDouble ((n : ℚ) / 2 ^ k + 1 / 2) = (n : ℚ) / 2 ^ k + 1 / 2 := by
  have e : (n : ℚ) / 2 ^ k + 1 / 2 = (((2 * n + 2 ^ k : Nat) : Int) : ℚ) / 2 ^ (k + 1) := by
    push_cast
    rw [pow_succ]
    field_simp
    ring
  rw [e]
  apply roundDouble_dyadic _ _ _ (by omega)
  rw [abs_of_nonneg (by positivity)]
  exact_mod_cast hn

theorem ByteTime_500 : ByteTime 500 = 0x25 := by
  have hr := roundDouble_add_half 500 0 (by norm_num) (by norm_num)
  norm_num at hr
  have h : toInt (roundDouble ((500 : ℚ) + 1 / 2)) = ((500 : Nat) : Int) := by
    have e : (500 : ℚ) + 1 / 2 = 1001 / 2 := by norm_num
    rw [e, hr, toInt_of_range (by norm_num)]
    · rw [Int.floor_eq_iff]; norm_num
    · have : ⌊(1001 / 2 : ℚ)⌋ = 500 := by rw [Int.floor_eq_iff]; norm_num
      rw [this]; norm_num
  rw [ByteTime_of_nat 500 500 h (by norm_num)]; rfl

theorem ByteTime_9999 : ByteTime 9999 = 0x39 := by
  have hr := roundDouble_add_half 9999 0 (by norm_num) (by norm_num)
  norm_num at hr
  have h : toInt (roundDouble ((9999 : ℚ) + 1 / 2)) = ((9999 : Nat) : Int) := by
    have e : (9999 : ℚ) + 1 / 2 = 19999 / 2 := by norm_num
    rw [e, hr, toInt_of_range (by norm_num)]
    · rw [Int.floor_eq_iff]; norm_num
    · have : ⌊(19999 / 2 : ℚ)⌋ = 9999 := by rw [Int.floor_eq_iff]; norm_num
      rw [this]; norm_num
  rw [ByteTime_of_nat 9999 9999 h (by norm_num)]; rfl

theorem ByteTime_halfPred : ByteTime halfPred = 1 := by
  have h : toInt (roundDouble (halfPred + 1 / 2)) = ((1 : Nat) : Int) := by
    rw [roundDouble_halfPred, toInt_of_range (by norm_num)]
    · simp
    · simp
  rw [ByteTime_of_nat halfPred 1 h (by norm_num)]; rfl

/-- C1 fails as stated: `dt = 0.49999999999999994` is a double with `dt ≥ 0`
and `⌊dt + 0.5⌋ = 0 < 10`, so the claim gives the byte 0; the double sum
`dt + 0.5` is 1, and `ByteTime` returns 1. -/
theorem C1_counterexample :
    0 ≤ halfPred ∧ roundDouble halfPred = halfPred ∧
    ⌊halfPred + 1 / 2⌋ = 0 ∧ roundDouble (halfPred + 1 / 2) = 1 ∧
    ByteTime halfPred = 1 := by
  refine ⟨by unfold halfPred; norm_num, roundDouble_halfPred_self, ?_,
    roundDouble_halfPred, ByteTime_halfPred⟩
  rw [Int.floor_eq_iff]; unfold halfPred; norm_num

/-- The byte of `ByteTime` in terms of the double sum: for every `dt ≥ 0` let
`idt` be the integer part of the double sum `dt + 0.5`; when `idt < 10000`,
`ByteTime dt` is `idt` below 10, `0x10 + idt/10` below 100, `0x20 + idt/100`
below 1000 and `0x30 + idt/1000` below 10000; its high nibble is at most 3 and
its low nibble at most 9.  `idt` is `⌊dt + 0.5⌋` or one more, and is
`⌊dt + 0.5⌋` whenever the sum is exact, as it is for `dt = n / 2^k` with
`2n + 2^k < 2^53`. -/
theorem ByteTime_encoding_sum (dt : ℚ) (h0 : 0 ≤ dt)
    (h1 : ⌊roundDouble (dt + 1 / 2)⌋ < 10000) :
    (⌊roundDouble (dt + 1 / 2)⌋ < 10 → ByteTime dt = ⌊roundDouble (dt + 1 / 2)⌋.toNat) ∧
    (10 ≤ ⌊roundDouble (dt + 1 / 2)⌋ → ⌊roundDouble (dt + 1 / 2)⌋ < 100 →
      ByteTime dt = 0x10 + ⌊roundDouble (dt + 1 / 2)⌋.toNat / 10) ∧
    (100 ≤ ⌊roundDouble (dt + 1 / 2)⌋ → ⌊roundDouble (dt + 1 / 2)⌋ < 1000 →
      ByteTime dt = 0x20 + ⌊roundDouble (dt + 1 / 2)⌋.toNat / 100) ∧
    (1000 ≤ ⌊roundDouble (dt + 1 / 2)⌋ → ⌊roundDouble (dt + 1 / 2)⌋ < 10000 →
      ByteTime dt = 0x30 + ⌊roundDouble (dt + 1 / 2)⌋.toNat / 1000) ∧
    ByteTime dt = 16 * expo (ByteTime dt) + mant (ByteTime dt) ∧
    expo (ByteTime dt) ≤ 3 ∧ mant (ByteTime dt) ≤ 9 ∧
    (⌊dt + 1 / 2⌋ ≤ ⌊roundDouble (dt + 1 / 2)⌋ ∧
      ⌊roundDouble (dt + 1 / 2)⌋ ≤ ⌊dt + 1 / 2⌋ + 1) ∧
    (roundDouble (dt + 1 / 2) = dt + 1 / 2 → ⌊roundDouble (dt + 1 / 2)⌋ = ⌊dt + 1 / 2⌋) ∧
    (∀ n k : Nat, k ≤ 1073 → 2 * n + 2 ^ k < 2 ^ 53 → dt = (n : ℚ) / 2 ^ k →
      ⌊roundDouble (dt + 1 / 2)⌋ = ⌊dt + 1 / 2⌋) ∧
    ByteTime 500 = 0x25 ∧ ByteTime 9999 = 0x39 := by
  have hp : (0 : ℚ) ≤ dt + 1 / 2 := by linarith
  have hrel := floor_roundDouble hp h1
  have hrp : (0 : ℚ) ≤ roundDouble (dt + 1 / 2) := roundDouble_nonneg hp
  have hf : (0 : Int) ≤ ⌊roundDouble (dt + 1 / 2)⌋ := Int.floor_nonneg.mpr hrp
  have hn : ⌊roundDouble (dt + 1 / 2)⌋.toNat < 10000 := by omega
  have hB := ByteTime_of_nat dt _ (toInt_round_nat h0 h1) hn
  have hex : ∀ n k : Nat, k ≤ 1073 → 2 * n + 2 ^ k < 2 ^ 53 → dt = (n : ℚ) / 2 ^ k →
      ⌊roundDouble (dt + 1 / 2)⌋ = ⌊dt + 1 / 2⌋ := by
    intro n k hk hnk hdt
    rw [hdt, roundDouble_add_half n k hk hnk]
  have hex0 : roundDouble (dt + 1 / 2) = dt + 1 / 2 →
      ⌊roundDouble (dt + 1 / 2)⌋ = ⌊dt + 1 / 2⌋ := fun h => by rw [h]
  refine ⟨?_, ?_, ?_, ?_, ?_, ?_, ?_, hrel, hex0, hex, ByteTime_500, ByteTime_9999⟩
  all_goals clear hrel hex hex0
  all_goals generalize ⌊roundDouble (dt + 1 / 2)⌋ = z at *
  all_goals generalize ByteTime dt = b at *
  all_goals (try rw [expo_eq, mant_eq])
  · intro h; rw [hB, if_pos (by omega)]
  · intro ha hb; rw [hB, if_neg (by omega), if_pos (by omega)]
  · intro ha hb; rw [hB, if_neg (by omega), if_neg (by omega), if_pos (by omega)]
  · intro ha hb; rw [hB, if_neg (by omega), if_neg (by omega), if_neg (by omega)]
  · omega
  · rw [expo_eq, hB]; split_ifs <;> omega
  · rw [mant_eq, hB]; split_ifs <;> omega

/-- The number 123.25 is a double. -/
theorem roundDouble_sample : roundDouble (493 / 4) = 493 / 4 := by
  have h := roundDouble_dyadic 493 2 (by norm_num) (by norm_num)
  have e : ((493 : Int) : ℚ) / 2 ^ 2 = 493 / 4 := by norm_num
  rw [e] at h
  exact h

theorem floor_sample : ⌊(493 / 4 : ℚ) + 1 / 2⌋ = 123 := by
  rw [Int.floor_eq_iff]; norm_num

theorem sample_ne_halfPred : (493 / 4 : ℚ) ≠ halfPred := by
  unfold halfPred; norm_num

/-- C1 (amended): for every double `dt ≥ 0` other than `0.49999999999999994`
with `idt = ⌊dt + 0.5⌋ < 10000`, `ByteTime dt` is `idt` below 10,
`0x10 + idt/10` below 100, `0x20 + idt/100` below 1000 and `0x30 + idt/1000`
below 10000; its high nibble is at most 3 and its low nibble at most 9; 500
gives 0x25 and 9999 gives 0x39. -/
theorem C1_ByteTime_encoding (dt : ℚ) (h0 : 0 ≤ dt) (hd : roundDouble dt = dt)
    (hne : dt ≠ halfPred) (h1 : ⌊dt + 1 / 2⌋ < 10000) :
    (⌊dt + 1 / 2⌋ < 10 → ByteTime dt = ⌊dt + 1 / 2⌋.toNat) ∧
    (10 ≤ ⌊dt + 1 / 2⌋ → ⌊dt + 1 / 2⌋ < 100 →
      ByteTime dt = 0x10 + ⌊dt + 1 / 2⌋.toNat / 10) ∧
    (100 ≤ ⌊dt + 1 / 2⌋ → ⌊dt + 1 / 2⌋ < 1000 →
      ByteTime dt = 0x20 + ⌊dt + 1 / 2⌋.toNat / 100) ∧
    (1000 ≤ ⌊dt + 1 / 2⌋ → ⌊dt + 1 / 2⌋ < 10000 →
      ByteTime dt = 0x30 + ⌊dt + 1 / 2⌋.toNat / 1000) ∧
    ByteTime dt = 16 * expo (ByteTime dt) + mant (ByteTime dt) ∧
    expo (ByteTime dt) ≤ 3 ∧ mant (ByteTime dt) ≤ 9 ∧
    ByteTime 500 = 0x25 ∧ ByteTime 9999 = 0x39 := by
  have hfl := floor_roundDouble_add_half h0 hd hne h1
  have H := ByteTime_encoding_sum dt h0 (by rw [hfl]; exact h1)
  rw [hfl] at H
  exact ⟨H.1, H.2.1, H.2.2.1, H.2.2.2.1, H.2.2.2.2.1, H.2.2.2.2.2.1, H.2.2.2.2.2.2.1,
    ByteTime_500, ByteTime_9999⟩

theorem C1_ByteTime_encoding_witness :
    ByteTime (493 / 4) = 0x20 + 1 := by
  have h := (C1_ByteTime_encoding (493 / 4) (by norm_num) roundDouble_sample
    sample_ne_halfPred (by rw [floor_sample]; norm_num)).2.2.1
  rw [floor_sample] at h
  exact h (by norm_num) (by norm_num)

/-- C2 fails as stated, twice.  `dt = 9999.5` satisfies `0 ≤ dt < 10000`,
rounds to 10000, and `ByteTime` returns the special byte `LostPing`, whose
nibbles (14 and 15) do not bracket 10000.  And the double
`dt = 0.49999999999999994` rounds to 0, but the double sum `dt + 0.5` is 1 and
`ByteTime` returns the byte 1, whose bucket `[1, 2)` does not contain 0. -/
theorem C2_counterexample :
    ((0 : ℚ) ≤ 19999 / 2 ∧ (19999 / 2 : ℚ) < 10000 ∧
      ⌊(19999 / 2 : ℚ) + 1 / 2⌋ = 10000 ∧
      ByteTime (19999 / 2) = LostPing ∧
      ¬ (mant (ByteTime (19999 / 2)) * 10 ^ expo (ByteTime (19999 / 2)) ≤ 10000)) ∧
    (0 ≤ halfPred ∧ halfPred < 10000 ∧ ⌊halfPred + 1 / 2⌋ = 0 ∧
      ByteTime halfPred = 1 ∧
      ¬ (mant (ByteTime halfPred) * 10 ^ expo (ByteTime halfPred) ≤ 0)) := by
  have hfl : ⌊(19999 / 2 : ℚ) + 1 / 2⌋ = 10000 := by
    rw [Int.floor_eq_iff]; norm_num
  have hr := roundDouble_dyadic 10000 0 (by norm_num) (by norm_num)
  norm_num at hr
  have hi : toInt (roundDouble ((19999 / 2 : ℚ) + 1 / 2)) = 10000 := by
    have e : (19999 / 2 : ℚ) + 1 / 2 = 10000 := by norm_num
    rw [e, hr, toInt_of_range (by norm_num)]
    · simp
    · simp
  have hb : ByteTime (19999 / 2) = LostPing := by
    rw [ByteTime_of_idt _ _ hi]; rfl
  refine ⟨⟨by norm_num, by norm_num, hfl, hb, ?_⟩,
    ⟨by unfold halfPred; norm_num, by unfold halfPred; norm_num, ?_, ByteTime_halfPred, ?_⟩⟩
  · rw [hb, expo_eq, mant_eq]; decide
  · rw [Int.floor_eq_iff]; unfold halfPred; norm_num
  · rw [ByteTime_halfPred, expo_eq, mant_eq]; decide

/-- The bucket of `ByteTime` in terms of the double sum: for every `dt ≥ 0`
whose rounded value `idt`, the integer part of the double sum `dt + 0.5`, is
below 10000, `ByteTime dt` is none of the special bytes and its exponent `e`
and mantissa `m` satisfy `m * 10^e ≤ idt < (m + 1) * 10^e`; `idt` is
`⌊dt + 0.5⌋` or one more, and is `⌊dt + 0.5⌋` whenever the double sum is
exact. -/
theorem ByteTime_bucket_sum (dt : ℚ) (h0 : 0 ≤ dt)
    (h1 : ⌊roundDouble (dt + 1 / 2)⌋ < 10000) :
    ByteTime dt ≠ NoPing ∧ ByteTime dt ≠ LostPing ∧ ByteTime dt ≠ LatePing ∧
    ((mant (ByteTime dt) * 10 ^ expo (ByteTime dt) : Nat) : Int)
      ≤ ⌊roundDouble (dt + 1 / 2)⌋ ∧
    ⌊roundDouble (dt + 1 / 2)⌋
      < (((mant (ByteTime dt) + 1) * 10 ^ expo (ByteTime dt) : Nat) : Int) ∧
    (⌊dt + 1 / 2⌋ ≤ ⌊roundDouble (dt + 1 / 2)⌋ ∧
      ⌊roundDouble (dt + 1 / 2)⌋ ≤ ⌊dt + 1 / 2⌋ + 1) ∧
    (roundDouble (dt + 1 / 2) = dt + 1 / 2 →
      ((mant (ByteTime dt) * 10 ^ expo (ByteTime dt) : Nat) : Int) ≤ ⌊dt + 1 / 2⌋ ∧
      ⌊dt + 1 / 2⌋ < (((mant (ByteTime dt) + 1) * 10 ^ expo (ByteTime dt) : Nat) : Int)) := by
  have hp : (0 : ℚ) ≤ dt + 1 / 2 := by linarith
  have hrel := floor_roundDouble hp h1
  have hrp : (0 : ℚ) ≤ roundDouble (dt + 1 / 2) := roundDouble_nonneg hp
  have hf : (0 : Int) ≤ ⌊roundDouble (dt + 1 / 2)⌋ := Int.floor_nonneg.mpr hrp
  have hn : ⌊roundDouble (dt + 1 / 2)⌋.toNat < 10000 := by omega
  have hB := ByteTime_of_nat dt _ (toInt_round_nat h0 h1) hn
  have hz : ⌊roundDouble (dt + 1 / 2)⌋
      = ((⌊roundDouble (dt + 1 / 2)⌋.toNat : Nat) : Int) := by omega
  have main : ByteTime dt ≠ NoPing ∧ ByteTime dt ≠ LostPing ∧ ByteTime dt ≠ LatePing ∧
      ((mant (ByteTime dt) * 10 ^ expo (ByteTime dt) : Nat) : Int)
        ≤ ⌊roundDouble (dt + 1 / 2)⌋ ∧
      ⌊roundDouble (dt + 1 / 2)⌋
        < (((mant (ByteTime dt) + 1) * 10 ^ expo (ByteTime dt) : Nat) : Int) := by
    clear hrel
    rw [hz]
    generalize ⌊roundDouble (dt + 1 / 2)⌋.toNat = n at *
    generalize ByteTime dt = b at *
    rw [expo_eq, mant_eq]
    simp only [NoPing, LostPing, LatePing]
    by_cases c1 : n < 10
    · rw [if_pos c1] at hB; rw [hB]
      have e : n / 16 = 0 := by omega
      rw [e]; refine ⟨by omega, by omega, by omega, ?_, ?_⟩ <;> norm_cast <;> omega
    · rw [if_neg c1] at hB
      by_cases c2 : n < 100
      · rw [if_pos c2] at hB; rw [hB]
        have e : (0x10 + n / 10) / 16 = 1 := by omega
        have m : (0x10 + n / 10) % 16 = n / 10 := by omega
        rw [e, m]; refine ⟨by omega, by omega, by omega, ?_, ?_⟩ <;> norm_cast <;> omega
      · rw [if_neg c2] at hB
        by_cases c3 : n < 1000
        · rw [if_pos c3] at hB; rw [hB]
          have e : (0x20 + n / 100) / 16 = 2 := by omega
          have m : (0x20 + n / 100) % 16 = n / 100 := by omega
          rw [e, m]; refine ⟨by omega, by omega, by omega, ?_, ?_⟩ <;> norm_cast <;> omega
        · rw [if_neg c3] at hB; rw [hB]
          have e : (0x30 + n / 1000) / 16 = 3 := by omega
          have m : (0x30 + n / 1000) % 16 = n / 1000 := by omega
          rw [e, m]; refine ⟨by omega, by omega, by omega, ?_, ?_⟩ <;> norm_cast <;> omega
  obtain ⟨a, b, c, d, e⟩ := main
  refine ⟨a, b, c, d, e, hrel, ?_⟩
  intro hex
  rw [hex] at d e
  exact ⟨d, e⟩

/-- C2 (amended): for every double `dt` other than `0.49999999999999994`
with `0 ≤ dt < 9999.5`, i.e. whose rounded value `⌊dt + 0.5⌋` is at most 9999,
`ByteTime dt` is none of the special bytes and its exponent `e` and mantissa
`m` satisfy `m * 10^e ≤ ⌊dt + 0.5⌋ < (m + 1) * 10^e`. -/
theorem C2_ByteTime_bucket (dt : ℚ) (h0 : 0 ≤ dt) (hd : roundDouble dt = dt)
    (hne : dt ≠ halfPred) (h1 : dt < 19999 / 2) :
    ByteTime dt ≠ NoPing ∧ ByteTime dt ≠ LostPing ∧ ByteTime dt ≠ LatePing ∧
    ((mant (ByteTime dt) * 10 ^ expo (ByteTime dt) : Nat) : Int) ≤ ⌊dt + 1 / 2⌋ ∧
    ⌊dt + 1 / 2⌋ < (((mant (ByteTime dt) + 1) * 10 ^ expo (ByteTime dt) : Nat) : Int) := by
  have hlt : ⌊dt + 1 / 2⌋ < 10000 := by
    rw [Int.floor_lt]; push_cast; linarith
  have hfl := floor_roundDouble_add_half h0 hd hne hlt
  have H := ByteTime_bucket_sum dt h0 (by rw [hfl]; exact hlt)
  rw [hfl] at H
  exact ⟨H.1, H.2.1, H.2.2.1, H.2.2.2.1, H.2.2.2.2.1⟩

theorem C2_ByteTime_bucket_witness :
    ByteTime (493 / 4) ≠ LostPing :=
  (C2_ByteTime_bucket (493 / 4) (by norm_num) roundDouble_sample sample_ne_halfPred
    (by norm_num)).2.1

/-! ## Ring buffer: theorems -/

theorem tmod_nsec_of_range {k : Int} (h0 : 0 ≤ k) (h1 : k < 3600) : k.tmod nsec = k := by
  unfold nsec
  rw [Int.tmod_eq_emod h0 (by norm_num)]; omega

theorem tmod_nsec_of_nonneg {k : Int} (h0 : 0 ≤ k) : k.tmod nsec = k % 3600 := by
  unfold nsec
  rw [Int.tmod_eq_emod h0 (by norm_num)]

/-- The index `PingShift` moves `cur` to. -/
theorem PingShift_cur (delt : Int) (ping : Ping) (stat : Stat)
    (h0 : 0 ≤ ping.cur) (h1 : ping.cur < 3600) :
    (PingShift delt ping stat).1.cur = (ping.cur - 1) % 3600 := by
  simp only [PingShift, SetPing, nsec]
  split_ifs <;> omega

/-- The buffer after `PingShift`: `LostPing` at the new `cur`, the old byte
elsewhere. -/
theorem PingShift_buf (delt : Int) (ping : Ping) (stat : Stat)
    (h0 : 0 ≤ ping.cur) (h1 : ping.cur < 3600) (i : Int) :
    (PingShift delt ping stat).1.buf i =
      if i = (ping.cur - 1) % 3600 then LostPing else ping.buf i := by
  have hk : ((if ping.cur - 1 < 0 then ping.cur - 1 + nsec else ping.cur - 1) + 0).tmod nsec
      = (ping.cur - 1) % 3600 := by
    rw [tmod_nsec_of_nonneg (by unfold nsec; split_ifs <;> omega)]
    unfold nsec; split_ifs <;> omega
  simp only [PingShift, SetPing, hk]

/-- The ring after `PingShift` does not depend on `delt` or on the
statistics. -/
theorem PingShift_fst_indep (d d' : Int) (ping : Ping) (s s' : Stat) :
    (PingShift d ping s).1 = (PingShift d' ping s').1 := rfl

/-- C3: for `0 ≤ cur < 3600`, `PingShift` sets `cur` to `(cur - 1) mod 3600`
(3599 when `cur` was 0), stores `LostPing` in `buf[new cur]` and leaves every
other slot of `buf` unchanged. -/
theorem C3_PingShift_ring (delt : Int) (ping : Ping) (stat : Stat)
    (h0 : 0 ≤ ping.cur) (h1 : ping.cur < 3600) :
    (PingShift delt ping stat).1.cur = (ping.cur - 1) % 3600 ∧
    (ping.cur = 0 → (PingShift delt ping stat).1.cur = 3599) ∧
    (PingShift delt ping stat).1.buf (PingShift delt ping stat).1.cur = LostPing ∧
    ∀ i : Int, i ≠ (PingShift delt ping stat).1.cur →
      (PingShift delt ping stat).1.buf i = ping.buf i := by
  have hc := PingShift_cur delt ping stat h0 h1
  refine ⟨hc, ?_, ?_, ?_⟩
  · intro hz; rw [hc, hz]; rfl
  · rw [PingShift_buf delt ping stat h0 h1, hc, if_pos rfl]
  · intro i hi
    rw [hc] at hi
    rw [PingShift_buf delt ping stat h0 h1, if_neg hi]

theorem C3_PingShift_ring_witness :
    (PingShift 0 (InitPing ⟨0, fun _ => 0⟩) InitStat).1.cur = (3599 - 1) % 3600 :=
  (C3_PingShift_ring 0 (InitPing ⟨0, fun _ => 0⟩) InitStat (by decide) (by decide)).1

/-- A fresh ring: `cur` in range and every slot of the array `NoPing`. -/
theorem InitPing_written (p0 : Ping) :
    0 ≤ (InitPing p0).cur ∧ (InitPing p0).cur < 3600 ∧
    ∀ j : Int, 0 ≤ j → j < 3600 →
      ((InitPing p0).buf (((InitPing p0).cur + j) % 3600) ≠ NoPing ↔ j < 0) := by
  have hcur : (InitPing p0).cur = 3599 := rfl
  refine ⟨by rw [hcur]; decide, by rw [hcur]; decide, ?_⟩
  intro j hj0 hj1
  have hr : 0 ≤ (3600 - 1 + j) % 3600 ∧ (3600 - 1 + j) % 3600 < 3600 := by omega
  simp only [InitPing, nsec, hr, and_self, if_true]
  constructor
  · intro h; exact absurd rfl h
  · intro h; omega

/-- One `PingShift` extends the written stretch of the ring by one slot at
its head. -/
theorem PingShift_written (t : Int) (ht : 0 ≤ t) (d : Int) (p : Ping) (s : Stat)
    (h0 : 0 ≤ p.cur) (h1 : p.cur < 3600)
    (H : ∀ j : Int, 0 ≤ j → j < 3600 → (p.buf ((p.cur + j) % 3600) ≠ NoPing ↔ j < t)) :
    0 ≤ (PingShift d p s).1.cur ∧ (PingShift d p s).1.cur < 3600 ∧
    ∀ j : Int, 0 ≤ j → j < 3600 →
      ((PingShift d p s).1.buf (((PingShift d p s).1.cur + j) % 3600) ≠ NoPing ↔
        j < t + 1) := by
  have hc := PingShift_cur d p s h0 h1
  refine ⟨by omega, by omega, ?_⟩
  intro j hj0 hj1
  rw [PingShift_buf d p s h0 h1, hc]
  by_cases hj : j = 0
  · subst hj
    have e : ((p.cur - 1) % 3600 + 0) % 3600 = (p.cur - 1) % 3600 := by omega
    rw [if_pos e]
    constructor
    · intro _; omega
    · intro _; decide
  · have ne : ((p.cur - 1) % 3600 + j) % 3600 ≠ (p.cur - 1) % 3600 := by omega
    have e : ((p.cur - 1) % 3600 + j) % 3600 = (p.cur + (j - 1)) % 3600 := by omega
    rw [if_neg ne, e, H (j - 1) (by omega) (by omega)]
    constructor <;> intro h <;> omega

/-- After the shifts `ds` the written stretch has grown by `ds.length`. -/
theorem PingShifts_written (ds : List Int) :
    ∀ (t : Int) (ps : Ping × Stat), 0 ≤ t → 0 ≤ ps.1.cur → ps.1.cur < 3600 →
      (∀ j : Int, 0 ≤ j → j < 3600 → (ps.1.buf ((ps.1.cur + j) % 3600) ≠ NoPing ↔ j < t)) →
      0 ≤ (PingShifts ds ps).1.cur ∧ (PingShifts ds ps).1.cur < 3600 ∧
      ∀ j : Int, 0 ≤ j → j < 3600 →
        ((PingShifts ds ps).1.buf (((PingShifts ds ps).1.cur + j) % 3600) ≠ NoPing ↔
          j < t + ds.length) := by
  induction ds with
  | nil =>
    intro t ps _ h0 h1 H
    refine ⟨h0, h1, ?_⟩
    intro j hj0 hj1
    simpa [PingShifts] using H j hj0 hj1
  | cons d ds ih =>
    intro t ps ht h0 h1 H
    obtain ⟨a, b, c⟩ := PingShift_written t ht d ps.1 ps.2 h0 h1 H
    have hstep : PingShifts (d :: ds) ps = PingShifts ds (PingShift d ps.1 ps.2) := rfl
    obtain ⟨a', b', c'⟩ := ih (t + 1) (PingShift d ps.1 ps.2) (by omega) a b c
    rw [hstep]
    refine ⟨a', b', ?_⟩
    intro j hj0 hj1
    rw [c' j hj0 hj1, List.length_cons]
    push_cast
    constructor <;> intro h <;> omega

/-- The number of written slots of a ring whose written stretch is the first
`t` offsets from `cur`. -/
theorem written_card (t : Nat) (p : Ping)
    (H : ∀ j : Int, 0 ≤ j → j < 3600 →
      (p.buf ((p.cur + j) % 3600) ≠ NoPing ↔ j < (t : Int))) :
    ((Finset.Ico (0 : Int) nsec).filter (fun i => p.buf i ≠ NoPing)).card = min t 3600 := by
  have hcard : (Finset.Ico (0 : Int) (min (t : Int) 3600)).card = min t 3600 := by
    rw [Int.card_Ico]; omega
  rw [← hcard]
  symm
  apply Finset.card_bij (fun a _ => (p.cur + a) % 3600)
  · intro a ha
    rw [Finset.mem_Ico] at ha
    rw [Finset.mem_filter, Finset.mem_Ico]
    refine ⟨⟨by omega, by unfold nsec; omega⟩, ?_⟩
    exact (H a ha.1 (by omega)).mpr (by omega)
  · intro a ha b hb hab
    rw [Finset.mem_Ico] at ha hb
    omega
  · intro b hb
    rw [Finset.mem_filter, Finset.mem_Ico] at hb
    obtain ⟨⟨hb0, hb1⟩, hb2⟩ := hb
    unfold nsec at hb1
    have e : (p.cur + (b - p.cur) % 3600) % 3600 = b := by omega
    refine ⟨(b - p.cur) % 3600, ?_, e⟩
    rw [Finset.mem_Ico]
    have hlt := (H ((b - p.cur) % 3600) (by omega) (by omega)).mp (by rw [e]; exact hb2)
    omega

/-- C4: starting from `InitPing`, after `t` calls of `PingShift` (`t` the
length of `ds`, any values of `delt` and any statistics), the number of slots
of the ring not equal to `NoPing` is `min t 3600`, and these are exactly the
slots at offsets `0 .. min t 3600 - 1` from `cur`. -/
theorem C4_written_slots (ds : List Int) (p0 : Ping) (s0 : Stat) :
    ((Finset.Ico (0 : Int) nsec).filter
      (fun i => (PingShifts ds (InitPing p0, s0)).1.buf i ≠ NoPing)).card
        = min ds.length 3600 ∧
    ∀ j : Int, 0 ≤ j → j < nsec →
      (GetPing 0 (PingShifts ds (InitPing p0, s0)).1 j ≠ NoPing ↔
        j < min (ds.length : Int) 3600) := by
  obtain ⟨i0, i1, i2⟩ := InitPing_written p0
  obtain ⟨a, b, c⟩ := PingShifts_written ds 0 (InitPing p0, s0) le_rfl i0 i1 i2
  simp only [zero_add] at c
  refine ⟨written_card ds.length _ c, ?_⟩
  intro j hj0 hj1
  unfold nsec at hj1
  have e : GetPing 0 (PingShifts ds (InitPing p0, s0)).1 j
      = (PingShifts ds (InitPing p0, s0)).1.buf
          (((PingShifts ds (InitPing p0, s0)).1.cur + j) % 3600) := by
    simp only [GetPing, add_zero]
    rw [tmod_nsec_of_nonneg (by omega)]
  rw [e, c j hj0 hj1]
  constructor <;> intro h <;> omega

theorem C4_written_slots_witness :
    GetPing 0 (PingShifts [0, 0] (InitPing ⟨0, fun _ => 0⟩, InitStat)).1 1 ≠ NoPing :=
  ((C4_written_slots [0, 0] ⟨0, fun _ => 0⟩ InitStat).2 1 (by decide) (by decide)).mpr
    (by decide)

/-- The statistics after `PingShift`: only `lost` can change. -/
theorem PingShift_snd (delt : Int) (ping : Ping) (stat : Stat) :
    (PingShift delt ping stat).2 =
      if stat.lost < 0 then { stat with lost := 0 }
      else if GetPing delt ping 0 = LostPing ∧ stat.lost < 99999 then
        { stat with lost := stat.lost + 1 }
      else stat := rfl

/-- With `delt = 0` and `cur` in range, `GetPing ping 0` reads `buf[cur]`. -/
theorem GetPing_zero (ping : Ping) (h0 : 0 ≤ ping.cur) (h1 : ping.cur < 3600) :
    GetPing 0 ping 0 = ping.buf ping.cur := by
  simp only [GetPing, add_zero]
  rw [tmod_nsec_of_range h0 h1]

/-- C5 fails as stated.  On a fresh ring and fresh statistics the slot at
offset 0 holds `NoPing`, not `LostPing`, yet `PingShift` changes `lost` (from
the sentinel -1 to 0); and with `lost = 99999` and a `LostPing` slot at offset 0
it leaves `lost` unchanged instead of adding 1.  Both with `delt = 0`. -/
theorem C5_counterexample :
    ((InitPing ⟨0, fun _ => 0⟩).buf (InitPing ⟨0, fun _ => 0⟩).cur ≠ LostPing ∧
      (PingShift 0 (InitPing ⟨0, fun _ => 0⟩) InitStat).2.lost ≠ InitStat.lost) ∧
    ((⟨5, fun _ => LostPing⟩ : Ping).buf 5 = LostPing ∧
      (PingShift 0 ⟨5, fun _ => LostPing⟩ { InitStat with lost := 99999 }).2.lost
        ≠ 99999 + 1) := by
  refine ⟨⟨by decide, by decide⟩, ⟨rfl, by decide⟩⟩

/-- C5 (amended): with `delt = 0` and `cur` in range, `PingShift` sets
`stat.lost` to 0 when it is negative (the value -1 after `InitStat`);
otherwise it adds exactly 1 to `stat.lost` if `buf[cur]` before the shift
holds `LostPing` and `stat.lost < 99999`, and leaves `stat.lost` unchanged if
that slot holds any other value or `stat.lost ≥ 99999`.  No other field of the
statistics changes. -/
theorem C5_PingShift_lost (ping : Ping) (stat : Stat)
    (h0 : 0 ≤ ping.cur) (h1 : ping.cur < 3600) :
    (stat.lost < 0 → (PingShift 0 ping stat).2.lost = 0) ∧
    (0 ≤ stat.lost → stat.lost < 99999 → ping.buf ping.cur = LostPing →
      (PingShift 0 ping stat).2.lost = stat.lost + 1) ∧
    (0 ≤ stat.lost → ping.buf ping.cur ≠ LostPing →
      (PingShift 0 ping stat).2.lost = stat.lost) ∧
    (99999 ≤ stat.lost → (PingShift 0 ping stat).2.lost = stat.lost) ∧
    (PingShift 0 ping stat).2 = { stat with lost := (PingShift 0 ping stat).2.lost } := by
  rw [PingShift_snd, GetPing_zero ping h0 h1]
  refine ⟨?_, ?_, ?_, ?_, ?_⟩
  · intro h; rw [if_pos h]
  · intro ha hb hc
    rw [if_neg (by omega), if_pos ⟨hc, hb⟩]
  · intro ha hc
    rw [if_neg (by omega), if_neg (fun h => hc h.1)]
  · intro ha
    rw [if_neg (by omega), if_neg (fun h => by omega)]
  · split_ifs <;> rfl

theorem C5_PingShift_lost_witness :
    (PingShift 0 ⟨5, fun _ => LostPing⟩ { InitStat with lost := 3 }).2.lost = 3 + 1 :=
  (C5_PingShift_lost ⟨5, fun _ => LostPing⟩ { InitStat with lost := 3 }
    (by decide) (by decide)).2.1 (by decide) (by decide) rfl

/-! ## Receiver: theorems -/

/-- What `Receive` does with a late ping reply. -/
theorem Receive_late (sqrt : ℚ → ℚ) (elapsed : (Nat → Nat) → ℚ) (E : Engine)
    (buf : Nat → Nat) (l : Int) (src : Nat) (h0 : Hdr)
    (H : LatePingReply E buf l src h0) :
    Receive sqrt elapsed E buf l src h0 =
      { E with pt := fun i =>
          if i = findHost E.pt src E.ntar.toNat 0 then
            { E.pt (findHost E.pt src E.ntar.toNat 0) with
              stat := { (E.pt (findHost E.pt src E.ntar.toNat 0)).stat with
                        late := (E.pt (findHost E.pt src E.ntar.toNat 0)).stat.late + 1 }
              ping :=
                if 0 < lateOffset E.seq (UnpackHeader buf l h0).2.rsq ∧
                    lateOffset E.seq (UnpackHeader buf l h0).2.rsq < nsec ∧
                    GetPing E.delt (E.pt (findHost E.pt src E.ntar.toNat 0)).ping
                      (lateOffset E.seq (UnpackHeader buf l h0).2.rsq) = LostPing then
                  SetPing (E.pt (findHost E.pt src E.ntar.toNat 0)).ping
                    (lateOffset E.seq (UnpackHeader buf l h0).2.rsq) LatePing
                else (E.pt (findHost E.pt src E.ntar.toNat 0)).ping }
          else E.pt i } := by
  obtain ⟨hl, hoff, hrtp, hsz, hrid, hhost, hrsq⟩ := H
  unfold Receive
  simp only [if_neg (not_lt.mpr hl), if_neg hoff, hrtp, hsz, hrid, hhost, if_neg hrsq,
    and_self, if_true]

/-- With `delt = 0` a late ping reply changes the ring of its target at most
in the slot at offset `k`, and only from `LostPing` to `LatePing`. -/
theorem Receive_late_ring_no_scroll (sqrt : ℚ → ℚ) (elapsed : (Nat → Nat) → ℚ)
    (E : Engine) (buf : Nat → Nat) (l : Int) (src : Nat) (h0 : Hdr)
    (H : LatePingReply E buf l src h0) (hd : E.delt = 0) :
    ((Receive sqrt elapsed E buf l src h0).pt (findHost E.pt src E.ntar.toNat 0)).ping.cur
      = (E.pt (findHost E.pt src E.ntar.toNat 0)).ping.cur ∧
    ∀ i : Int,
      ((Receive sqrt elapsed E buf l src h0).pt (findHost E.pt src E.ntar.toNat 0)).ping.buf i
        ≠ (E.pt (findHost E.pt src E.ntar.toNat 0)).ping.buf i →
      0 < lateOffset E.seq (UnpackHeader buf l h0).2.rsq ∧
      lateOffset E.seq (UnpackHeader buf l h0).2.rsq < nsec ∧
      i = ((E.pt (findHost E.pt src E.ntar.toNat 0)).ping.cur
            + lateOffset E.seq (UnpackHeader buf l h0).2.rsq).tmod nsec ∧
      (E.pt (findHost E.pt src E.ntar.toNat 0)).ping.buf i = LostPing ∧
      ((Receive sqrt elapsed E buf l src h0).pt (findHost E.pt src E.ntar.toNat 0)).ping.buf i
        = LatePing := by
  rw [Receive_late sqrt elapsed E buf l src h0 H]
  simp only [if_true, hd]
  split_ifs with hc
  · refine ⟨rfl, ?_⟩
    intro i hi
    obtain ⟨hk0, hk1, hg⟩ := hc
    simp only [SetPing] at hi ⊢
    by_cases e : i = ((E.pt (findHost E.pt src E.ntar.toNat 0)).ping.cur
            + lateOffset E.seq (UnpackHeader buf l h0).2.rsq).tmod nsec
    · refine ⟨hk0, hk1, e, ?_, ?_⟩
      · rw [e]; simpa [GetPing] using hg
      · rw [if_pos e]
    · rw [if_neg e] at hi; exact absurd rfl hi
  · refine ⟨rfl, ?_⟩
    intro i hi; exact absurd rfl hi

/-- C6, the code at a failing input: with `delt = 1` a late reply for
sequence 6 at `seq = 7` (offset `k = 1`) finds the reply byte `0x05` in the
slot at offset 1 (index 101), not `LostPing`, and `Receive` still overwrites
that slot with `LatePing`, because the check reads index 102. -/
theorem C6_late_overwrites_reply :
    LatePingReply (sampleEngine 1) (sampleReply 6) 36 1 sampleHdr ∧
    lateOffset (sampleEngine 1).seq (UnpackHeader (sampleReply 6) 36 sampleHdr).2.rsq = 1 ∧
    ((sampleEngine 1).pt 0).ping.buf ((((sampleEngine 1).pt 0).ping.cur + 1).tmod nsec) = 0x05 ∧
    ((Receive (fun x => x) (fun _ => 5) (sampleEngine 1) (sampleReply 6) 36 1 sampleHdr).pt 0
      ).ping.buf ((((sampleEngine 1).pt 0).ping.cur + 1).tmod nsec) = LatePing := by
  refine ⟨by unfold LatePingReply; decide, by decide, by decide, by decide⟩

/-- C7 fails as stated: with `delt = 0`, a late reply whose offset `k = 1`
is in range but whose slot holds the reply byte `0x05`, not `LostPing`, still
adds 1 to `stat.late` (the ring is left as it was). -/
theorem C7_counterexample :
    LatePingReply (sampleEngine 0) (sampleReply 6) 36 1 sampleHdr ∧
    lateOffset (sampleEngine 0).seq (UnpackHeader (sampleReply 6) 36 sampleHdr).2.rsq = 1 ∧
    GetPing 0 ((sampleEngine 0).pt 0).ping 1 ≠ LostPing ∧
    ((sampleEngine 0).pt 0).stat.late = 0 ∧
    ((Receive (fun x => x) (fun _ => 5) (sampleEngine 0) (sampleReply 6) 36 1 sampleHdr).pt 0
      ).stat.late = 1 := by
  refine ⟨by unfold LatePingReply; decide, by decide, by decide, by decide, by decide⟩

/-- C7 (amended): for a ping Echo Reply from a known target whose sequence
differs from `seq`, `Receive` adds exactly 1 to that target's `stat.late` in
every case, whatever the offset `k` and whatever the slot at offset `k` holds,
and changes no other field of its statistics; with `delt = 0` the slot at
offset `k` is set to `LatePing` exactly when `0 < k < 3600` and that slot
holds `LostPing`, and the ring is otherwise left as it is. -/
theorem C7_late_counts_every_late_reply (sqrt : ℚ → ℚ) (elapsed : (Nat → Nat) → ℚ)
    (E : Engine) (buf : Nat → Nat) (l : Int) (src : Nat) (h0 : Hdr)
    (H : LatePingReply E buf l src h0) :
    ((Receive sqrt elapsed E buf l src h0).pt (findHost E.pt src E.ntar.toNat 0)).stat
      = { (E.pt (findHost E.pt src E.ntar.toNat 0)).stat with
          late := (E.pt (findHost E.pt src E.ntar.toNat 0)).stat.late + 1 } ∧
    (E.delt = 0 →
      ((Receive sqrt elapsed E buf l src h0).pt (findHost E.pt src E.ntar.toNat 0)).ping
        = (if 0 < lateOffset E.seq (UnpackHeader buf l h0).2.rsq ∧
              lateOffset E.seq (UnpackHeader buf l h0).2.rsq < nsec ∧
              (E.pt (findHost E.pt src E.ntar.toNat 0)).ping.buf
                (((E.pt (findHost E.pt src E.ntar.toNat 0)).ping.cur
                  + lateOffset E.seq (UnpackHeader buf l h0).2.rsq).tmod nsec) = LostPing then
            SetPing (E.pt (findHost E.pt src E.ntar.toNat 0)).ping
              (lateOffset E.seq (UnpackHeader buf l h0).2.rsq) LatePing
          else (E.pt (findHost E.pt src E.ntar.toNat 0)).ping)) := by
  rw [Receive_late sqrt elapsed E buf l src h0 H]
  constructor
  · simp only [if_true]
  · intro hd
    simp only [if_true, hd, GetPing, add_zero]

theorem C7_late_counts_every_late_reply_witness :
    ((Receive (fun x => x) (fun _ => 5) (sampleEngine 0) (sampleReply 9) 36 1 sampleHdr).pt
        (findHost (sampleEngine 0).pt 1 (sampleEngine 0).ntar.toNat 0)).stat
      = { ((sampleEngine 0).pt (findHost (sampleEngine 0).pt 1
            (sampleEngine 0).ntar.toNat 0)).stat with
          late := ((sampleEngine 0).pt (findHost (sampleEngine 0).pt 1
            (sampleEngine 0).ntar.toNat 0)).stat.late + 1 } :=
  (C7_late_counts_every_late_reply (fun x => x) (fun _ => 5) (sampleEngine 0)
    (sampleReply 9) 36 1 sampleHdr (by unfold LatePingReply; decide)).1

/-! ## Sequence counter: theorems -/

/-- The counter after `d ≤ 3600` ticks, starting in `0 .. 65535`: at most one
wrap, to `nsec`. -/
theorem nextSeq_iterate (s : Int) (h0 : 0 ≤ s) (h1 : s ≤ 65535) :
    ∀ d : Nat, d ≤ 3600 →
      nextSeq^[d] s = if s + d ≤ 65535 then s + d else s + d - 61936 := by
  intro d
  induction d with
  | zero => intro _; simp [h1]
  | succ d ih =>
    intro hd
    rw [Function.iterate_succ_apply', ih (by omega)]
    unfold nextSeq nsec
    push_cast
    split_ifs <;> omega

theorem SendPing_seq_iterate (E : Engine) (d : Nat) :
    (SendPing^[d] E).seq = nextSeq^[d] E.seq := by
  induction d with
  | zero => rfl
  | succ d ih =>
    rw [Function.iterate_succ_apply', Function.iterate_succ_apply', ← ih]
    rfl

/-- C8: if the sequence counter had value `rsq` (in `0 .. 65535`) at one tick
and `d` sender ticks later, `0 < d < 3600`, has value `seq`, then the late
offset `Receive` computes from `seq` and `rsq` equals `d`; in particular
`rsq = 65535`, `seq = 3600` gives 1. -/
theorem C8_late_offset_is_distance (E : Engine) (d : Nat)
    (h0 : 0 ≤ E.seq) (h1 : E.seq ≤ 65535) (hd0 : 0 < d) (hd1 : d < 3600) :
    lateOffset (SendPing^[d] E).seq E.seq = d ∧
    nextSeq 65535 = 3600 ∧ lateOffset 3600 65535 = 1 := by
  refine ⟨?_, by decide, by decide⟩
  rw [SendPing_seq_iterate, nextSeq_iterate E.seq h0 h1 d (by omega)]
  simp only [lateOffset, nsec]
  split_ifs <;> omega

theorem C8_late_offset_is_distance_witness :
    lateOffset (SendPing^[2] { sampleEngine 0 with seq := 65534 }).seq 65534 = (2 : Nat) :=
  (C8_late_offset_is_distance { sampleEngine 0 with seq := 65534 } 2
    (by decide) (by decide) (by decide) (by decide)).1

/-! ## Checksum: theorems -/

theorem sumLoop_acc (data : Nat → Nat) :
    ∀ (n i s : Nat), sumLoop data i n s = s + sumLoop data i n 0
  | 0, i, s => by simp [sumLoop]
  | 1, i, s => by simp [sumLoop]
  | n + 2, i, s => by
    rw [sumLoop, sumLoop, sumLoop_acc data n (i + 1) (s + _),
      sumLoop_acc data n (i + 1) (0 + _)]
    omega

/-- The loop reads only bytes from index `2*i` on. -/
theorem sumLoop_congr (data data' : Nat → Nat) :
    ∀ (n i s : Nat), (∀ j, 2 * i ≤ j → data j = data' j) →
      sumLoop data i n s = sumLoop data' i n s
  | 0, i, s, _ => by simp [sumLoop]
  | 1, i, s, h => by simp [sumLoop, h (2 * i) le_rfl]
  | n + 2, i, s, h => by
    rw [sumLoop, sumLoop, h (2 * i) le_rfl, h (2 * i + 1) (by omega)]
    exact sumLoop_congr data data' n (i + 1) _ (fun j hj => h j (by omega))

/-- The sum of the words of `len` bytes is at most `65535 * ((len + 1) / 2)`. -/
theorem sumLoop_le (data : Nat → Nat) :
    ∀ (n i : Nat), (∀ j, j < 2 * i + n → data j < 256) →
      sumLoop data i n 0 ≤ 65535 * ((n + 1) / 2)
  | 0, i, _ => by simp [sumLoop]
  | 1, i, h => by
    have := h (2 * i) (by omega)
    simp only [sumLoop]; omega
  | n + 2, i, h => by
    rw [sumLoop, sumLoop_acc]
    have a := h (2 * i) (by omega)
    have b := h (2 * i + 1) (by omega)
    have c := sumLoop_le data n (i + 1) (fun j hj => h j (by omega))
    omega

/-- Storing `c` in a zero checksum field adds `c` to the sum of the words. -/
theorem sumLoop_setChecksum (data : Nat → Nat) (c n : Nat) (hc : c < 65536)
    (hn : 4 ≤ n) (h2 : data 2 = 0) (h3 : data 3 = 0) :
    sumLoop (setChecksum data c) 0 n 0 = sumLoop data 0 n 0 + c := by
  obtain ⟨m, rfl⟩ : ∃ m, n = m + 2 + 2 := ⟨n - 4, by omega⟩
  rw [sumLoop, sumLoop, sumLoop, sumLoop]
  rw [sumLoop_acc (setChecksum data c), sumLoop_acc data]
  rw [sumLoop_congr (setChecksum data c) data m 2 0
    (fun j hj => by simp only [setChecksum]; rw [if_neg (by omega), if_neg (by omega)])]
  simp only [setChecksum, h2, h3]
  norm_num
  omega

theorem fold16_eq (s : Nat) :
    fold16 s = (s / 65536 + s % 65536) + (s / 65536 + s % 65536) / 65536 := by
  unfold fold16
  simp only [Nat.shiftRight_eq_div_pow]
  rw [show (0xffff : Nat) = 2 ^ 16 - 1 from rfl, Nat.and_pow_two_sub_one_eq_mod]

/-- The arithmetic of one's-complement verification. -/
theorem fold16_verify (s : Nat) (hs : s ≤ 65535 * 4096) :
    fold16 (s + (0xFFFF - fold16 s % 0x10000)) % 0x10000 = 0xFFFF := by
  rw [fold16_eq, fold16_eq]
  have ha : s / 65536 ≤ 4095 := by omega
  have hb : s % 65536 < 65536 := by omega
  have hsab : s = 65536 * (s / 65536) + s % 65536 := by omega
  generalize s / 65536 = a at *
  generalize s % 65536 = b at *
  subst hsab
  by_cases h : a + b < 65536
  · have e1 : (a + b) / 65536 = 0 := by omega
    have e2 : (a + b + 0) % 65536 = a + b := by omega
    have e3 : 65536 * a + b + (65535 - (a + b)) = 65536 * a + (65535 - a) := by omega
    have e4 : (65536 * a + (65535 - a)) / 65536 = a := by omega
    have e5 : (65536 * a + (65535 - a)) % 65536 = 65535 - a := by omega
    rw [e1, e2, e3, e4, e5]
    omega
  · have e1 : (a + b) / 65536 = 1 := by omega
    have e2 : (a + b + 1) % 65536 = a + b - 65535 := by omega
    have e3 : 65536 * a + b + (65535 - (a + b - 65535)) = 65536 * (a + 1) + (65534 - a) := by
      omega
    have e4 : (65536 * (a + 1) + (65534 - a)) / 65536 = a + 1 := by omega
    have e5 : (65536 * (a + 1) + (65534 - a)) % 65536 = 65534 - a := by omega
    rw [e1, e2, e3, e4, e5]
    omega

/-- The checksum of a buffer with its checksum stored verifies. -/
theorem checksum_verifies (P : Nat → Nat) (len : Int) (h8 : 8 ≤ len) (hmax : len ≤ 8192)
    (hb : ∀ j : Nat, (j : Int) < len → P j < 256) (h2 : P 2 = 0) (h3 : P 3 = 0) :
    fold16 (sumLoop (setChecksum P (checksum P len)) 0 len.toNat 0) % 0x10000 = 0xFFFF ∧
    checksum (setChecksum P (checksum P len)) len = 0 := by
  have hc : checksum P len < 65536 := by simp only [checksum]; omega
  have hle := sumLoop_le P len.toNat 0 (fun j hj => hb j (by omega))
  have hs : sumLoop P 0 len.toNat 0 ≤ 65535 * 4096 := by omega
  have hv := fold16_verify _ hs
  have e : sumLoop (setChecksum P (checksum P len)) 0 len.toNat 0
      = sumLoop P 0 len.toNat 0 + (0xFFFF - fold16 (sumLoop P 0 len.toNat 0) % 0x10000) :=
    sumLoop_setChecksum P _ _ hc (by omega) h2 h3
  constructor
  · rw [e]; exact hv
  · show 0xFFFF - fold16 (sumLoop (setChecksum P (checksum P len)) 0 len.toNat 0) % 0x10000 = 0
    rw [e, hv]

/-- The one's-complement sum of 16-bit words is the representative of their
plain sum modulo 65535 that is 0 only for the sum 0. -/
theorem foldl_specOcAdd (ws : List Nat) :
    ∀ acc : Nat, acc ≤ 0xFFFF → (∀ w ∈ ws, w ≤ 0xFFFF) →
      ws.foldl specOcAdd acc =
        if acc + ws.sum = 0 then 0 else (acc + ws.sum - 1) % 65535 + 1 := by
  induction ws with
  | nil =>
    intro acc ha _
    simp only [List.foldl_nil, List.sum_nil, add_zero]
    split_ifs <;> omega
  | cons w ws ih =>
    intro acc ha hw
    have hw0 : w ≤ 0xFFFF := hw w (List.mem_cons_self _ _)
    have hws : ∀ x ∈ ws, x ≤ 0xFFFF := fun x hx => hw x (List.mem_cons_of_mem _ hx)
    have hoc : specOcAdd acc w ≤ 0xFFFF := by
      simp only [specOcAdd]; split_ifs <;> omega
    rw [List.foldl_cons, ih (specOcAdd acc w) hoc hws, List.sum_cons]
    simp only [specOcAdd]
    generalize ws.sum = t
    split_ifs <;> omega

theorem specOcSum_eq (ws : List Nat) (hw : ∀ w ∈ ws, w ≤ 0xFFFF) :
    specOcSum ws = if ws.sum = 0 then 0 else (ws.sum - 1) % 65535 + 1 := by
  have h := foldl_specOcAdd ws 0 (by norm_num) hw
  simp only [zero_add] at h
  exact h

/-- The loop of `checksum` adds up the 16-bit words of the buffer. -/
theorem sumLoop_words (data : Nat → Nat) :
    ∀ (n i s : Nat), sumLoop data i n s = s + (specWords data i n).sum
  | 0, i, s => by simp [sumLoop, specWords]
  | 1, i, s => by simp [sumLoop, specWords]
  | n + 2, i, s => by
    rw [sumLoop, specWords, sumLoop_words data n (i + 1), List.sum_cons]
    omega

theorem specWords_le (data : Nat → Nat) :
    ∀ (n i : Nat), (∀ j, j < 2 * i + n → data j < 256) →
      ∀ w ∈ specWords data i n, w ≤ 0xFFFF
  | 0, i, _ => by simp [specWords]
  | 1, i, h => by
    intro w hw
    simp only [specWords, List.mem_singleton] at hw
    have := h (2 * i) (by omega)
    omega
  | n + 2, i, h => by
    intro w hw
    simp only [specWords, List.mem_cons] at hw
    rcases hw with hw | hw
    · have a := h (2 * i) (by omega)
      have b := h (2 * i + 1) (by omega)
      omega
    · exact specWords_le data n (i + 1) (fun j hj => h j (by omega)) w hw

/-- The two folding steps of `checksum` and the truncation to 16 bits give
the one's-complement representative of the plain sum. -/
theorem fold16_canon (s : Nat) (hs : s ≤ 65535 * 4096) :
    fold16 s % 0x10000 = if s = 0 then 0 else (s - 1) % 65535 + 1 := by
  rw [fold16_eq]
  have ha : s / 65536 ≤ 4095 := by omega
  have hb : s % 65536 < 65536 := by omega
  have hsab : s = 65536 * (s / 65536) + s % 65536 := by omega
  generalize s / 65536 = a at *
  generalize s % 65536 = b at *
  subst hsab
  by_cases h : a + b < 65536
  · have e1 : (a + b) / 65536 = 0 := by omega
    have e2 : (a + b + 0) % 65536 = a + b := by omega
    rw [e1, e2]
    split_ifs <;> omega
  · have e1 : (a + b) / 65536 = 1 := by omega
    have e2 : (a + b + 1) % 65536 = a + b - 65535 := by omega
    rw [e1, e2]
    split_ifs <;> omega

/-- The value `checksum` returns is the complement of the one's-complement
sum of the words of the buffer. -/
theorem checksum_spec (P : Nat → Nat) (len : Int) (hmax : len ≤ 8192)
    (hb : ∀ j : Nat, (j : Int) < len → P j < 256) :
    checksum P len = 0xFFFF - specOcSum (specWords P 0 len.toNat) := by
  have hle := sumLoop_le P len.toNat 0 (fun j hj => hb j (by omega))
  have hs : sumLoop P 0 len.toNat 0 ≤ 65535 * 4096 := by omega
  have hw := specWords_le P len.toNat 0 (fun j hj => hb j (by omega))
  have hsum := sumLoop_words P len.toNat 0 0
  rw [zero_add] at hsum
  rw [specOcSum_eq _ hw, ← hsum]
  show 0xFFFF - fold16 (sumLoop P 0 len.toNat 0) % 0x10000 = _
  rw [fold16_canon _ hs]

/-- The completed buffer's one's-complement sum is `0xFFFF`. -/
theorem specOcSum_completed (P : Nat → Nat) (len : Int) (h8 : 8 ≤ len) (hmax : len ≤ 8192)
    (hb : ∀ j : Nat, (j : Int) < len → P j < 256) (h2 : P 2 = 0) (h3 : P 3 = 0) :
    specOcSum (specWords (setChecksum P (checksum P len)) 0 len.toNat) = 0xFFFF := by
  have key : ∀ s : Nat,
      (if s + (0xFFFF - (if s = 0 then 0 else (s - 1) % 65535 + 1)) = 0 then 0
        else (s + (0xFFFF - (if s = 0 then 0 else (s - 1) % 65535 + 1)) - 1) % 65535 + 1)
        = 0xFFFF := by
    intro s
    rcases Nat.eq_zero_or_pos s with h | h
    · subst h; decide
    · rw [if_neg (by omega), if_neg (by omega)]
      omega
  have hc : checksum P len < 65536 := by simp only [checksum]; omega
  have hb' : ∀ j : Nat, j < 2 * 0 + len.toNat → setChecksum P (checksum P len) j < 256 := by
    intro j hj
    simp only [setChecksum]
    split_ifs
    · omega
    · omega
    · exact hb j (by omega)
  have hw := specWords_le (setChecksum P (checksum P len)) len.toNat 0 hb'
  have hsum := sumLoop_words (setChecksum P (checksum P len)) len.toNat 0 0
  rw [zero_add] at hsum
  have hle := sumLoop_le P len.toNat 0 (fun j hj => hb j (by omega))
  have hs : sumLoop P 0 len.toNat 0 ≤ 65535 * 4096 := by omega
  have e : sumLoop (setChecksum P (checksum P len)) 0 len.toNat 0
      = sumLoop P 0 len.toNat 0 + checksum P len :=
    sumLoop_setChecksum P _ _ hc (by omega) h2 h3
  have hcs : checksum P len = 0xFFFF - fold16 (sumLoop P 0 len.toNat 0) % 0x10000 := rfl
  rw [fold16_canon _ hs] at hcs
  rw [specOcSum_eq _ hw, ← hsum, e, hcs]
  exact key _

/-- On the bytes `FF FF 00 00 01 00 00 00` the sum of the words overflows 16
bits; with the carry added back in the checksum is 65534. -/
theorem checksum_carry_example :
    checksum (fun i => if i = 0 then 0xFF else if i = 1 then 0xFF else if i = 4 then 1 else 0) 8
      = 65534 := by
  decide

/-- C9: for every buffer `P` of `len` bytes, `8 ≤ len ≤ 8192`, whose checksum
field (bytes 2 and 3) is zero: `checksum P len` is the complement of the
16-bit one's-complement sum (end-around carry) of the words of `P`, and
storing it in the checksum field gives a buffer whose one's-complement sum
over all its words is `0xFFFF` and whose `checksum` is 0; in particular so for
the 16-byte packet `ICMP` sends. -/
theorem C9_checksum_verifies (P : Nat → Nat) (len : Int) (h8 : 8 ≤ len) (hmax : len ≤ 8192)
    (hb : ∀ j : Nat, (j : Int) < len → P j < 256) (h2 : P 2 = 0) (h3 : P 3 = 0) :
    (checksum P len = 0xFFFF - specOcSum (specWords P 0 len.toNat) ∧
      specOcSum (specWords (setChecksum P (checksum P len)) 0 len.toNat) = 0xFFFF ∧
      checksum (setChecksum P (checksum P len)) len = 0) ∧
    ∀ (id seq : Int) (time rest : Nat → Nat),
      specOcSum (specWords (ICMP id seq time rest) 0 16) = 0xFFFF ∧
      checksum (ICMP id seq time rest) 16 = 0 := by
  refine ⟨⟨checksum_spec P len hmax hb, specOcSum_completed P len h8 hmax hb h2 h3,
    (checksum_verifies P len h8 hmax hb h2 h3).2⟩, ?_⟩
  intro id seq time rest
  have hbI : ∀ j : Nat, (j : Int) < 16 → ICMPbuf id seq time rest j < 256 := by
    intro j hj
    have hj' : j < 16 := by omega
    simp only [ICMPbuf, ICMP_ECHO]
    split_ifs <;> omega
  exact ⟨specOcSum_completed (ICMPbuf id seq time rest) 16 (by norm_num) (by norm_num) hbI rfl rfl,
    (checksum_verifies (ICMPbuf id seq time rest) 16 (by norm_num) (by norm_num) hbI
      rfl rfl).2⟩

theorem C9_checksum_verifies_witness :
    specOcSum (specWords (setChecksum (sampleReply 6) (checksum (sampleReply 6) 36)) 0
      (36 : Int).toNat) = 0xFFFF :=
  (C9_checksum_verifies (sampleReply 6) 36 (by decide) (by decide)
    (fun j _ => by simp only [sampleReply]; split_ifs <;> omega) rfl rfl).1.2.1

/-! ## Header parsing: theorems -/

/-- The offset `UnpackHeader` returns for a length an `int` can hold: 0 below
20 bytes and when between 0 and 7 bytes follow the IP header, else the IP
header length plus 8, also when the IP header length exceeds `l`. -/
theorem UnpackHeader_offset (data : Nat → Nat) (l : Int) (h : Hdr)
    (h0 : 0 ≤ l) (h1 : l < 2 ^ 31) :
    (UnpackHeader data l h).1 =
      if l < 20 then 0
      else if ((data 0 % 16 * 4 : Nat) : Int) ≤ l ∧ l < ((data 0 % 16 * 4 : Nat) : Int) + 8
        then 0
      else ((data 0 % 16 * 4 : Nat) : Int) + 8 := by
  have hm : data 0 % 16 < 16 := Nat.mod_lt _ (by norm_num)
  have hs : (data 0 % 16) <<< 2 = data 0 % 16 * 4 := by
    rw [Nat.shiftLeft_eq]
  simp only [UnpackHeader, toSizeT, sizeofIp, sizeofIcmphdr, hs]
  norm_num at h1 ⊢
  split_ifs <;> first | rfl | omega

/-- C10, the code at a failing input: for a 20-byte datagram whose IP header
length field is 15 (60 bytes, more than were received), `UnpackHeader` does
not return 0 but the offset 68, which exceeds the length 20.  The same
happens for the 20 quoted bytes of a 48-byte Time Exceeded datagram, and
`Receive` then updates hop row 2 from bytes beyond the received 48. -/
theorem C10_short_datagram_accepted :
    shortDatagram 0 % 16 = 15 ∧
    (20 : Int) < 15 * 4 + 8 ∧
    (UnpackHeader shortDatagram 20 sampleHdr).1 = 68 ∧
    ¬ (UnpackHeader shortDatagram 20 sampleHdr).1 ≤ 20 ∧
    (UnpackHeader (advance quotedShort 28) 20 sampleHdr).1 = 68 ∧
    ((sampleEngine 0).tt 2).ip = 0 ∧
    ((Receive (fun x => x) (fun _ => 5) (sampleEngine 0) quotedShort 48 9 sampleHdr).tt 2).ip
      = 9 := by
  refine ⟨by decide, by decide, by decide, by decide, by decide, by decide, by decide⟩

/-! ## Traceroute replies: theorems -/

/-- The hop update writes row `rsq-1` only. -/
theorem hopUpdate_spec (sqrt : ℚ → ℚ) (tt : Int → Trace) (rsq : Int) (dt : ℚ) (src : Nat) :
    hopUpdate sqrt tt rsq dt src (rsq - 1) =
      { tt (rsq - 1) with
        dt := dt, ip := src, ping := SetPing (tt (rsq - 1)).ping 0 (ByteTime dt),
        stat := Stats sqrt dt (tt (rsq - 1)).stat } ∧
    ∀ i : Int, i ≠ rsq - 1 → hopUpdate sqrt tt rsq dt src i = tt i := by
  constructor
  · simp only [hopUpdate, if_true]
  · intro i hi
    simp only [hopUpdate, if_neg hi]

/-- What `Receive` does with a well-formed Echo Reply that carries `traceid`. -/
theorem Receive_trace_echo (sqrt : ℚ → ℚ) (elapsed : (Nat → Nat) → ℚ) (E : Engine)
    (buf : Nat → Nat) (l : Int) (src : Nat) (h0 : Hdr)
    (hid : E.pingid ≠ E.traceid) (H : EchoReply buf l h0)
    (hr : (outerHdr buf l h0).rid = E.traceid) :
    Receive sqrt elapsed E buf l src h0 =
      if (outerHdr buf l h0).rsq > 0 ∧ (outerHdr buf l h0).rsq ≤ E.nhop then
        { E with
          nhop := if (outerHdr buf l h0).rsq < E.nhop then (outerHdr buf l h0).rsq else E.nhop
          tt := hopUpdate sqrt E.tt (outerHdr buf l h0).rsq
                  (elapsed (advance buf (UnpackHeader buf l h0).1)) src }
      else E := by
  obtain ⟨⟨hl, hoff⟩, hrtp, hsz⟩ := H
  simp only [outerType, outerHdr] at hrtp hr ⊢
  have hne : ¬ (E.traceid = E.pingid ∧ findHost E.pt src E.ntar.toNat 0 ≥ 0) := by
    intro h; exact hid h.1.symm
  unfold Receive
  simp only [if_neg (not_lt.mpr hl), if_neg hoff, hrtp, hsz, and_self, if_true, hr,
    if_neg hne, true_and]

/-- What `Receive` does with a well-formed Time Exceeded message. -/
theorem Receive_time_exceeded (sqrt : ℚ → ℚ) (elapsed : (Nat → Nat) → ℚ) (E : Engine)
    (buf : Nat → Nat) (l : Int) (src : Nat) (h0 : Hdr) (H : TimeExceeded buf l h0) :
    Receive sqrt elapsed E buf l src h0 =
      if (innerUnpack buf l h0).2.rid = E.traceid ∧ (innerUnpack buf l h0).2.rsq > 0 ∧
          (innerUnpack buf l h0).2.rsq ≤ E.nhop then
        { E with
          tt := hopUpdate sqrt E.tt (innerUnpack buf l h0).2.rsq
                  (elapsed (innerData buf l h0)) src }
      else E := by
  obtain ⟨⟨hl, hoff⟩, hrtp, hoff2, hsz⟩ := H
  simp only [outerType, innerUnpack, innerData] at hrtp hoff2 hsz ⊢
  have h11 : ¬ (ICMP_TIME_EXCEEDED = ICMP_ECHOREPLY ∧
      toSizeT (l - (UnpackHeader buf l h0).1) ≥ sizeofDouble) := by
    intro h; exact absurd h.1 (by decide)
  unfold Receive
  simp only [if_neg (not_lt.mpr hl), if_neg hoff, hrtp, if_neg h11, if_true, if_neg hoff2,
    if_neg hsz]

/-- What `Receive` does with a well-formed Destination Unreachable message. -/
theorem Receive_unreachable (sqrt : ℚ → ℚ) (elapsed : (Nat → Nat) → ℚ) (E : Engine)
    (buf : Nat → Nat) (l : Int) (src : Nat) (h0 : Hdr) (H : Unreachable buf l h0) :
    Receive sqrt elapsed E buf l src h0 =
      if (innerUnpack buf l h0).2.rid = E.traceid ∧ (innerUnpack buf l h0).2.rsq > 0 ∧
          (innerUnpack buf l h0).2.rsq < E.nhop then
        { E with
          nhop := (innerUnpack buf l h0).2.rsq
          tt := fun i =>
            if i = (innerUnpack buf l h0).2.rsq - 1 then
              { E.tt ((innerUnpack buf l h0).2.rsq - 1) with dt := -1, ip := src }
            else E.tt i }
      else E := by
  obtain ⟨⟨hl, hoff⟩, hrtp, hoff2⟩ := H
  simp only [outerType, innerUnpack] at hrtp hoff2 ⊢
  have h3 : ¬ (ICMP_UNREACH = ICMP_ECHOREPLY ∧
      toSizeT (l - (UnpackHeader buf l h0).1) ≥ sizeofDouble) := by
    intro h; exact absurd h.1 (by decide)
  have h3' : ¬ ICMP_UNREACH = ICMP_TIME_EXCEEDED := by decide
  unfold Receive
  simp only [if_neg (not_lt.mpr hl), if_neg hoff, hrtp, if_neg h3, if_neg h3', if_true,
    if_neg hoff2]

/-- The five shapes of the state after one pass of `Receive`: unchanged; a
current ping reply recorded for one target; a late ping reply counted for one
target, its ring unchanged or one slot at an offset `0 < k < nsec` set to
`LatePing`; a hop row `r-1` updated with `0 < r ≤ nhop`, `nhop` kept or
lowered to `r`; a hop row `r-1` marked unreachable with `0 < r < nhop` and
`nhop` lowered to `r`. -/
theorem Receive_cases (sqrt : ℚ → ℚ) (elapsed : (Nat → Nat) → ℚ) (E : Engine)
    (buf : Nat → Nat) (l : Int) (src : Nat) (h0 : Hdr) :
    Receive sqrt elapsed E buf l src h0 = E ∨
    (∃ (host : Int) (dt : ℚ) (ttl : Int),
      Receive sqrt elapsed E buf l src h0 =
        { E with pt := fun i =>
            if i = host then
              { E.pt host with
                ttl := ttl, dt := dt, ping := SetPing (E.pt host).ping 0 (ByteTime dt),
                stat := Stats sqrt dt (E.pt host).stat }
            else E.pt i }) ∨
    (∃ (host : Int) (pg : Ping),
      (pg = (E.pt host).ping ∨
        ∃ k : Int, 0 < k ∧ k < nsec ∧ pg = SetPing (E.pt host).ping k LatePing) ∧
      Receive sqrt elapsed E buf l src h0 =
        { E with pt := fun i =>
            if i = host then
              { E.pt host with
                stat := { (E.pt host).stat with late := (E.pt host).stat.late + 1 }
                ping := pg }
            else E.pt i }) ∨
    (∃ (r : Int) (dt : ℚ) (nh : Int),
      0 < r ∧ r ≤ E.nhop ∧ (nh = E.nhop ∨ nh = r) ∧
      Receive sqrt elapsed E buf l src h0 =
        { E with nhop := nh, tt := hopUpdate sqrt E.tt r dt src }) ∨
    (∃ r : Int,
      0 < r ∧ r < E.nhop ∧
      Receive sqrt elapsed E buf l src h0 =
        { E with
          nhop := r
          tt := fun i => if i = r - 1 then { E.tt (r - 1) with dt := -1, ip := src }
                         else E.tt i }) := by
  generalize hR : Receive sqrt elapsed E buf l src h0 = R
  unfold Receive at hR
  simp only [] at hR
  split_ifs at hR <;> subst hR
  all_goals first
    | exact Or.inl rfl
    | exact Or.inr (Or.inl ⟨_, _, _, rfl⟩)
    | exact Or.inr (Or.inr (Or.inl ⟨_, _, Or.inr ⟨_, ‹0 < lateOffset _ _ ∧ _ < nsec ∧ _›.1,
        ‹0 < lateOffset _ _ ∧ _ < nsec ∧ _›.2.1, rfl⟩, rfl⟩))
    | exact Or.inr (Or.inr (Or.inl ⟨_, _, Or.inl rfl, rfl⟩))
    | exact Or.inr (Or.inr (Or.inr (Or.inl ⟨_, _, _, ‹_ = E.traceid ∧ (_ : Int) > 0 ∧ _›.2.1,
        ‹_ = E.traceid ∧ (_ : Int) > 0 ∧ _›.2.2, Or.inr rfl, rfl⟩)))
    | exact Or.inr (Or.inr (Or.inr (Or.inl ⟨_, _, _, ‹_ = E.traceid ∧ (_ : Int) > 0 ∧ _›.2.1,
        ‹_ = E.traceid ∧ (_ : Int) > 0 ∧ _›.2.2, Or.inl rfl, rfl⟩)))
    | exact Or.inr (Or.inr (Or.inr (Or.inr ⟨_, ‹_ = E.traceid ∧ (_ : Int) > 0 ∧ _›.2.1,
        ‹_ = E.traceid ∧ (_ : Int) > 0 ∧ _›.2.2, rfl⟩)))

/-- No datagram makes `Receive` increase `nhop`. -/
theorem Receive_nhop_le (sqrt : ℚ → ℚ) (elapsed : (Nat → Nat) → ℚ) (E : Engine)
    (buf : Nat → Nat) (l : Int) (src : Nat) (h0 : Hdr) :
    (Receive sqrt elapsed E buf l src h0).nhop ≤ E.nhop := by
  rcases Receive_cases sqrt elapsed E buf l src h0 with
    h | ⟨host, dt, ttl, h⟩ | ⟨host, pg, _, h⟩ | ⟨r, dt, nh, h1, h2, h3, h⟩ | ⟨r, h1, h2, h⟩
  · rw [h]
  · rw [h]
  · rw [h]
  · rw [h]
    show nh ≤ E.nhop
    rcases h3 with e | e <;> omega
  · rw [h]
    show r ≤ E.nhop
    omega

/-- C11: for identifiers with `pingid ≠ traceid` (as `InitSock` derives them)
and a well-formed datagram whose (inner) id is `traceid` and sequence is `r`:
an Echo Reply with `1 ≤ r ≤ nhop` sets `nhop` to `min nhop r` and records the
delay, the source address, ring slot 0 and the statistics in hop row `r-1`;
a Time Exceeded with `1 ≤ r ≤ nhop` makes the same hop-row update and leaves
`nhop` unchanged; a Destination Unreachable with `0 < r < nhop` sets `nhop` to
`r`, `tt[r-1].dt` to -1 and `tt[r-1].ip` to the source; for `r` outside the
stated range `nhop` and the trace table are unchanged.  No datagram at all
makes `Receive` increase `nhop`. -/
theorem C11_trace_replies (sqrt : ℚ → ℚ) (elapsed : (Nat → Nat) → ℚ) (E : Engine)
    (buf : Nat → Nat) (l : Int) (src : Nat) (h0 : Hdr) (hid : E.pingid ≠ E.traceid) :
    (EchoReply buf l h0 → (outerHdr buf l h0).rid = E.traceid →
      ((1 ≤ (outerHdr buf l h0).rsq ∧ (outerHdr buf l h0).rsq ≤ E.nhop →
          (Receive sqrt elapsed E buf l src h0).nhop = min E.nhop (outerHdr buf l h0).rsq ∧
          (Receive sqrt elapsed E buf l src h0).tt =
            hopUpdate sqrt E.tt (outerHdr buf l h0).rsq
              (elapsed (advance buf (UnpackHeader buf l h0).1)) src) ∧
        (¬ (1 ≤ (outerHdr buf l h0).rsq ∧ (outerHdr buf l h0).rsq ≤ E.nhop) →
          (Receive sqrt elapsed E buf l src h0).nhop = E.nhop ∧
          (Receive sqrt elapsed E buf l src h0).tt = E.tt))) ∧
    (TimeExceeded buf l h0 → (innerUnpack buf l h0).2.rid = E.traceid →
      ((1 ≤ (innerUnpack buf l h0).2.rsq ∧ (innerUnpack buf l h0).2.rsq ≤ E.nhop →
          (Receive sqrt elapsed E buf l src h0).nhop = E.nhop ∧
          (Receive sqrt elapsed E buf l src h0).tt =
            hopUpdate sqrt E.tt (innerUnpack buf l h0).2.rsq
              (elapsed (innerData buf l h0)) src) ∧
        (¬ (1 ≤ (innerUnpack buf l h0).2.rsq ∧ (innerUnpack buf l h0).2.rsq ≤ E.nhop) →
          (Receive sqrt elapsed E buf l src h0).nhop = E.nhop ∧
          (Receive sqrt elapsed E buf l src h0).tt = E.tt))) ∧
    (Unreachable buf l h0 → (innerUnpack buf l h0).2.rid = E.traceid →
      ((0 < (innerUnpack buf l h0).2.rsq ∧ (innerUnpack buf l h0).2.rsq < E.nhop →
          (Receive sqrt elapsed E buf l src h0).nhop = (innerUnpack buf l h0).2.rsq ∧
          (Receive sqrt elapsed E buf l src h0).tt ((innerUnpack buf l h0).2.rsq - 1) =
            { E.tt ((innerUnpack buf l h0).2.rsq - 1) with dt := -1, ip := src } ∧
          ∀ i : Int, i ≠ (innerUnpack buf l h0).2.rsq - 1 →
            (Receive sqrt elapsed E buf l src h0).tt i = E.tt i) ∧
        (¬ (0 < (innerUnpack buf l h0).2.rsq ∧ (innerUnpack buf l h0).2.rsq < E.nhop) →
          (Receive sqrt elapsed E buf l src h0).nhop = E.nhop ∧
          (Receive sqrt elapsed E buf l src h0).tt = E.tt))) ∧
    (∀ (r : Int) (dt : ℚ),
      hopUpdate sqrt E.tt r dt src (r - 1) =
        { E.tt (r - 1) with
          dt := dt, ip := src, ping := SetPing (E.tt (r - 1)).ping 0 (ByteTime dt),
          stat := Stats sqrt dt (E.tt (r - 1)).stat } ∧
      ∀ i : Int, i ≠ r - 1 → hopUpdate sqrt E.tt r dt src i = E.tt i) ∧
    (Receive sqrt elapsed E buf l src h0).nhop ≤ E.nhop := by
  refine ⟨?_, ?_, ?_, fun r dt => hopUpdate_spec sqrt E.tt r dt src,
    Receive_nhop_le sqrt elapsed E buf l src h0⟩
  · intro H hr
    rw [Receive_trace_echo sqrt elapsed E buf l src h0 hid H hr]
    constructor
    · intro hin
      have hc : (outerHdr buf l h0).rsq > 0 ∧ (outerHdr buf l h0).rsq ≤ E.nhop :=
        ⟨by omega, hin.2⟩
      rw [if_pos hc]
      refine ⟨?_, rfl⟩
      show (if (outerHdr buf l h0).rsq < E.nhop then (outerHdr buf l h0).rsq else E.nhop)
        = min E.nhop (outerHdr buf l h0).rsq
      split_ifs <;> omega
    · intro hout
      have hc : ¬ ((outerHdr buf l h0).rsq > 0 ∧ (outerHdr buf l h0).rsq ≤ E.nhop) := by
        intro h; exact hout ⟨by omega, h.2⟩
      rw [if_neg hc]
      exact ⟨rfl, rfl⟩
  · intro H hr
    rw [Receive_time_exceeded sqrt elapsed E buf l src h0 H]
    constructor
    · intro hin
      rw [if_pos ⟨hr, by omega, hin.2⟩]
      exact ⟨rfl, rfl⟩
    · intro hout
      have hc : ¬ ((innerUnpack buf l h0).2.rid = E.traceid ∧
          (innerUnpack buf l h0).2.rsq > 0 ∧ (innerUnpack buf l h0).2.rsq ≤ E.nhop) := by
        intro h; exact hout ⟨by omega, h.2.2⟩
      rw [if_neg hc]
      exact ⟨rfl, rfl⟩
  · intro H hr
    rw [Receive_unreachable sqrt elapsed E buf l src h0 H]
    constructor
    · intro hin
      rw [if_pos ⟨hr, by omega, hin.2⟩]
      refine ⟨rfl, ?_, ?_⟩
      · simp only [if_true]
      · intro i hi
        simp only [if_neg hi]
    · intro hout
      have hc : ¬ ((innerUnpack buf l h0).2.rid = E.traceid ∧
          (innerUnpack buf l h0).2.rsq > 0 ∧ (innerUnpack buf l h0).2.rsq < E.nhop) := by
        intro h; exact hout ⟨by omega, h.2.2⟩
      rw [if_neg hc]
      exact ⟨rfl, rfl⟩

theorem C11_trace_replies_witness :
    (Receive (fun x => x) (fun _ => 5) (sampleEngine 0) (sampleTraceReply 3) 36 9 sampleHdr).nhop
      = min (sampleEngine 0).nhop (outerHdr (sampleTraceReply 3) 36 sampleHdr).rsq :=
  ((C11_trace_replies (fun x => x) (fun _ => 5) (sampleEngine 0) (sampleTraceReply 3) 36 9
      sampleHdr (by decide)).1
    (by unfold EchoReply Parsed outerType; decide) (by decide)).1 (by decide) |>.1

/-! ## Counters of a run: theorems -/

/-- `Stats` adds 1 to `n` and leaves `lost` and `late`. -/
theorem Stats_counts (sqrt : ℚ → ℚ) (dt : ℚ) (st : Stat) :
    (Stats sqrt dt st).n = st.n + 1 ∧ (Stats sqrt dt st).lost = st.lost ∧
    (Stats sqrt dt st).late = st.late := ⟨rfl, rfl, rfl⟩

/-- One datagram leaves `lost` of every target, and raises `n + late` of a
target by at most 1, never lowering `n` or `late`. -/
theorem Receive_pt_stat (sqrt : ℚ → ℚ) (elapsed : (Nat → Nat) → ℚ) (E : Engine)
    (buf : Nat → Nat) (l : Int) (src : Nat) (h0 : Hdr) (i : Int) :
    ((Receive sqrt elapsed E buf l src h0).pt i).stat.lost = (E.pt i).stat.lost ∧
    (E.pt i).stat.n ≤ ((Receive sqrt elapsed E buf l src h0).pt i).stat.n ∧
    (E.pt i).stat.late ≤ ((Receive sqrt elapsed E buf l src h0).pt i).stat.late ∧
    ((Receive sqrt elapsed E buf l src h0).pt i).stat.n
      + ((Receive sqrt elapsed E buf l src h0).pt i).stat.late
      ≤ (E.pt i).stat.n + (E.pt i).stat.late + 1 := by
  rcases Receive_cases sqrt elapsed E buf l src h0 with
    h | ⟨host, dt, ttl, h⟩ | ⟨host, pg, _, h⟩ | ⟨r, dt, nh, _, _, _, h⟩ | ⟨r, _, _, h⟩
  · rw [h]; refine ⟨rfl, le_rfl, le_rfl, ?_⟩; omega
  · rw [h]
    simp only []
    by_cases hi : i = host
    · subst hi
      simp only [if_true, Stats]
      refine ⟨trivial, ?_, ?_, ?_⟩ <;> omega
    · simp only [if_neg hi]
      refine ⟨trivial, le_rfl, le_rfl, ?_⟩; omega
  · rw [h]
    simp only []
    by_cases hi : i = host
    · subst hi
      simp only [if_true]
      refine ⟨trivial, ?_, ?_, ?_⟩ <;> omega
    · simp only [if_neg hi]
      refine ⟨trivial, le_rfl, le_rfl, ?_⟩; omega
  · rw [h]; refine ⟨rfl, le_rfl, le_rfl, ?_⟩; simp only []; omega
  · rw [h]; refine ⟨rfl, le_rfl, le_rfl, ?_⟩; simp only []; omega

/-- One tick leaves `n` and `late` of every target and raises `lost` by at
most 1, or sets it to 0 when it was negative. -/
theorem SendPing_pt_stat (E : Engine) (i : Int) :
    ((SendPing E).pt i).stat.n = (E.pt i).stat.n ∧
    ((SendPing E).pt i).stat.late = (E.pt i).stat.late ∧
    ((SendPing E).pt i).stat.lost ≤ max ((E.pt i).stat.lost + 1) 0 := by
  simp only [SendPing]
  split_ifs with hi
  · simp only [PingShift_snd]
    split_ifs <;> refine ⟨rfl, rfl, ?_⟩ <;> simp only [le_max_iff] <;> omega
  · refine ⟨rfl, rfl, ?_⟩
    simp only [le_max_iff]; omega

/-- The counters of a target along a run, from bounds that hold at its start. -/
theorem runEvents_counts (sqrt : ℚ → ℚ) (k : Int) (evs : List Event) :
    ∀ (E : Engine) (t r : Int), 0 ≤ t →
      (E.pt k).stat.lost + 1 ≤ t → (E.pt k).stat.n + (E.pt k).stat.late ≤ r →
      ((runEvents sqrt E evs).pt k).stat.lost + 1 ≤ t + ticks evs ∧
      ((runEvents sqrt E evs).pt k).stat.n + ((runEvents sqrt E evs).pt k).stat.late
        ≤ r + recvs evs := by
  induction evs with
  | nil =>
    intro E t r _ h1 h2
    simpa [runEvents, ticks, recvs] using And.intro h1 h2
  | cons ev evs ih =>
    intro E t r ht h1 h2
    have hstep : runEvents sqrt E (ev :: evs) = runEvents sqrt (step sqrt E ev) evs := rfl
    rw [hstep]
    cases ev with
    | tick =>
      obtain ⟨a, b, c⟩ := SendPing_pt_stat E k
      have c' : ((SendPing E).pt k).stat.lost ≤ (E.pt k).stat.lost + 1 ∨
          ((SendPing E).pt k).stat.lost ≤ 0 := le_max_iff.mp c
      have := ih (SendPing E) (t + 1) r (by omega) (by omega) (by rw [a, b]; exact h2)
      simp only [step, ticks, recvs]
      push_cast
      constructor
      · have h := this.1; omega
      · exact this.2
    | recv elapsed buf l src h0 =>
      obtain ⟨a, _, _, d⟩ := Receive_pt_stat sqrt elapsed E buf l src h0 k
      have := ih (Receive sqrt elapsed E buf l src h0) t (r + 1) ht (by rw [a]; exact h1)
        (by omega)
      simp only [step, ticks, recvs]
      push_cast
      constructor
      · exact this.1
      · have h := this.2; omega

theorem freshEngine_fresh : Fresh freshEngine := by
  refine ⟨rfl, fun k => ⟨rfl, ?_⟩⟩
  show InitPing ⟨0, fun _ => 0⟩ = InitPing (InitPing ⟨0, fun _ => 0⟩)
  simp only [InitPing, Ping.mk.injEq, true_and]
  funext i
  split_ifs <;> rfl

/-- C12 fails as stated.  From the fresh engine, after one tick whose reply is
delivered twice, `n + lost + late = 2 > 1`; and without any duplicate, after
two ticks with the first reply late and the second on time,
`n + lost + late = 1 + 1 + 1 = 3 > 2`. -/
theorem C12_counterexample :
    Fresh freshEngine ∧
    (ticks duplicateRun = 1 ∧
      ((runEvents (fun x => x) freshEngine duplicateRun).pt 0).stat.n = 2 ∧
      ((runEvents (fun x => x) freshEngine duplicateRun).pt 0).stat.lost = 0 ∧
      ((runEvents (fun x => x) freshEngine duplicateRun).pt 0).stat.late = 0) ∧
    (ticks lateRun = 2 ∧
      ((runEvents (fun x => x) freshEngine lateRun).pt 0).stat.n = 1 ∧
      ((runEvents (fun x => x) freshEngine lateRun).pt 0).stat.lost = 1 ∧
      ((runEvents (fun x => x) freshEngine lateRun).pt 0).stat.late = 1) := by
  refine ⟨freshEngine_fresh, ⟨by decide, by decide, by decide, by decide⟩,
    ⟨by decide, by decide, by decide, by decide⟩⟩

/-- C12 (amended): for every target and every state reached from a fresh
engine by any interleaving of `t` sender ticks and the receiver processing of
`r` arbitrary datagrams, `stat.lost + 1 ≤ t` and `stat.n + stat.late ≤ r`,
hence `stat.n + stat.lost + stat.late < t + r`. -/
theorem C12_counters_bounded (sqrt : ℚ → ℚ) (E : Engine) (evs : List Event) (k : Int)
    (hE : Fresh E) :
    ((runEvents sqrt E evs).pt k).stat.lost + 1 ≤ ticks evs ∧
    ((runEvents sqrt E evs).pt k).stat.n + ((runEvents sqrt E evs).pt k).stat.late
      ≤ recvs evs ∧
    ((runEvents sqrt E evs).pt k).stat.n + ((runEvents sqrt E evs).pt k).stat.lost
      + ((runEvents sqrt E evs).pt k).stat.late < (ticks evs : Int) + recvs evs := by
  have hs : (E.pt k).stat = InitStat := (hE.2 k).1
  have h := runEvents_counts sqrt k evs E 0 0 le_rfl
    (by rw [hs]; decide) (by rw [hs]; decide)
  simp only [zero_add] at h
  refine ⟨h.1, h.2, ?_⟩
  omega

theorem C12_counters_bounded_witness :
    ((runEvents (fun x => x) freshEngine lateRun).pt 0).stat.lost + 1 ≤ ticks lateRun :=
  (C12_counters_bounded (fun x => x) freshEngine lateRun 0 freshEngine_fresh).1

/-! ## Statistics: theorems -/

theorem StatsRun_snoc (sqrt : ℚ → ℚ) (ds : List ℚ) (d : ℚ) :
    StatsRun sqrt (ds ++ [d]) = Stats sqrt d (StatsRun sqrt ds) := by
  simp only [StatsRun, List.foldl_append, List.foldl_cons, List.foldl_nil]

/-- The running count, sums and extremes after any sequence of non-negative
times. -/
theorem StatsRun_inv (sqrt : ℚ → ℚ) (ds : List ℚ) (hpos : ∀ d ∈ ds, 0 ≤ d) :
    (StatsRun sqrt ds).n = ds.length ∧
    (StatsRun sqrt ds).S = ds.sum ∧
    (StatsRun sqrt ds).S2 = (ds.map (fun d => d * d)).sum ∧
    (ds = [] → (StatsRun sqrt ds).min = -1 ∧ (StatsRun sqrt ds).max = -1) ∧
    (ds ≠ [] →
      (StatsRun sqrt ds).min ∈ ds ∧ (∀ d ∈ ds, (StatsRun sqrt ds).min ≤ d) ∧
      (StatsRun sqrt ds).max ∈ ds ∧ (∀ d ∈ ds, d ≤ (StatsRun sqrt ds).max)) := by
  induction ds using List.reverseRecOn with
  | nil =>
    refine ⟨rfl, rfl, rfl, fun _ => ⟨rfl, rfl⟩, fun h => absurd rfl h⟩
  | append_singleton l a ih =>
    have hl : ∀ d ∈ l, 0 ≤ d := fun d hd => hpos d (List.mem_append_left _ hd)
    have ha : 0 ≤ a := hpos a (List.mem_append_right _ (List.mem_singleton_self a))
    obtain ⟨hn, hS, hS2, hnil, hcons⟩ := ih hl
    rw [StatsRun_snoc]
    refine ⟨?_, ?_, ?_, ?_, ?_⟩
    · show (StatsRun sqrt l).n + 1 = _
      rw [hn, List.length_append]; simp
    · show (StatsRun sqrt l).S + a = _
      rw [hS, List.sum_append]; simp
    · show (StatsRun sqrt l).S2 + a * a = _
      rw [hS2, List.map_append, List.sum_append]; simp
    · intro h; exact absurd h (by simp)
    · intro _
      by_cases hle : l = []
      · obtain ⟨hmin, hmax⟩ := hnil hle
        have e1 : (Stats sqrt a (StatsRun sqrt l)).min = a := by
          simp only [Stats, hmin]; norm_num
        have e2 : (Stats sqrt a (StatsRun sqrt l)).max = a := by
          simp only [Stats, hmax]; norm_num
        rw [e1, e2, hle]
        simp
      · obtain ⟨hm1, hm2, hx1, hx2⟩ := hcons hle
        have hmin0 : ¬ (StatsRun sqrt l).min < 0 := not_lt.mpr (hl _ hm1)
        have hmax0 : ¬ (StatsRun sqrt l).max < 0 := not_lt.mpr (hl _ hx1)
        have e1 : (Stats sqrt a (StatsRun sqrt l)).min =
            if a < (StatsRun sqrt l).min then a else (StatsRun sqrt l).min := by
          simp only [Stats, hmin0, false_or]
        have e2 : (Stats sqrt a (StatsRun sqrt l)).max =
            if a > (StatsRun sqrt l).max then a else (StatsRun sqrt l).max := by
          simp only [Stats, hmax0, false_or]
        rw [e1, e2]
        refine ⟨?_, ?_, ?_, ?_⟩
        · split_ifs
          · simp
          · exact List.mem_append_left _ hm1
        · intro d hd
          rcases List.mem_append.mp hd with h | h
          · have := hm2 d h
            split_ifs <;> linarith
          · rw [List.mem_singleton] at h
            subst h
            split_ifs <;> linarith
        · split_ifs
          · simp
          · exact List.mem_append_left _ hx1
        · intro d hd
          rcases List.mem_append.mp hd with h | h
          · have := hx2 d h
            split_ifs <;> linarith
          · rw [List.mem_singleton] at h
            subst h
            split_ifs <;> linarith

/-- After at least one update the average times the count is the sum. -/
theorem StatsRun_avg (sqrt : ℚ → ℚ) (ds : List ℚ) (hne : ds ≠ []) (hpos : ∀ d ∈ ds, 0 ≤ d) :
    (StatsRun sqrt ds).avg * (StatsRun sqrt ds).n = (StatsRun sqrt ds).S := by
  have hn := (StatsRun_inv sqrt ds hpos).1
  have hlen : (0 : ℚ) < ds.length := by
    have : 0 < ds.length := List.length_pos.mpr hne
    exact_mod_cast this
  obtain ⟨l, a, rfl⟩ : ∃ l a, ds = l ++ [a] := by
    rcases List.eq_nil_or_concat ds with h | ⟨l, a, h⟩
    · exact absurd h hne
    · exact ⟨l, a, by simpa using h⟩
  rw [StatsRun_snoc] at hn ⊢
  have havg : (Stats sqrt a (StatsRun sqrt l)).avg
      = (Stats sqrt a (StatsRun sqrt l)).S / (Stats sqrt a (StatsRun sqrt l)).n := rfl
  rw [havg, hn]
  have hne0 : (((l ++ [a]).length : Int) : ℚ) ≠ 0 := by
    have : (((l ++ [a]).length : Int) : ℚ) = ((l ++ [a]).length : ℚ) := by norm_cast
    rw [this]; exact ne_of_gt hlen
  exact div_mul_cancel₀ _ hne0

/-- C13: over exact arithmetic, after `InitStat` and then `Stats` on each of a
non-empty sequence `ds` of non-negative times: `n` is the length, `S` the sum,
`S2` the sum of squares, `min` and `max` the least and greatest element, and
`avg * n = S`; before the first update `min`, `max`, `avg` and `std` are -1. -/
theorem C13_running_statistics (sqrt : ℚ → ℚ) (ds : List ℚ) (hne : ds ≠ [])
    (hpos : ∀ d ∈ ds, 0 ≤ d) :
    (StatsRun sqrt ds).n = ds.length ∧
    (StatsRun sqrt ds).S = ds.sum ∧
    (StatsRun sqrt ds).S2 = (ds.map (fun d => d * d)).sum ∧
    ((StatsRun sqrt ds).min ∈ ds ∧ ∀ d ∈ ds, (StatsRun sqrt ds).min ≤ d) ∧
    ((StatsRun sqrt ds).max ∈ ds ∧ ∀ d ∈ ds, d ≤ (StatsRun sqrt ds).max) ∧
    (StatsRun sqrt ds).avg * (StatsRun sqrt ds).n = (StatsRun sqrt ds).S ∧
    ((StatsRun sqrt []).min = -1 ∧ (StatsRun sqrt []).max = -1 ∧
      (StatsRun sqrt []).avg = -1 ∧ (StatsRun sqrt []).std = -1) := by
  obtain ⟨hn, hS, hS2, _, hcons⟩ := StatsRun_inv sqrt ds hpos
  obtain ⟨a, b, c, d⟩ := hcons hne
  exact ⟨hn, hS, hS2, ⟨a, b⟩, ⟨c, d⟩, StatsRun_avg sqrt ds hne hpos, rfl, rfl, rfl, rfl⟩

theorem C13_running_statistics_witness :
    (StatsRun (fun x => x) [20, 5, 150]).S = ([20, 5, 150] : List ℚ).sum :=
  (C13_running_statistics (fun x => x) [20, 5, 150] (by simp)
    (by intro d hd; simp only [List.mem_cons, List.mem_singleton, List.not_mem_nil, or_false] at hd
        rcases hd with h | h | h <;> rw [h] <;> norm_num)).2.1

/-! ## Scroll offset and frame of the receiver: theorems -/

/-- C14, the code at a failing input.  `PingShift` on the same ring (reply
byte at `cur`, `LostPing` two slots on) and the same statistics leaves `lost`
at 0 with `delt = 0` and raises it to 1 with `delt = 2`; `Receive` on the same
late reply, in engines that differ in `delt` only, leaves slot 101 of the
target's ring at `0x05` with `delt = 0` and sets it to `LatePing` with
`delt = 1`. -/
theorem C14_delt_changes_writes :
    ((PingShift 0 sampleRing { InitStat with lost := 0 }).2.lost = 0 ∧
      (PingShift 2 sampleRing { InitStat with lost := 0 }).2.lost = 1) ∧
    (((Receive (fun x => x) (fun _ => 5) (sampleEngine 0) (sampleReply 6) 36 1 sampleHdr).pt 0
        ).ping.buf 101 = 0x05 ∧
      ((Receive (fun x => x) (fun _ => 5) (sampleEngine 1) (sampleReply 6) 36 1 sampleHdr).pt 0
        ).ping.buf 101 = LatePing) := by
  refine ⟨⟨by decide, by decide⟩, ⟨by decide, by decide⟩⟩

/-- The part of the write paths that does not read `delt`: the ring after
`PingShift`, and every field of its statistics other than `lost`. -/
theorem PingShift_delt_frame (d d' : Int) (ping : Ping) (stat : Stat) :
    (PingShift d ping stat).1 = (PingShift d' ping stat).1 ∧
    { (PingShift d ping stat).2 with lost := 0 }
      = { (PingShift d' ping stat).2 with lost := 0 } := by
  refine ⟨rfl, ?_⟩
  simp only [PingShift_snd]
  split_ifs <;> rfl

/-- `Receive` never writes the counters, the identifiers or `delt`. -/
theorem Receive_scalars (sqrt : ℚ → ℚ) (elapsed : (Nat → Nat) → ℚ) (E : Engine)
    (buf : Nat → Nat) (l : Int) (src : Nat) (h0 : Hdr) :
    (Receive sqrt elapsed E buf l src h0).seq = E.seq ∧
    (Receive sqrt elapsed E buf l src h0).tseq = E.tseq ∧
    (Receive sqrt elapsed E buf l src h0).pingid = E.pingid ∧
    (Receive sqrt elapsed E buf l src h0).traceid = E.traceid ∧
    (Receive sqrt elapsed E buf l src h0).delt = E.delt := by
  rcases Receive_cases sqrt elapsed E buf l src h0 with
    h | ⟨host, dt, ttl, h⟩ | ⟨host, pg, _, h⟩ | ⟨r, dt, nh, _, _, _, h⟩ | ⟨r, _, _, h⟩ <;>
  rw [h] <;> exact ⟨rfl, rfl, rfl, rfl, rfl⟩

/-- `Receive` never moves the `cur` index of a target's ring. -/
theorem Receive_pt_cur (sqrt : ℚ → ℚ) (elapsed : (Nat → Nat) → ℚ) (E : Engine)
    (buf : Nat → Nat) (l : Int) (src : Nat) (h0 : Hdr) (i : Int) :
    ((Receive sqrt elapsed E buf l src h0).pt i).ping.cur = (E.pt i).ping.cur := by
  rcases Receive_cases sqrt elapsed E buf l src h0 with
    h | ⟨host, dt, ttl, h⟩ | ⟨host, pg, hpg, h⟩ | ⟨r, dt, nh, _, _, _, h⟩ | ⟨r, _, _, h⟩
  · rw [h]
  · rw [h]
    simp only []
    by_cases hi : i = host
    · subst hi; simp only [if_true, SetPing]
    · simp only [if_neg hi]
  · rw [h]
    simp only []
    by_cases hi : i = host
    · subst hi
      simp only [if_true]
      rcases hpg with e | ⟨k, _, _, e⟩
      · rw [e]
      · rw [e]; rfl
    · simp only [if_neg hi]
  · rw [h]
  · rw [h]

/-- `Receive` never moves the `cur` index of a hop's ring and never changes
`lost` of a hop. -/
theorem Receive_tt_frame (sqrt : ℚ → ℚ) (elapsed : (Nat → Nat) → ℚ) (E : Engine)
    (buf : Nat → Nat) (l : Int) (src : Nat) (h0 : Hdr) (i : Int) :
    ((Receive sqrt elapsed E buf l src h0).tt i).ping.cur = (E.tt i).ping.cur ∧
    ((Receive sqrt elapsed E buf l src h0).tt i).stat.lost = (E.tt i).stat.lost := by
  rcases Receive_cases sqrt elapsed E buf l src h0 with
    h | ⟨host, dt, ttl, h⟩ | ⟨host, pg, _, h⟩ | ⟨r, dt, nh, _, _, _, h⟩ | ⟨r, _, _, h⟩
  · rw [h]; exact ⟨rfl, rfl⟩
  · rw [h]; exact ⟨rfl, rfl⟩
  · rw [h]; exact ⟨rfl, rfl⟩
  · rw [h]
    simp only [hopUpdate]
    by_cases hi : i = r - 1
    · subst hi; simp only [if_true, SetPing, Stats, and_self]
    · simp only [if_neg hi, and_self]
  · rw [h]
    simp only []
    by_cases hi : i = r - 1
    · subst hi; simp only [if_true, and_self]
    · simp only [if_neg hi, and_self]

/-- The host lookup finds nothing when no target in the scanned range has
the address. -/
theorem findHost_not_found (pt : Int → Target) (src : Nat) :
    ∀ (m : Nat) (i : Int), (∀ k : Int, i ≤ k → k < i + m → (pt k).ip ≠ src) →
      findHost pt src m i = -1
  | 0, _, _ => rfl
  | m + 1, i, h => by
    have hi : ¬ src = (pt i).ip := fun e => h i le_rfl (by push_cast; omega) e.symm
    rw [findHost, if_neg hi]
    exact findHost_not_found pt src m (i + 1) (fun k hk1 hk2 => h k (by omega) (by push_cast; omega))

/-- A datagram of a type other than the three handled leaves the engine as
it is. -/
theorem Receive_other_type (sqrt : ℚ → ℚ) (elapsed : (Nat → Nat) → ℚ) (E : Engine)
    (buf : Nat → Nat) (l : Int) (src : Nat) (h0 : Hdr)
    (ha : outerType buf l h0 ≠ ICMP_ECHOREPLY) (hb : outerType buf l h0 ≠ ICMP_TIME_EXCEEDED)
    (hc : outerType buf l h0 ≠ ICMP_UNREACH) :
    Receive sqrt elapsed E buf l src h0 = E := by
  simp only [outerType] at ha hb hc
  unfold Receive
  simp only [ha, hb, hc, false_and, if_false, ite_self]

/-- An Echo Reply that carries neither identifier leaves the engine as it is. -/
theorem Receive_echo_foreign (sqrt : ℚ → ℚ) (elapsed : (Nat → Nat) → ℚ) (E : Engine)
    (buf : Nat → Nat) (l : Int) (src : Nat) (h0 : Hdr)
    (ht : outerType buf l h0 = ICMP_ECHOREPLY)
    (ha : (outerHdr buf l h0).rid ≠ E.pingid) (hb : (outerHdr buf l h0).rid ≠ E.traceid) :
    Receive sqrt elapsed E buf l src h0 = E := by
  simp only [outerType, outerHdr] at ht ha hb
  have h11 : ¬ ICMP_ECHOREPLY = ICMP_TIME_EXCEEDED := by decide
  have h3 : ¬ ICMP_ECHOREPLY = ICMP_UNREACH := by decide
  unfold Receive
  simp only [ht, ha, hb, h11, h3, false_and, if_false, ite_self]

/-- A Time Exceeded or Destination Unreachable whose quoted packet does not
carry `traceid` leaves the engine as it is. -/
theorem Receive_quoted_foreign (sqrt : ℚ → ℚ) (elapsed : (Nat → Nat) → ℚ) (E : Engine)
    (buf : Nat → Nat) (l : Int) (src : Nat) (h0 : Hdr)
    (ht : outerType buf l h0 = ICMP_TIME_EXCEEDED ∨ outerType buf l h0 = ICMP_UNREACH)
    (hb : (innerUnpack buf l h0).2.rid ≠ E.traceid) :
    Receive sqrt elapsed E buf l src h0 = E := by
  simp only [outerType, innerUnpack] at ht hb
  have h11 : ¬ ICMP_TIME_EXCEEDED = ICMP_ECHOREPLY := by decide
  have h3 : ¬ ICMP_UNREACH = ICMP_ECHOREPLY := by decide
  have h3' : ¬ ICMP_UNREACH = ICMP_TIME_EXCEEDED := by decide
  unfold Receive
  rcases ht with ht | ht
  · simp only [ht, hb, h11, false_and, if_false, if_true, ite_self]
  · simp only [ht, hb, h3, h3', false_and, if_false, if_true, ite_self]

/-- An Echo Reply with `pingid` from an address that no target has leaves the
engine as it is. -/
theorem Receive_echo_unknown_host (sqrt : ℚ → ℚ) (elapsed : (Nat → Nat) → ℚ) (E : Engine)
    (buf : Nat → Nat) (l : Int) (src : Nat) (h0 : Hdr) (hid : E.pingid ≠ E.traceid)
    (ht : outerType buf l h0 = ICMP_ECHOREPLY)
    (ha : (outerHdr buf l h0).rid = E.pingid)
    (hs : ∀ k : Int, 0 ≤ k → k < E.ntar → (E.pt k).ip ≠ src) :
    Receive sqrt elapsed E buf l src h0 = E := by
  simp only [outerType, outerHdr] at ht ha
  have h11 : ¬ ICMP_ECHOREPLY = ICMP_TIME_EXCEEDED := by decide
  have h3 : ¬ ICMP_ECHOREPLY = ICMP_UNREACH := by decide
  have hf : findHost E.pt src E.ntar.toNat 0 = -1 :=
    findHost_not_found E.pt src E.ntar.toNat 0 (fun k h1 h2 => hs k h1 (by omega))
  have hneg : ¬ ((-1 : Int) ≥ 0) := by decide
  unfold Receive
  simp only [ht, ha, hf, hneg, hid, h11, h3, and_false, false_and, if_false, ite_self]

/-- C15: processing one datagram in `Receive` never changes `seq`, `tseq`,
the `cur` index of any ring or any `stat.lost`; and it leaves the whole engine
state as it is when the ICMP type is none of Echo Reply, Time Exceeded and
Destination Unreachable, when the (inner) id is neither `pingid` nor
`traceid`, and (identifiers being distinct, as `InitSock` makes them) when it
is an Echo Reply with `pingid` from an address not in the target table. -/
theorem C15_receive_frame (sqrt : ℚ → ℚ) (elapsed : (Nat → Nat) → ℚ) (E : Engine)
    (buf : Nat → Nat) (l : Int) (src : Nat) (h0 : Hdr) :
    ((Receive sqrt elapsed E buf l src h0).seq = E.seq ∧
      (Receive sqrt elapsed E buf l src h0).tseq = E.tseq ∧
      ∀ i : Int,
        ((Receive sqrt elapsed E buf l src h0).pt i).ping.cur = (E.pt i).ping.cur ∧
        ((Receive sqrt elapsed E buf l src h0).tt i).ping.cur = (E.tt i).ping.cur ∧
        ((Receive sqrt elapsed E buf l src h0).pt i).stat.lost = (E.pt i).stat.lost ∧
        ((Receive sqrt elapsed E buf l src h0).tt i).stat.lost = (E.tt i).stat.lost) ∧
    (outerType buf l h0 ≠ ICMP_ECHOREPLY → outerType buf l h0 ≠ ICMP_TIME_EXCEEDED →
      outerType buf l h0 ≠ ICMP_UNREACH → Receive sqrt elapsed E buf l src h0 = E) ∧
    (outerType buf l h0 = ICMP_ECHOREPLY → (outerHdr buf l h0).rid ≠ E.pingid →
      (outerHdr buf l h0).rid ≠ E.traceid → Receive sqrt elapsed E buf l src h0 = E) ∧
    (outerType buf l h0 = ICMP_TIME_EXCEEDED ∨ outerType buf l h0 = ICMP_UNREACH →
      (innerUnpack buf l h0).2.rid ≠ E.pingid → (innerUnpack buf l h0).2.rid ≠ E.traceid →
      Receive sqrt elapsed E buf l src h0 = E) ∧
    (E.pingid ≠ E.traceid → outerType buf l h0 = ICMP_ECHOREPLY →
      (outerHdr buf l h0).rid = E.pingid →
      (∀ k : Int, 0 ≤ k → k < E.ntar → (E.pt k).ip ≠ src) →
      Receive sqrt elapsed E buf l src h0 = E) := by
  obtain ⟨s1, s2, _, _, _⟩ := Receive_scalars sqrt elapsed E buf l src h0
  refine ⟨⟨s1, s2, fun i => ⟨Receive_pt_cur sqrt elapsed E buf l src h0 i,
      (Receive_tt_frame sqrt elapsed E buf l src h0 i).1,
      (Receive_pt_stat sqrt elapsed E buf l src h0 i).1,
      (Receive_tt_frame sqrt elapsed E buf l src h0 i).2⟩⟩, ?_, ?_, ?_, ?_⟩
  · exact Receive_other_type sqrt elapsed E buf l src h0
  · exact Receive_echo_foreign sqrt elapsed E buf l src h0
  · intro ht _ hb
    exact Receive_quoted_foreign sqrt elapsed E buf l src h0 ht hb
  · exact Receive_echo_unknown_host sqrt elapsed E buf l src h0

theorem C15_receive_frame_witness :
    Receive (fun x => x) (fun _ => 5) (sampleEngine 0) (sampleReply 7) 36 77 sampleHdr
      = sampleEngine 0 :=
  (C15_receive_frame (fun x => x) (fun _ => 5) (sampleEngine 0) (sampleReply 7) 36 77
    sampleHdr).2.2.2.2 (by decide) (by decide) (by decide)
    (by intro k _ _; show (1 : Nat) ≠ 77; decide)

/-! ## Encoder outside its range, counters, identifiers: theorems -/

/-- For a rounded time of 10000 or more (that an `int` can hold) `ByteTime`
returns `LostPing`. -/
theorem ByteTime_lost_of_large (dt : ℚ) (h : 10000 ≤ toInt (roundDouble (dt + 1 / 2))) :
    ByteTime dt = LostPing := by
  rw [ByteTime_of_idt dt _ rfl, if_neg (by omega), if_neg (by omega), if_neg (by omega),
    if_neg (by omega)]

theorem toInt_of_neg {x : ℚ} (h0 : x < 0) (h1 : -2 ^ 31 ≤ ⌈x⌉) : toInt x = ⌈x⌉ := by
  have hc : ⌈x⌉ ≤ 0 := Int.ceil_le.mpr (by exact_mod_cast h0.le)
  simp only [toInt, if_neg (not_le.mpr h0)]
  rw [if_pos ⟨h1, by omega⟩]

/-- C16, the code at failing inputs: for negative times, whose rounded value
lies outside 0..9999, `ByteTime` does not return `LostPing`: -5 gives `0xFC`
(exponent nibble 15, mantissa nibble 12), -1.5 gives `NoPing` (`0xFF`) and
-3.5 gives `LatePing` (`0xFD`). -/
theorem C16_negative_times :
    ByteTime (-5) = 0xFC ∧ ByteTime (-5) ≠ LostPing ∧
    expo (ByteTime (-5)) = 15 ∧ mant (ByteTime (-5)) = 12 ∧
    ByteTime (-3 / 2) = NoPing ∧ ByteTime (-7 / 2) = LatePing := by
  have h5 : toInt (roundDouble ((-5 : ℚ) + 1 / 2)) = -4 := by
    have e : (-5 : ℚ) + 1 / 2 = ((-9 : Int) : ℚ) / 2 ^ 1 := by norm_num
    have c : ⌈((-9 : Int) : ℚ) / 2 ^ 1⌉ = -4 := by rw [Int.ceil_eq_iff]; norm_num
    rw [e, roundDouble_dyadic (-9) 1 (by norm_num) (by norm_num),
      toInt_of_neg (by norm_num) (by rw [c]; norm_num), c]
  have h1 : toInt (roundDouble ((-3 / 2 : ℚ) + 1 / 2)) = -1 := by
    have e : (-3 / 2 : ℚ) + 1 / 2 = ((-1 : Int) : ℚ) / 2 ^ 0 := by norm_num
    have c : ⌈((-1 : Int) : ℚ) / 2 ^ 0⌉ = -1 := by rw [Int.ceil_eq_iff]; norm_num
    rw [e, roundDouble_dyadic (-1) 0 (by norm_num) (by norm_num),
      toInt_of_neg (by norm_num) (by rw [c]; norm_num), c]
  have h3 : toInt (roundDouble ((-7 / 2 : ℚ) + 1 / 2)) = -3 := by
    have e : (-7 / 2 : ℚ) + 1 / 2 = ((-3 : Int) : ℚ) / 2 ^ 0 := by norm_num
    have c : ⌈((-3 : Int) : ℚ) / 2 ^ 0⌉ = -3 := by rw [Int.ceil_eq_iff]; norm_num
    rw [e, roundDouble_dyadic (-3) 0 (by norm_num) (by norm_num),
      toInt_of_neg (by norm_num) (by rw [c]; norm_num), c]
  have e5 : ByteTime (-5) = 0xFC := by rw [ByteTime_of_idt _ _ h5]; decide
  have e1 : ByteTime (-3 / 2) = NoPing := by rw [ByteTime_of_idt _ _ h1]; decide
  have e3 : ByteTime (-7 / 2) = LatePing := by rw [ByteTime_of_idt _ _ h3]; decide
  refine ⟨e5, ?_, ?_, ?_, e1, e3⟩
  · rw [e5]; decide
  · rw [e5]; decide
  · rw [e5]; decide

/-- When the double sum `dt + 0.5` is `2^31` or more the conversion to `int`
overflows, and with the value `INT_MIN` of the x86-64 conversion `ByteTime`
returns the byte 0, not `LostPing`. -/
theorem ByteTime_of_overflow (dt : ℚ) (h : 2 ^ 31 ≤ roundDouble (dt + 1 / 2)) :
    ByteTime dt = 0 := by
  have hp : (0 : ℚ) ≤ roundDouble (dt + 1 / 2) := le_trans (by norm_num) h
  have hf : (2 : Int) ^ 31 ≤ ⌊roundDouble (dt + 1 / 2)⌋ :=
    Int.le_floor.mpr (by exact_mod_cast h)
  have hi : toInt (roundDouble (dt + 1 / 2)) = -2 ^ 31 := by
    simp only [toInt, if_pos hp]
    rw [if_neg (by omega)]
  rw [ByteTime_of_idt dt _ hi]
  decide

theorem nextSeq_range {s : Int} (h0 : 0 ≤ s) (h1 : s ≤ 65535) :
    1 ≤ nextSeq s ∧ nextSeq s ≤ 65535 := by
  simp only [nextSeq, nsec]
  split_ifs <;> omega

theorem nextSeq_iterate_range {s : Int} (h0 : 0 ≤ s) (h1 : s ≤ 65535) :
    ∀ n : Nat, 1 ≤ n → 1 ≤ nextSeq^[n] s ∧ nextSeq^[n] s ≤ 65535 := by
  intro n
  induction n with
  | zero => intro h; omega
  | succ n ih =>
    intro _
    rw [Function.iterate_succ_apply']
    by_cases hn : n = 0
    · subst hn; exact nextSeq_range h0 h1
    · obtain ⟨a, b⟩ := ih (by omega)
      exact nextSeq_range (by omega) b

theorem SendPing_tseq_iterate (E : Engine) (d : Nat) :
    (SendPing^[d] E).tseq = nextSeq^[d] E.tseq := by
  induction d with
  | zero => rfl
  | succ d ih =>
    rw [Function.iterate_succ_apply', Function.iterate_succ_apply', ← ih]
    rfl

/-- The sequence field of the packet `ICMP` sends (bytes 6 and 7, host
order) holds `seq` itself when `0 ≤ seq ≤ 65535`. -/
theorem ICMP_seq_field (id seq : Int) (time rest : Nat → Nat)
    (h0 : 0 ≤ seq) (h1 : seq ≤ 65535) :
    ((ICMP id seq time rest 6 + 256 * ICMP id seq time rest 7 : Nat) : Int) = seq := by
  have e6 : ICMP id seq time rest 6 = (seq % 65536).toNat % 256 := by
    simp [ICMP, setChecksum, ICMPbuf]
  have e7 : ICMP id seq time rest 7 = (seq % 65536).toNat / 256 := by
    simp [ICMP, setChecksum, ICMPbuf]
  rw [e6, e7]
  omega

/-- C17: each sender tick adds one to `seq` and to `tseq` and replaces a
value above 65535 by 3600; from 65535 the next value is 3600; starting from
`seq = tseq = 0` both counters lie in 1..65535 after every tick, and the
16-bit sequence field of the packet sent carries `seq` unchanged. -/
theorem C17_sequence_counters (E : Engine) :
    ((SendPing E).seq = if E.seq + 1 > 65535 then 3600 else E.seq + 1) ∧
    ((SendPing E).tseq = if E.tseq + 1 > 65535 then 3600 else E.tseq + 1) ∧
    (E.seq = 65535 → (SendPing E).seq = 3600) ∧
    (E.tseq = 65535 → (SendPing E).tseq = 3600) ∧
    (E.seq = 0 → E.tseq = 0 → ∀ n : Nat, 1 ≤ n →
      (1 ≤ (SendPing^[n] E).seq ∧ (SendPing^[n] E).seq ≤ 65535) ∧
      (1 ≤ (SendPing^[n] E).tseq ∧ (SendPing^[n] E).tseq ≤ 65535) ∧
      ∀ time rest : Nat → Nat,
        ((ICMP E.pingid (SendPing^[n] E).seq time rest 6
          + 256 * ICMP E.pingid (SendPing^[n] E).seq time rest 7 : Nat) : Int)
          = (SendPing^[n] E).seq) := by
  refine ⟨rfl, rfl, ?_, ?_, ?_⟩
  · intro h
    show nextSeq E.seq = 3600
    rw [h]; decide
  · intro h
    show nextSeq E.tseq = 3600
    rw [h]; decide
  · intro hs ht n hn
    have a := nextSeq_iterate_range (s := E.seq) (by omega) (by omega) n hn
    have b := nextSeq_iterate_range (s := E.tseq) (by omega) (by omega) n hn
    rw [SendPing_seq_iterate, SendPing_tseq_iterate]
    refine ⟨a, b, fun time rest => ICMP_seq_field _ _ time rest (by omega) a.2⟩

theorem C17_sequence_counters_witness :
    1 ≤ (SendPing^[3] freshEngine).seq ∧ (SendPing^[3] freshEngine).seq ≤ 65535 :=
  ((C17_sequence_counters freshEngine).2.2.2.2 rfl rfl 3 (by decide)).1

/-- C18: for every process id `p` the identifiers `InitSock` derives satisfy
`pingid = (p & 0x7FFF) << 1`, `pingid & 1 = 0`, `traceid = pingid | 1`,
`traceid & 1 = 1`, `pingid < traceid < 0x10000` and `pingid ≠ traceid`. -/
theorem C18_identifiers (p : Nat) :
    (InitSock p).1 = (p &&& 0x7FFF) <<< 1 ∧
    (InitSock p).1 &&& 1 = 0 ∧
    (InitSock p).2 = (InitSock p).1 ||| 1 ∧
    (InitSock p).2 &&& 1 = 1 ∧
    0 ≤ (InitSock p).1 ∧ (InitSock p).1 < (InitSock p).2 ∧ (InitSock p).2 < 0x10000 ∧
    (InitSock p).1 ≠ (InitSock p).2 := by
  have hm : p &&& 0x7FFF = p % 32768 := Nat.and_pow_two_sub_one_eq_mod p 15
  have h1 : (InitSock p).1 = 2 * (p % 32768) := by
    simp only [InitSock, hm, Nat.shiftLeft_eq]; omega
  have h2 : (InitSock p).2 = 2 * (p % 32768) + 1 := by
    show (p &&& 0x7FFF) <<< 1 ||| 0x01 = _
    rw [hm, Nat.shiftLeft_eq]
    have := Nat.mul_add_lt_is_or (i := 1) (b := 1) (by norm_num) (p % 32768)
    simp only [pow_one] at this ⊢
    rw [Nat.mul_comm (p % 32768) 2, ← this]
  have hlt : p % 32768 < 32768 := Nat.mod_lt _ (by norm_num)
  refine ⟨rfl, ?_, rfl, ?_, Nat.zero_le _, ?_, ?_, ?_⟩
  · rw [Nat.and_one_is_mod, h1]; omega
  · rw [Nat.and_one_is_mod, h2]; omega
  · rw [h1, h2]; omega
  · rw [h2]; omega
  · rw [h1, h2]; omega

/-! ## Configuration lines: theorems -/

/-- On a text that starts with `body`, the trim loop entered at
`l = body.length` leaves exactly `body` without its trailing white space. -/
theorem trimLoop_take (body : List Nat) :
    ∀ rest : List Nat,
      (body ++ rest).take (trimLoop (body ++ rest) body.length)
        = (body.reverse.dropWhile isspace).reverse := by
  induction body using List.reverseRecOn with
  | nil => intro rest; simp [trimLoop]
  | append_singleton b c ih =>
    intro rest
    have hL : b ++ [c] ++ rest = b ++ c :: rest := by simp
    have hg : (b ++ c :: rest).getD b.length 0 = c := by
      rw [List.getD_append_right _ _ _ _ le_rfl]; simp
    rw [hL, List.length_append, List.length_singleton, trimLoop, hg, List.reverse_append,
      List.reverse_singleton, List.singleton_append]
    by_cases hc : isspace c = true
    · rw [if_pos hc, List.dropWhile_cons_of_pos hc]
      exact ih (c :: rest)
    · rw [if_neg hc, List.dropWhile_cons_of_neg hc, List.reverse_cons, List.reverse_reverse]
      have : b ++ c :: rest = (b ++ [c]) ++ rest := by simp
      rw [this]
      have hlen : b.length + 1 = (b ++ [c]).length := by simp
      rw [hlen, List.take_left]

/-- A line that ends with a newline is trimmed as described: terminator and
trailing white space removed, nothing else. -/
theorem trimLine_newline (body : List Nat) :
    trimLine (body ++ [10]) = canonicalTrim (body ++ [10]) := by
  have hl : (body ++ [10]).length - 1 = body.length := by simp
  have hc : canonicalTrim (body ++ [10]) = (body.reverse.dropWhile isspace).reverse := by
    simp [canonicalTrim]
  rw [hc]
  simp only [trimLine, hl]
  exact trimLoop_take body [10]

/-- C19, the code at a failing input: the final line `host` of a file with no
terminating newline (codes 104 111 115 116) is parsed as `hos`, its last
character removed though it is not white space; with the newline the same
line is parsed as `host`. -/
theorem C19_unterminated_line_truncated :
    trimLine [104, 111, 115, 116] = [104, 111, 115] ∧
    canonicalTrim [104, 111, 115, 116] = [104, 111, 115, 116] ∧
    trimLine [104, 111, 115, 116, 10] = [104, 111, 115, 116] := by
  refine ⟨by decide, by decide, by decide⟩

/-! ## Array indices: theorems -/

/-- C20: `InitPing` and `PingShift` keep `cur` in `0 .. nsec-1`; for `cur` in
range, `off ≥ 0` and `delt ≥ 0`, `SetPing` writes and `GetPing` reads one slot
whose index lies in `0 .. nsec-1`; and with `0 ≤ nhop ≤ 24` every hop row
`Receive` writes is `tt[r-1]` with `0 < r ≤ nhop`, so `0 ≤ r-1 < 24`; with
`nhop = 0` no hop row is written. -/
theorem C20_indices_in_range (sqrt : ℚ → ℚ) (elapsed : (Nat → Nat) → ℚ) (E : Engine)
    (buf : Nat → Nat) (l : Int) (src : Nat) (h0 : Hdr) :
    (∀ p : Ping, 0 ≤ (InitPing p).cur ∧ (InitPing p).cur < nsec) ∧
    (∀ (d : Int) (p : Ping) (s : Stat), 0 ≤ p.cur → p.cur < nsec →
      0 ≤ (PingShift d p s).1.cur ∧ (PingShift d p s).1.cur < nsec) ∧
    (∀ cur off : Int, 0 ≤ cur → cur < nsec → 0 ≤ off →
      ∃ k : Int, 0 ≤ k ∧ k < nsec ∧
        ∀ (b : Int → Nat) (val : Nat),
          SetPing ⟨cur, b⟩ off val = ⟨cur, fun i => if i = k then val else b i⟩) ∧
    (∀ cur off delt : Int, 0 ≤ cur → cur < nsec → 0 ≤ off → 0 ≤ delt →
      ∃ k : Int, 0 ≤ k ∧ k < nsec ∧ ∀ b : Int → Nat, GetPing delt ⟨cur, b⟩ off = b k) ∧
    (0 ≤ E.nhop → E.nhop ≤ tTTL →
      (Receive sqrt elapsed E buf l src h0).tt = E.tt ∨
      ∃ r : Int, (0 ≤ r - 1 ∧ r - 1 < tTTL) ∧ 0 < r ∧ r ≤ E.nhop ∧
        ((∃ dt : ℚ, (Receive sqrt elapsed E buf l src h0).tt = hopUpdate sqrt E.tt r dt src) ∨
          (Receive sqrt elapsed E buf l src h0).tt =
            fun i => if i = r - 1 then { E.tt (r - 1) with dt := -1, ip := src }
                     else E.tt i)) ∧
    (E.nhop = 0 → (Receive sqrt elapsed E buf l src h0).tt = E.tt) := by
  have hcases := Receive_cases sqrt elapsed E buf l src h0
  refine ⟨?_, ?_, ?_, ?_, ?_, ?_⟩
  · intro p
    constructor <;> simp only [InitPing, nsec] <;> decide
  · intro d p s h0 h1
    unfold nsec at h1 ⊢
    rw [PingShift_cur d p s h0 h1]
    omega
  · intro cur off hc0 hc1 ho
    unfold nsec at hc1
    refine ⟨(cur + off) % 3600, by omega, by unfold nsec; omega, ?_⟩
    intro b val
    simp only [SetPing]
    rw [tmod_nsec_of_nonneg (by omega)]
  · intro cur off delt hc0 hc1 ho hd
    unfold nsec at hc1
    refine ⟨(cur + off + delt) % 3600, by omega, by unfold nsec; omega, ?_⟩
    intro b
    simp only [GetPing]
    rw [tmod_nsec_of_nonneg (by omega)]
  · intro hn0 hn1
    rcases hcases with
      h | ⟨host, dt, ttl, h⟩ | ⟨host, pg, _, h⟩ | ⟨r, dt, nh, h1, h2, _, h⟩ | ⟨r, h1, h2, h⟩
    · left; rw [h]
    · left; rw [h]
    · left; rw [h]
    · right
      exact ⟨r, ⟨by omega, by omega⟩, h1, h2, Or.inl ⟨dt, by rw [h]⟩⟩
    · right
      exact ⟨r, ⟨by omega, by omega⟩, h1, by omega, Or.inr (by rw [h])⟩
  · intro hn
    rcases hcases with
      h | ⟨host, dt, ttl, h⟩ | ⟨host, pg, _, h⟩ | ⟨r, dt, nh, h1, h2, _, h⟩ | ⟨r, h1, h2, h⟩
    · rw [h]
    · rw [h]
    · rw [h]
    · omega
    · omega

theorem C20_indices_in_range_witness :
    (Receive (fun x => x) (fun _ => 5) freshEngine (sampleTraceReply 3) 36 9 sampleHdr).tt
      = freshEngine.tt :=
  (C20_indices_in_range (fun x => x) (fun _ => 5) freshEngine (sampleTraceReply 3) 36 9
    sampleHdr).2.2.2.2.2 rfl

/-! ## Scrolling and selection: theorems -/

/-- `Scroll` writes `top` and `sel` only. -/
theorem Scroll_frame (dir : Int) (st : Engine × Screen) :
    (Scroll dir st).1.ntar = st.1.ntar ∧ (Scroll dir st).2.nhdr = st.2.nhdr ∧
    (Scroll dir st).2.hgt = st.2.hgt ∧ (Scroll dir st).2.mode = st.2.mode ∧
    (Scroll dir st).2.hdr = st.2.hdr := by
  unfold Scroll
  simp only []
  split_ifs <;> exact ⟨rfl, rfl, rfl, rfl, rfl⟩

/-- In traceroute mode, when the targets do not all fit in the window,
`Scroll` with `dir ≠ 0` changes nothing. -/
theorem Scroll_traceroute_noop (dir : Int) (st : Engine × Screen)
    (hfit : ¬ st.1.ntar + st.2.nhdr + 1 < st.2.hgt) (hmode : st.2.mode ≠ 0) (hdir : dir ≠ 0) :
    Scroll dir st = st := by
  unfold Scroll
  simp only [if_neg hfit, if_neg hmode, if_neg hdir]

/-- When everything fits, `Scroll` sets `top` to 0. -/
theorem Scroll_fits_top (dir : Int) (st : Engine × Screen)
    (hfit : st.1.ntar + st.2.nhdr + 1 < st.2.hgt) : (Scroll dir st).2.top = 0 := by
  unfold Scroll
  simp only [if_pos hfit]

/-- In ping mode, when not everything fits, `Scroll(-1)` lowers a positive
`top` by one. -/
theorem Scroll_up_top (st : Engine × Screen)
    (hfit : ¬ st.1.ntar + st.2.nhdr + 1 < st.2.hgt) (hmode : st.2.mode = 0)
    (htop : 1 ≤ st.2.top) : (Scroll (-1) st).2.top = st.2.top - 1 := by
  have h1 : ¬ ((-1 : Int) > 0) := by decide
  have h2 : (-1 : Int) < 0 := by decide
  unfold Scroll
  simp only [if_neg hfit, if_pos hmode, if_neg h1, if_pos h2]
  split_ifs <;> omega

/-- In ping mode, when not everything fits, `Scroll(+1)` raises `top` by one
as long as the bottom row is not the last target. -/
theorem Scroll_down_top (st : Engine × Screen)
    (hfit : ¬ st.1.ntar + st.2.nhdr + 1 < st.2.hgt) (hmode : st.2.mode = 0)
    (hbot : Bottom st.1 st.2 st.2.top < st.1.ntar - 1) :
    (Scroll 1 st).2.top = st.2.top + 1 := by
  have h1 : (1 : Int) > 0 := by decide
  have h2 : (1 : Int).toNat = 1 := rfl
  unfold Scroll
  simp only [if_neg hfit, if_pos hmode, if_pos h1, h2, scrollDown, if_pos hbot]

/-- When the scroll loop cannot change the state, it never ends. -/
theorem scrollUpWhile_stuck (new : Int) (st : Engine × Screen)
    (hc : new < st.2.top) (hs : Scroll (-1) st = st) :
    ∀ fuel : Nat, scrollUpWhile new fuel st = none := by
  intro fuel
  induction fuel with
  | zero => simp only [scrollUpWhile, if_pos hc]
  | succ f ih => simp only [scrollUpWhile, if_pos hc, hs, ih]

theorem scrollDownWhile_stuck (new : Int) (st : Engine × Screen)
    (hc : new > Bottom st.1 st.2 st.2.top) (hs : Scroll 1 st = st) :
    ∀ fuel : Nat, scrollDownWhile new fuel st = none := by
  intro fuel
  induction fuel with
  | zero => simp only [scrollDownWhile, if_pos hc]
  | succ f ih => simp only [scrollDownWhile, if_pos hc, hs, ih]

/-- C21, the code at failing inputs: with 30 targets in a 10-row window in
traceroute mode (`mode = 1`), states that satisfy `ntar ≥ 1`, `0 ≤ sel < ntar`,
`0 ≤ top ≤ ntar`, `hgt ≥ 1`: `newsel(-1)` from `sel = top = 1` and
`newsel(+1)` from `top = 0`, `sel = Bottom(0) = 8` never leave their scroll
loop, whatever the number of iterations allowed, because `Scroll(-1)` and
`Scroll(+1)` leave the state, and so `top`, as it is. -/
theorem C21_newsel_hangs_in_traceroute_mode :
    (newTarget (wideEngine 1) (-1) < (smallScreen 1 1).top ∧
      Scroll (-1) (wideEngine 1, smallScreen 1 1) = (wideEngine 1, smallScreen 1 1) ∧
      ∀ fuel : Nat, newsel fuel (-1) (wideEngine 1, smallScreen 1 1) = none) ∧
    (Bottom (wideEngine 8) (smallScreen 1 0) 0 = 8 ∧
      newTarget (wideEngine 8) 1 > Bottom (wideEngine 8) (smallScreen 1 0) (smallScreen 1 0).top ∧
      Scroll 1 (wideEngine 8, smallScreen 1 0) = (wideEngine 8, smallScreen 1 0) ∧
      ∀ fuel : Nat, newsel fuel 1 (wideEngine 8, smallScreen 1 0) = none) := by
  have hu : Scroll (-1) (wideEngine 1, smallScreen 1 1) = (wideEngine 1, smallScreen 1 1) :=
    Scroll_traceroute_noop _ _ (by decide) (by decide) (by decide)
  have hd : Scroll 1 (wideEngine 8, smallScreen 1 0) = (wideEngine 8, smallScreen 1 0) :=
    Scroll_traceroute_noop _ _ (by decide) (by decide) (by decide)
  have cu : newTarget (wideEngine 1) (-1) < (smallScreen 1 1).top := by decide
  have cd : newTarget (wideEngine 8) 1
      > Bottom (wideEngine 8) (smallScreen 1 0) (smallScreen 1 0).top := by decide
  refine ⟨⟨cu, hu, ?_⟩, ⟨by decide, cd, hd, ?_⟩⟩
  · intro fuel
    have h := scrollUpWhile_stuck _ _ cu hu fuel
    have hneg : (-1 : Int) < 0 := by decide
    simp only [newsel, if_pos hneg, h]
  · intro fuel
    have h := scrollDownWhile_stuck _ _ cd hd fuel
    have hpos : ¬ ((1 : Int) < 0) := by decide
    simp only [newsel, if_neg hpos, h]

theorem newTarget_range (E : Engine) (dir : Int) (hn : 1 ≤ E.ntar) :
    0 ≤ newTarget E dir ∧ newTarget E dir < E.ntar := by
  simp only [newTarget]
  split_ifs <;> omega

theorem rowsFrom_ge (hdr : Int → Bool) : ∀ (m : Nat) (k : Int), (m : Int) ≤ rowsFrom hdr m k
  | 0, _ => by simp [rowsFrom]
  | m + 1, k => by
    have := rowsFrom_ge hdr m (k + 1)
    simp only [rowsFrom]
    push_cast
    split_ifs <;> omega

theorem rowsFrom_add (hdr : Int → Bool) :
    ∀ (a b : Nat) (k : Int),
      rowsFrom hdr (a + b) k = rowsFrom hdr a k + rowsFrom hdr b (k + a)
  | 0, b, k => by simp [rowsFrom]
  | a + 1, b, k => by
    have e : a + 1 + b = (a + b) + 1 := by omega
    have := rowsFrom_add hdr a b (k + 1)
    rw [e]
    simp only [rowsFrom, this]
    push_cast
    have e2 : k + 1 + (a : Int) = k + ((a : Int) + 1) := by ring
    rw [e2]
    ring

/-- When the rows of the remaining targets fit below the row counter, the
loop of `Bottom` runs to the last target. -/
theorem BottomLoop_fits (ntar hgt : Int) (hdr : Int → Bool) :
    ∀ (m : Nat) (k i : Int), i + rowsFrom hdr m k ≤ hgt → k + m = ntar →
      BottomLoop ntar hgt hdr m k i = ntar - 1
  | 0, _, _, _, _ => rfl
  | m + 1, k, i, h, hk => by
    have hge := rowsFrom_ge hdr m (k + 1)
    simp only [rowsFrom] at h
    simp only [BottomLoop]
    push_cast at hk
    by_cases e : i + (if hdr k = true then 2 else 1) = hgt
    · rw [if_pos e]
      have : (m : Int) = 0 := by omega
      omega
    · rw [if_neg e, if_neg (by omega)]
      exact BottomLoop_fits ntar hgt hdr m (k + 1) _ (by omega) (by omega)

/-- When everything fits and the header lines are counted in `nhdr`, the
bottom row is the last target, whatever `top` is. -/
theorem Bottom_fits (E : Engine) (s : Screen) (top : Int)
    (h0 : 0 ≤ top) (h1 : top ≤ E.ntar) (hfit : E.ntar + s.nhdr + 1 < s.hgt)
    (hrows : rowsFrom s.hdr E.ntar.toNat 0 ≤ E.ntar + s.nhdr) :
    Bottom E s top = E.ntar - 1 := by
  have hsplit := rowsFrom_add s.hdr top.toNat (E.ntar - top).toNat 0
  have e : top.toNat + (E.ntar - top).toNat = E.ntar.toNat := by omega
  rw [e] at hsplit
  have hge := rowsFrom_ge s.hdr top.toNat 0
  have hz : (0 : Int) + (top.toNat : Int) = top := by omega
  rw [hz] at hsplit
  simp only [Bottom, hfit, true_or, if_true]
  exact BottomLoop_fits E.ntar s.hgt s.hdr _ top 2 (by omega) (by omega)

/-- From `top ≥ ntar` on, the bottom row is the last target. -/
theorem Bottom_of_top_ge (E : Engine) (s : Screen) (top : Int) (h : E.ntar ≤ top) :
    Bottom E s top = E.ntar - 1 := by
  have e : (E.ntar - top).toNat = 0 := by omega
  simp only [Bottom, e, BottomLoop]

/-- The loop `while (new<top) Scroll(-1)` ends within `top` iterations in
ping mode, and whenever everything fits. -/
theorem scrollUpWhile_terminates (new : Int) (hnew : 0 ≤ new) :
    ∀ (fuel : Nat) (st : Engine × Screen),
      (st.2.mode = 0 ∨ st.1.ntar + st.2.nhdr + 1 < st.2.hgt) → st.2.top ≤ fuel →
      ∃ r, scrollUpWhile new fuel st = some r ∧ r.1.ntar = st.1.ntar := by
  intro fuel
  induction fuel with
  | zero =>
    intro st _ ht
    have : ¬ new < st.2.top := by push_cast at ht; omega
    exact ⟨st, by simp only [scrollUpWhile, if_neg this], rfl⟩
  | succ f ih =>
    intro st hm ht
    by_cases hc : new < st.2.top
    · simp only [scrollUpWhile, if_pos hc]
      obtain ⟨a, b, c, d, _⟩ := Scroll_frame (-1) st
      have htop : (Scroll (-1) st).2.top ≤ f := by
        by_cases hfit : st.1.ntar + st.2.nhdr + 1 < st.2.hgt
        · rw [Scroll_fits_top (-1) st hfit]; omega
        · have hmode : st.2.mode = 0 := hm.resolve_right hfit
          rw [Scroll_up_top st hfit hmode (by omega)]
          push_cast at ht; omega
      obtain ⟨r, hr, hn⟩ := ih (Scroll (-1) st) (by rw [a, b, c, d]; exact hm) htop
      exact ⟨r, hr, by rw [hn, a]⟩
    · exact ⟨st, by simp only [scrollUpWhile, if_neg hc], rfl⟩

/-- The loop `while (new>Bottom(top)) Scroll(+1)` ends within `ntar - top`
iterations in ping mode, and is not entered when everything fits. -/
theorem scrollDownWhile_terminates (new : Int) :
    ∀ (fuel : Nat) (st : Engine × Screen),
      (st.2.mode = 0 ∨ st.1.ntar + st.2.nhdr + 1 < st.2.hgt) →
      rowsFrom st.2.hdr st.1.ntar.toNat 0 ≤ st.1.ntar + st.2.nhdr →
      new ≤ st.1.ntar - 1 → 0 ≤ st.2.top → st.1.ntar - st.2.top ≤ fuel →
      ∃ r, scrollDownWhile new fuel st = some r ∧ r.1.ntar = st.1.ntar := by
  intro fuel
  induction fuel with
  | zero =>
    intro st _ _ hnew _ ht
    have hb := Bottom_of_top_ge st.1 st.2 st.2.top (by push_cast at ht; omega)
    have : ¬ new > Bottom st.1 st.2 st.2.top := by rw [hb]; omega
    exact ⟨st, by simp only [scrollDownWhile, if_neg this], rfl⟩
  | succ f ih =>
    intro st hm hrows hnew h0 ht
    by_cases hc : new > Bottom st.1 st.2 st.2.top
    · simp only [scrollDownWhile, if_pos hc]
      obtain ⟨a, b, c, d, e⟩ := Scroll_frame 1 st
      have hlt : st.2.top < st.1.ntar := by
        by_contra hge
        rw [Bottom_of_top_ge st.1 st.2 st.2.top (by omega)] at hc
        omega
      have hfit : ¬ st.1.ntar + st.2.nhdr + 1 < st.2.hgt := by
        intro hfit
        rw [Bottom_fits st.1 st.2 st.2.top h0 (by omega) hfit hrows] at hc
        omega
      have hmode : st.2.mode = 0 := hm.resolve_right hfit
      have htop : (Scroll 1 st).2.top = st.2.top + 1 :=
        Scroll_down_top st hfit hmode (by omega)
      obtain ⟨r, hr, hn⟩ := ih (Scroll 1 st) (by rw [a, b, c, d]; exact hm)
        (by rw [a, b, e]; exact hrows) (by rw [a]; exact hnew) (by rw [htop]; omega)
        (by rw [a, htop]; push_cast at ht; omega)
      exact ⟨r, hr, by rw [hn, a]⟩
    · exact ⟨st, by simp only [scrollDownWhile, if_neg hc], rfl⟩

/-- In ping mode, and in either mode when everything fits, `newsel` returns
for `dir = -1` and `dir = +1` within `ntar` iterations of its loop, with `sel`
in `0 .. ntar-1`; and every iteration of either loop changes `top`. -/
theorem newsel_terminates (dir : Int) (st : Engine × Screen)
    (hdir : dir = -1 ∨ dir = 1) (hn : 1 ≤ st.1.ntar)
    (ht0 : 0 ≤ st.2.top) (ht1 : st.2.top ≤ st.1.ntar)
    (hm : st.2.mode = 0 ∨ st.1.ntar + st.2.nhdr + 1 < st.2.hgt)
    (hrows : rowsFrom st.2.hdr st.1.ntar.toNat 0 ≤ st.1.ntar + st.2.nhdr) :
    (∃ r, newsel st.1.ntar.toNat dir st = some r ∧ 0 ≤ r.1.sel ∧ r.1.sel < st.1.ntar) ∧
    (newTarget st.1 (-1) < st.2.top → (Scroll (-1) st).2.top ≠ st.2.top) ∧
    (newTarget st.1 1 > Bottom st.1 st.2 st.2.top → (Scroll 1 st).2.top ≠ st.2.top) := by
  obtain ⟨hnew0, hnew1⟩ := newTarget_range st.1 dir hn
  refine ⟨?_, ?_, ?_⟩
  · rcases hdir with hd | hd
    · have hneg : dir < 0 := by omega
      obtain ⟨r, hr, hrn⟩ := scrollUpWhile_terminates (newTarget st.1 dir) hnew0
        st.1.ntar.toNat st hm (by omega)
      refine ⟨(InitTrace { r.1 with sel := newTarget st.1 dir, nhop := 0 }, r.2), ?_,
        hnew0, hnew1⟩
      simp only [newsel, if_pos hneg, hr]
    · have hpos : ¬ dir < 0 := by omega
      obtain ⟨r, hr, hrn⟩ := scrollDownWhile_terminates (newTarget st.1 dir)
        st.1.ntar.toNat st hm hrows (by omega) ht0 (by omega)
      refine ⟨(InitTrace { r.1 with sel := newTarget st.1 dir, nhop := 0 }, r.2), ?_,
        hnew0, hnew1⟩
      simp only [newsel, if_neg hpos, hr]
  · intro hc
    have h0 := (newTarget_range st.1 (-1) hn).1
    by_cases hfit : st.1.ntar + st.2.nhdr + 1 < st.2.hgt
    · rw [Scroll_fits_top (-1) st hfit]; omega
    · rw [Scroll_up_top st hfit (hm.resolve_right hfit) (by omega)]; omega
  · intro hc
    have h1 := (newTarget_range st.1 1 hn).2
    have hfit : ¬ st.1.ntar + st.2.nhdr + 1 < st.2.hgt := by
      intro hfit
      rw [Bottom_fits st.1 st.2 st.2.top ht0 ht1 hfit hrows] at hc
      omega
    rw [Scroll_down_top st hfit (hm.resolve_right hfit) (by omega)]; omega

end Cping
